import Mathlib

set_option maxRecDepth 8000

/-!
Verification of the streaming cell-splitting core of the bot-typist repository.

Text is modelled as a list of UTF-16 code units (`Nat`), because the source
operates on JavaScript strings, which are sequences of UTF-16 units and may
hold lone surrogate halves when streamed input splits a surrogate pair.

The embedded code follows:
  * `Scanner` from `src/lib/scanner.ts` (the buffered look-ahead scanner);
  * `BotResponse` from the evolved `botresponse.ts` (the file importing
    `CANCELLED`, `takeLabel`, and supporting markdown/python/typescript);
  * the rendezvous pipe `makePipe` from `src/lib/streams.ts`;
  * `ChildPipe.close` from `src/lib/processes.ts`.
-/

/-- A unit of JavaScript string text: one UTF-16 code unit. -/
abbrev Unit16 := Nat

/-- A JavaScript string: a sequence of UTF-16 code units. -/
abbrev Text := List Unit16

/-- Converts a Lean string literal of BMP characters to its UTF-16 units.
Used only for ASCII literals appearing in the source, where code points and
UTF-16 units agree. -/
def uts (s : String) : Text := s.toList.map Char.toNat

/-- The code units removed by JavaScript `String.prototype.trim`:
WhiteSpace and LineTerminator code points. -/
def jsTrimWs (u : Unit16) : Bool :=
  u = 9 ∨ u = 10 ∨ u = 11 ∨ u = 12 ∨ u = 13 ∨ u = 32 ∨ u = 160 ∨
  u = 0x1680 ∨ (0x2000 ≤ u ∧ u ≤ 0x200A) ∨ u = 0x2028 ∨ u = 0x2029 ∨
  u = 0x202F ∨ u = 0x205F ∨ u = 0x3000 ∨ u = 0xFEFF

/-- Splits a text into its first line (including the terminating newline,
if any) and the remainder.  A text without a newline is a single line. -/
def lineSplit : Text → Text × Text
  | [] => ([], [])
  | u :: r =>
    if u = 10 then ([10], r)
    else
      let p := lineSplit r
      (u :: p.1, p.2)

theorem lineSplit_append (t : Text) : (lineSplit t).1 ++ (lineSplit t).2 = t := by
  induction t with
  | nil => rfl
  | cons u r ih =>
    by_cases h : u = 10 <;> simp [lineSplit, h, ih]

theorem lineSplit_fst_length_pos {t : Text} (h : t ≠ []) :
    0 < (lineSplit t).1.length := by
  cases t with
  | nil => exact absurd rfl h
  | cons u r => by_cases hu : u = 10 <;> simp [lineSplit, hu]

/-- The index of the first newline in a text (JavaScript `indexOf("\n")`,
with `none` standing for `-1`). -/
def idxOfNl : Text → Option Nat
  | [] => none
  | u :: r => if u = 10 then some 0 else (idxOfNl r).map (· + 1)

theorem idxOfNl_eq_none_iff (t : Text) : idxOfNl t = none ↔ 10 ∉ t := by
  induction t with
  | nil => simp [idxOfNl]
  | cons u r ih =>
    by_cases h : u = 10
    · simp [idxOfNl, h]
    · cases hr : idxOfNl r <;>
        simp_all [idxOfNl, h, hr, eq_comm]


theorem lineSplit_no_nl {a : Text} (h : 10 ∉ a) (b : Text) :
    lineSplit (a ++ b) = (a ++ (lineSplit b).1, (lineSplit b).2) := by
  induction a with
  | nil => simp
  | cons u r ih =>
    have hu : u ≠ 10 := fun e => h (e ▸ List.mem_cons_self u r)
    have hr : 10 ∉ r := fun m => h (List.mem_cons_of_mem _ m)
    simp [lineSplit, hu, ih hr]

theorem lineSplit_mid {a b : Text} (h : 10 ∉ a) :
    lineSplit (a ++ 10 :: b) = (a ++ [10], b) := by
  rw [lineSplit_no_nl h]
  simp [lineSplit]

theorem lineSplit_all_no_nl {t : Text} (h : 10 ∉ t) : lineSplit t = (t, []) := by
  have := lineSplit_no_nl h []
  simpa [lineSplit] using this

theorem idxOfNl_some_decomp {t : Text} {e : Nat} (h : idxOfNl t = some e) :
    ∃ x y, t = x ++ 10 :: y ∧ 10 ∉ x ∧ x.length = e := by
  induction t generalizing e with
  | nil => simp [idxOfNl] at h
  | cons u r ih =>
    by_cases hu : u = 10
    · subst hu
      simp [idxOfNl] at h
      exact ⟨[], r, by simp, by simp, by simp [← h]⟩
    · simp only [idxOfNl, hu, if_false, Option.map_eq_some'] at h
      rcases h with ⟨e', he', rfl⟩
      rcases ih he' with ⟨x, y, hxy, hx, hlen⟩
      exact ⟨u :: x, y, by simp [hxy], by simp [hu, hx, Ne.symm],
        by simp [hlen]⟩

theorem take_of_decomp {x y : Text} (hx : 10 ∉ x) :
    (x ++ 10 :: y).take (x.length + 1) = x ++ [10] ∧
    (x ++ 10 :: y).drop (x.length + 1) = y := by
  constructor
  · rw [List.take_append_eq_append_take]
    simp
  · rw [List.drop_append_eq_append_drop]
    simp

theorem prefix_all {a b : Text} (h : a <+: b) {p : Unit16 → Bool}
    (hb : b.all p = true) : a.all p = true := by
  rw [List.all_eq_true] at hb ⊢
  exact fun x hx => hb x (h.subset hx)

/-- The state of a `Scanner` (scanner.ts): the buffered, not yet consumed
text, the chunks the backing `Reader` has not yet delivered, and whether
the reader has reported `DONE`. -/
structure ScanState where
  buffer : Text
  chunks : List Text
  inputDone : Bool
deriving DecidableEq

/-- The logical text remaining in the stream: buffered text followed by all
undelivered chunks. -/
def absText (s : ScanState) : Text := s.buffer ++ s.chunks.flatten

/-- Scanner invariant: once the reader has reported `DONE`, no chunks remain.
It holds for every initial state and is preserved by every operation. -/
def SInv (s : ScanState) : Prop := s.inputDone = true → s.chunks = []

/-- Fuel measure: enough fuel for any scanner loop to run to completion.
Consuming a unit lowers it by two, a successful pull lowers it by at least
two (a chunk moves out of `chunks`), and a final failed pull lowers it by
one (the `inputDone` flag flips). -/
def nu (s : ScanState) : Nat :=
  2 * ((absText s).length + s.chunks.length) + (bif s.inputDone then 0 else 1)

/-- `Scanner.atEnd` (scanner.ts line 28): buffer empty and no more input. -/
def ScanState.atEnd (s : ScanState) : Bool :=
  s.buffer.isEmpty && s.inputDone

namespace Scanner

/-- Recursion for `pull`: reads chunks until a non-empty one arrives or the
reader reports `DONE`. -/
def pullAux (buf : Text) (d : Bool) : List Text → Bool × ScanState
  | [] => (false, ⟨buf, [], true⟩)
  | c :: cs => if c = [] then pullAux buf d cs else (true, ⟨buf ++ c, cs, d⟩)

/-- `Scanner.pull` (scanner.ts lines 37-48): reads more input into the
buffer, skipping empty chunks; returns false when there is no more input. -/
def pull (s : ScanState) : Bool × ScanState := pullAux s.buffer s.inputDone s.chunks

theorem pullAux_false {buf d cs} {s' : ScanState}
    (h : pullAux buf d cs = (false, s')) :
    s' = ⟨buf, [], true⟩ ∧ cs.flatten = [] := by
  induction cs with
  | nil =>
    simp [pullAux] at h
    simp [h.symm]
  | cons c cs ih =>
    by_cases hc : c = []
    · simp [pullAux, hc] at h
      rcases ih h with ⟨h1, h2⟩
      simp [h1, hc, h2]
    · simp [pullAux, hc] at h

theorem pullAux_true {buf d cs} {s' : ScanState}
    (h : pullAux buf d cs = (true, s')) :
    s'.buffer ++ s'.chunks.flatten = buf ++ cs.flatten ∧
    s'.inputDone = d ∧ s'.chunks.length < cs.length ∧
    buf.length < s'.buffer.length := by
  induction cs with
  | nil => simp [pullAux] at h
  | cons c cs ih =>
    by_cases hc : c = []
    · simp [pullAux, hc] at h
      rcases ih h with ⟨h1, h2, h3, h4⟩
      refine ⟨by simpa [hc] using h1, h2, Nat.lt_succ_of_lt h3, h4⟩
    · simp [pullAux, hc] at h
      have hlen : 0 < c.length := List.length_pos.mpr hc
      refine ⟨?_, ?_, ?_, ?_⟩ <;> simp [← h, hc] <;> omega

/-- A failed pull: the logical text was already fully buffered, the buffer
is unchanged, and the done flag is set. -/
theorem pull_false {s : ScanState} {s' : ScanState}
    (h : pull s = (false, s')) :
    s' = ⟨s.buffer, [], true⟩ ∧ absText s = s.buffer := by
  rcases pullAux_false h with ⟨h1, h2⟩
  exact ⟨h1, by simp [absText, h2]⟩

/-- A successful pull: the logical text is unchanged, the chunk count
strictly drops, and the buffer strictly grows. -/
theorem pull_true {s : ScanState} {s' : ScanState}
    (h : pull s = (true, s')) :
    absText s' = absText s ∧ s'.inputDone = s.inputDone ∧
    s'.chunks.length < s.chunks.length ∧ s.buffer.length < s'.buffer.length := by
  rcases pullAux_true h with ⟨h1, h2, h3, h4⟩
  exact ⟨h1, h2, h3, h4⟩

theorem pull_false_nu {s : ScanState} {s' : ScanState}
    (h : pull s = (false, s')) : nu s' ≤ nu s := by
  rcases pull_false h with ⟨h1, h2⟩
  subst h1
  simp [nu, absText, h2] at *
  cases hd : s.inputDone <;> simp [hd] <;> omega

theorem pull_true_nu {s : ScanState} {s' : ScanState}
    (h : pull s = (true, s')) : nu s' + 2 ≤ nu s := by
  rcases pull_true h with ⟨h1, h2, h3, _⟩
  simp [nu, h1, h2]
  cases hd : s.inputDone <;> simp <;> omega

theorem pull_false_sinv {s : ScanState} {s' : ScanState}
    (h : pull s = (false, s')) : SInv s' := by
  rcases pull_false h with ⟨h1, _⟩
  subst h1
  intro _
  rfl

theorem pull_true_sinv {s : ScanState} {s' : ScanState} (hs : SInv s)
    (h : pull s = (true, s')) : SInv s' := by
  intro hd
  rcases pull_true h with ⟨_, h2, h3, _⟩
  have := hs (h2 ▸ hd)
  simp [this] at h3

/-- Fuelled loop of `fillTo` (scanner.ts lines 54-61). -/
def fillToF : Nat → Nat → ScanState → Bool × ScanState
  | 0, _, s => (false, s)
  | fuel + 1, n, s =>
    if s.buffer.length < n then
      if (pull s).1 then fillToF fuel n (pull s).2 else (false, (pull s).2)
    else (true, s)

/-- `Scanner.fillTo(n)`: pulls until the buffer holds at least `n` units. -/
def fillTo (n : Nat) (s : ScanState) : Bool × ScanState := fillToF (nu s + 1) n s

/-- The buffer is always a prefix of the remaining logical text. -/
theorem buffer_prefixOf_absText (s : ScanState) : s.buffer <+: absText s :=
  ⟨s.chunks.flatten, rfl⟩

theorem buffer_eq_take (s : ScanState) :
    s.buffer = (absText s).take s.buffer.length :=
  List.prefix_iff_eq_take.mp (buffer_prefixOf_absText s)

theorem fillToF_spec (fuel : Nat) : ∀ (n : Nat) (s : ScanState), nu s < fuel → SInv s →
    (fillToF fuel n s).1 = decide (n ≤ (absText s).length) ∧
    absText (fillToF fuel n s).2 = absText s ∧
    SInv (fillToF fuel n s).2 ∧
    nu (fillToF fuel n s).2 ≤ nu s ∧
    (fillToF fuel n s).2.inputDone =
      (s.inputDone || decide ((absText s).length < n)) ∧
    ((fillToF fuel n s).1 = true → n ≤ (fillToF fuel n s).2.buffer.length) := by
  induction fuel with
  | zero => intro n s h; omega
  | succ fuel ih =>
    intro n s hfuel hinv
    by_cases hb : s.buffer.length < n
    · rcases hp : pull s with ⟨ok, s'⟩
      cases ok
      · rcases pull_false hp with ⟨hs', habs⟩
        have hlen : (absText s).length < n := by rw [habs]; exact hb
        have hnu := pull_false_nu hp
        have heq : fillToF (fuel + 1) n s = (false, s') := by
          simp only [fillToF, if_pos hb, hp, Bool.false_eq_true, reduceIte]
        rw [heq]
        subst hs'
        have habs' : absText ⟨s.buffer, [], true⟩ = s.buffer := by simp [absText]
        refine ⟨by simp [Nat.not_le.mpr hlen], by rw [habs', habs],
          pull_false_sinv hp, hnu, by simp [hlen], by simp⟩
      · have hnu := pull_true_nu hp
        rcases pull_true hp with ⟨habs, hdone, _, _⟩
        have heq : fillToF (fuel + 1) n s = fillToF fuel n s' := by
          simp only [fillToF, if_pos hb, hp, reduceIte]
        have hrec := ih n s' (by omega) (pull_true_sinv hinv hp)
        rw [heq]
        refine ⟨by rw [hrec.1, habs], by rw [hrec.2.1, habs], hrec.2.2.1,
          le_trans hrec.2.2.2.1 (by omega), ?_, hrec.2.2.2.2.2⟩
        rw [hrec.2.2.2.2.1, habs, hdone]
    · have hle : n ≤ s.buffer.length := le_of_not_lt hb
      have hlen : n ≤ (absText s).length := le_trans hle (buffer_prefixOf_absText s).length_le
      have heq : fillToF (fuel + 1) n s = (true, s) := by
        simp only [fillToF, if_neg hb]
      rw [heq]
      exact ⟨by simp [hlen], rfl, hinv, le_refl _,
        by simp [Nat.not_lt.mpr hlen], fun _ => hle⟩

theorem fillTo_spec (n : Nat) (s : ScanState) (hinv : SInv s) :
    (fillTo n s).1 = decide (n ≤ (absText s).length) ∧
    absText (fillTo n s).2 = absText s ∧
    SInv (fillTo n s).2 ∧
    nu (fillTo n s).2 ≤ nu s ∧
    (fillTo n s).2.inputDone = (s.inputDone || decide ((absText s).length < n)) ∧
    ((fillTo n s).1 = true → n ≤ (fillTo n s).2.buffer.length) :=
  fillToF_spec (nu s + 1) n s (Nat.lt_succ_self _) hinv

/-- Fuelled loop of `startsWith` (scanner.ts lines 67-77). -/
def startsWithF : Nat → Text → ScanState → Bool × ScanState
  | 0, _, s => (false, s)
  | fuel + 1, p, s =>
    if s.buffer.length < p.length then
      if s.buffer ≠ p.take s.buffer.length then (false, s)
      else if (pull s).1 then startsWithF fuel p (pull s).2
      else (false, (pull s).2)
    else (p.isPrefixOf s.buffer, s)

/-- `Scanner.startsWith(prefix)`: true if the stream starts with the given
token, pulling only as much input as needed to decide. -/
def startsWith (p : Text) (s : ScanState) : Bool × ScanState :=
  startsWithF (nu s + 1) p s

/-- Whether `t` is a proper prefix of `p`: the pure condition under which
`startsWith p` exhausts the input. -/
def properPrefixOf (t p : Text) : Bool := t.isPrefixOf p && decide (t.length < p.length)

theorem startsWithF_spec (fuel : Nat) : ∀ (p : Text) (s : ScanState),
    nu s < fuel → SInv s →
    (startsWithF fuel p s).1 = p.isPrefixOf (absText s) ∧
    absText (startsWithF fuel p s).2 = absText s ∧
    SInv (startsWithF fuel p s).2 ∧
    nu (startsWithF fuel p s).2 ≤ nu s ∧
    (startsWithF fuel p s).2.inputDone =
      (s.inputDone || properPrefixOf (absText s) p) ∧
    ((startsWithF fuel p s).1 = true → p.length ≤ (startsWithF fuel p s).2.buffer.length) := by
  induction fuel with
  | zero => intro p s h; omega
  | succ fuel ih =>
    intro p s hfuel hinv
    have hbp := buffer_prefixOf_absText s
    by_cases hb : s.buffer.length < p.length
    · by_cases hm : s.buffer = p.take s.buffer.length
      · rcases hp : pull s with ⟨ok, s'⟩
        cases ok
        · rcases pull_false hp with ⟨hs', habs⟩
          have hnu := pull_false_nu hp
          have hnp : p.isPrefixOf (absText s) = false := by
            apply Bool.eq_false_iff.mpr
            intro hc
            have := (List.isPrefixOf_iff_prefix.mp hc).length_le
            rw [habs] at this
            omega
          have hpp : properPrefixOf (absText s) p = true := by
            rw [properPrefixOf, Bool.and_eq_true, List.isPrefixOf_iff_prefix]
            refine ⟨?_, by rw [habs]; simpa using hb⟩
            rw [List.prefix_iff_eq_take, habs]
            exact hm
          have heq : startsWithF (fuel + 1) p s = (false, s') := by
            simp only [startsWithF, if_pos hb]
            rw [if_neg (not_not_intro hm), hp]
            simp
          rw [heq]
          subst hs'
          have habs' : absText ⟨s.buffer, [], true⟩ = s.buffer := by simp [absText]
          refine ⟨hnp.symm, by rw [habs', habs], pull_false_sinv hp, hnu,
            by simp [hpp], by simp⟩
        · have hnu := pull_true_nu hp
          rcases pull_true hp with ⟨habs, hdone, _, _⟩
          have heq : startsWithF (fuel + 1) p s = startsWithF fuel p s' := by
            simp only [startsWithF, if_pos hb]
            rw [if_neg (not_not_intro hm), hp]
            simp
          have hrec := ih p s' (by omega) (pull_true_sinv hinv hp)
          rw [heq]
          refine ⟨by rw [hrec.1, habs], by rw [hrec.2.1, habs], hrec.2.2.1,
            le_trans hrec.2.2.2.1 (by omega), ?_, hrec.2.2.2.2.2⟩
          rw [hrec.2.2.2.2.1, habs, hdone]
      · have hbt := buffer_eq_take s
        have hnp : p.isPrefixOf (absText s) = false := by
          apply Bool.eq_false_iff.mpr
          intro hc
          have hc' : p <+: absText s := List.isPrefixOf_iff_prefix.mp hc
          have h2 : (absText s).take s.buffer.length =
              ((absText s).take p.length).take s.buffer.length := by
            rw [List.take_take, min_eq_left (le_of_lt hb)]
          have h3 : ((absText s).take p.length).take s.buffer.length =
              p.take s.buffer.length := by
            rw [← List.prefix_iff_eq_take.mp hc']
          exact hm ((hbt.trans h2).trans h3)
        have hpp : properPrefixOf (absText s) p = false := by
          rw [properPrefixOf, Bool.and_eq_false_iff]
          left
          apply Bool.eq_false_iff.mpr
          intro hc
          have hc' : absText s <+: p := List.isPrefixOf_iff_prefix.mp hc
          have hlb : s.buffer.length ≤ (absText s).length := hbp.length_le
          have h4 : s.buffer = (p.take (absText s).length).take s.buffer.length := by
            rw [← List.prefix_iff_eq_take.mp hc']
            exact hbt
          rw [List.take_take, min_eq_left hlb] at h4
          exact hm h4
        have heq : startsWithF (fuel + 1) p s = (false, s) := by
          simp only [startsWithF, if_pos hb, ne_eq, hm, not_false_eq_true, if_true]
        rw [heq]
        exact ⟨hnp.symm, rfl, hinv, le_refl _, by simp [hpp], by simp⟩
    · have hble : p.length ≤ s.buffer.length := le_of_not_lt hb
      have hbt := buffer_eq_take s
      have hval : p.isPrefixOf s.buffer = p.isPrefixOf (absText s) := by
        rcases h : p.isPrefixOf (absText s)
        · apply Bool.eq_false_iff.mpr
          intro hc
          exact (Bool.eq_false_iff.mp h) (List.isPrefixOf_iff_prefix.mpr
            ((List.isPrefixOf_iff_prefix.mp hc).trans hbp))
        · have hc' : p <+: absText s := List.isPrefixOf_iff_prefix.mp h
          have h4 : p = s.buffer.take p.length := by
            rw [hbt, List.take_take, min_eq_left hble]
            exact List.prefix_iff_eq_take.mp hc'
          rw [List.isPrefixOf_iff_prefix, List.prefix_iff_eq_take]
          exact h4
      have hpp : properPrefixOf (absText s) p = false := by
        rw [properPrefixOf, Bool.and_eq_false_iff]
        right
        have := hbp.length_le
        simp only [decide_eq_false_iff_not, Nat.not_lt]
        omega
      have heq : startsWithF (fuel + 1) p s = (p.isPrefixOf s.buffer, s) := by
        simp only [startsWithF, if_neg hb]
      rw [heq]
      exact ⟨hval, rfl, hinv, le_refl _, by simp [hpp],
        fun _ => hble⟩

theorem startsWith_spec (p : Text) (s : ScanState) (hinv : SInv s) :
    (startsWith p s).1 = p.isPrefixOf (absText s) ∧
    absText (startsWith p s).2 = absText s ∧
    SInv (startsWith p s).2 ∧
    nu (startsWith p s).2 ≤ nu s ∧
    (startsWith p s).2.inputDone = (s.inputDone || properPrefixOf (absText s) p) ∧
    ((startsWith p s).1 = true → p.length ≤ (startsWith p s).2.buffer.length) :=
  startsWithF_spec (nu s + 1) p s (Nat.lt_succ_self _) hinv


/-- `Scanner.skipToken(token)` (scanner.ts lines 80-86): advances past the
token if it is next in the stream. -/
def skipToken (p : Text) (s : ScanState) : Bool × ScanState :=
  let r := startsWith p s
  if r.1 then (true, { r.2 with buffer := r.2.buffer.drop p.length })
  else (false, r.2)

theorem skipToken_spec (p : Text) (s : ScanState) (hinv : SInv s) :
    (skipToken p s).1 = p.isPrefixOf (absText s) ∧
    absText (skipToken p s).2 =
      (if p.isPrefixOf (absText s) then (absText s).drop p.length else absText s) ∧
    SInv (skipToken p s).2 ∧
    nu (skipToken p s).2 ≤ nu s ∧
    ((skipToken p s).1 = true → nu (skipToken p s).2 + 2 * p.length ≤ nu s) ∧
    (skipToken p s).2.inputDone = (s.inputDone || properPrefixOf (absText s) p) := by
  rcases startsWith_spec p s hinv with ⟨h1, h2, h3, h4, h5, h6⟩
  rcases hr : startsWith p s with ⟨ok, s1⟩
  rw [hr] at h1 h2 h3 h4 h5 h6
  simp only at h1 h2 h3 h4 h5 h6
  cases ok
  · simp only [skipToken, hr, Bool.false_eq_true, reduceIte]
    exact ⟨h1, by rw [← h1]; simp [h2], h3, h4, by simp, h5⟩
  · have hpre : p.isPrefixOf (absText s) = true := h1.symm
    have hlen : p.length ≤ s1.buffer.length := h6 rfl
    have habs : absText s1 = absText s := h2
    have hdrop : s1.buffer.drop p.length ++ s1.chunks.flatten =
        (absText s1).drop p.length := by
      rw [absText, List.drop_append_eq_append_drop]
      have : p.length - s1.buffer.length = 0 := by omega
      rw [this]
      simp
    simp only [skipToken, hr, reduceIte]
    refine ⟨h1, ?_, ?_, ?_, ?_, h5⟩
    · rw [← h1]
      simp only [reduceIte]
      show s1.buffer.drop p.length ++ s1.chunks.flatten = _
      rw [hdrop, habs]
    · intro hd
      have := h3 hd
      simpa [this]
    · have hle : nu ⟨s1.buffer.drop p.length, s1.chunks, s1.inputDone⟩ ≤ nu s1 := by
        simp only [nu, absText]
        have : (s1.buffer.drop p.length).length ≤ s1.buffer.length := by
          simp
        simp only [List.length_append]
        cases s1.inputDone <;> simp <;> omega
      exact le_trans hle h4
    · intro _
      have hplen : p.length ≤ (absText s1).length := by
        have := (List.isPrefixOf_iff_prefix.mp (habs ▸ hpre)).length_le
        omega
      have : nu ⟨s1.buffer.drop p.length, s1.chunks, s1.inputDone⟩ + 2 * p.length ≤ nu s1 := by
        simp only [nu]
        have hda : absText ⟨s1.buffer.drop p.length, s1.chunks, s1.inputDone⟩ =
            (absText s1).drop p.length := hdrop
        rw [hda]
        have : ((absText s1).drop p.length).length = (absText s1).length - p.length := by
          simp
        rw [this]
        cases s1.inputDone <;> simp <;> omega
      omega

/-- `Scanner.takeBuffer` (scanner.ts lines 89-93): clears and returns the
buffer. -/
def takeBuffer (s : ScanState) : Text × ScanState :=
  (s.buffer, { s with buffer := [] })

/-- `Scanner.takeChunkWithinLine` (scanner.ts lines 115-126): takes input up
to and including the next buffered newline; pulls once if the buffer is
empty; returns the whole buffer if it holds no newline. -/
def takeChunkWithinLine (s : ScanState) : Text × ScanState :=
  if (fillTo 1 s).1 = false then ([], (fillTo 1 s).2)
  else
    match idxOfNl (fillTo 1 s).2.buffer with
    | none => ((fillTo 1 s).2.buffer, { (fillTo 1 s).2 with buffer := [] })
    | some e =>
      ((fillTo 1 s).2.buffer.take (e + 1),
        { (fillTo 1 s).2 with buffer := (fillTo 1 s).2.buffer.drop (e + 1) })

theorem takeChunkWithinLine_spec_empty {s : ScanState} (hinv : SInv s)
    (h : absText s = []) :
    (takeChunkWithinLine s).1 = [] ∧
    absText (takeChunkWithinLine s).2 = [] ∧
    (takeChunkWithinLine s).2.inputDone = true ∧
    SInv (takeChunkWithinLine s).2 ∧
    nu (takeChunkWithinLine s).2 ≤ nu s := by
  rcases fillTo_spec 1 s hinv with ⟨h1, h2, h3, h4, h5, _⟩
  have hv : (fillTo 1 s).1 = false := by rw [h1, h]; simp
  have heq : takeChunkWithinLine s = ([], (fillTo 1 s).2) := by
    simp only [takeChunkWithinLine, hv, reduceIte]
  rw [heq]
  exact ⟨rfl, by rw [h2, h], by rw [h5, h]; simp, h3, h4⟩

theorem takeChunkWithinLine_spec_ne {s : ScanState} (hinv : SInv s)
    (h : absText s ≠ []) :
    (takeChunkWithinLine s).1 ≠ [] ∧
    (takeChunkWithinLine s).1 <+: absText s ∧
    absText (takeChunkWithinLine s).2 =
      (absText s).drop (takeChunkWithinLine s).1.length ∧
    (takeChunkWithinLine s).2.inputDone = s.inputDone ∧
    SInv (takeChunkWithinLine s).2 ∧
    nu (takeChunkWithinLine s).2 + 2 * (takeChunkWithinLine s).1.length ≤ nu s ∧
    (10 ∈ (takeChunkWithinLine s).1 →
      (takeChunkWithinLine s).1 = (lineSplit (absText s)).1) := by
  rcases fillTo_spec 1 s hinv with ⟨h1, h2, h3, h4, h5, h6⟩
  have hlen : 1 ≤ (absText s).length := by
    cases ht : absText s
    · exact absurd ht h
    · simp [ht]
  have hv : (fillTo 1 s).1 = true := by rw [h1]; simp [hlen]
  rcases hr : fillTo 1 s with ⟨ok, s1⟩
  rw [hr] at h1 h2 h3 h4 h5 h6 hv
  simp only at h1 h2 h3 h4 h5 h6 hv
  subst hv
  have hbuf : 1 ≤ s1.buffer.length := h6 rfl
  have hbp : s1.buffer <+: absText s := h2 ▸ buffer_prefixOf_absText s1
  have hdone : s1.inputDone = s.inputDone := by
    rw [h5]
    simp [Nat.not_lt.mpr hlen]
  cases he : idxOfNl s1.buffer with
  | none =>
    have hnl : 10 ∉ s1.buffer := (idxOfNl_eq_none_iff _).mp he
    simp only [takeChunkWithinLine, hr, Bool.true_eq_false, reduceIte, he]
    have hne : s1.buffer ≠ [] := by
      intro e
      rw [e] at hbuf
      simp at hbuf
    refine ⟨hne, hbp, ?_, hdone, ?_, ?_, fun hmem => absurd hmem hnl⟩
    · have hfl : (absText s).drop s1.buffer.length = s1.chunks.flatten := by
        rw [← h2]
        show (s1.buffer ++ s1.chunks.flatten).drop _ = _
        rw [List.drop_append_eq_append_drop]
        simp
      show absText ⟨[], s1.chunks, s1.inputDone⟩ = _
      rw [hfl]
      simp [absText]
    · intro hd
      exact h3 hd
    · have : nu ⟨[], s1.chunks, s1.inputDone⟩ + 2 * s1.buffer.length ≤ nu s1 := by
        simp only [nu, absText, List.length_append]
        cases s1.inputDone <;> simp <;> omega
      omega
  | some e =>
    rcases idxOfNl_some_decomp he with ⟨x, y, hxy, hx, hxlen⟩
    rcases take_of_decomp (y := y) hx with ⟨htake, hdrop⟩
    rw [hxlen] at htake hdrop
    rw [← hxy] at htake hdrop
    have habs : absText s = x ++ 10 :: (y ++ s1.chunks.flatten) := by
      rw [← h2]
      show s1.buffer ++ s1.chunks.flatten = _
      rw [hxy]
      simp
    have habs1 : absText s1 = x ++ 10 :: (y ++ s1.chunks.flatten) := by
      rw [h2, habs]
    simp only [takeChunkWithinLine, hr, Bool.true_eq_false, reduceIte, he,
      htake, hdrop]
    have hlent : (x ++ [10] : Text).length = e + 1 := by simp [← hxlen]
    have hdropa : (absText s).drop (e + 1) = y ++ s1.chunks.flatten := by
      rw [habs, ← hxlen]
      exact (take_of_decomp (y := y ++ s1.chunks.flatten) hx).2
    refine ⟨by simp, ?_, ?_, hdone, ?_, ?_, ?_⟩
    · rw [habs]
      exact ⟨y ++ s1.chunks.flatten, by simp⟩
    · show absText ⟨y, s1.chunks, s1.inputDone⟩ = _
      rw [hlent, hdropa]
      rfl
    · intro hd
      exact h3 hd
    · rw [hlent]
      have : nu ⟨y, s1.chunks, s1.inputDone⟩ + 2 * (e + 1) ≤ nu s1 := by
        simp only [nu, absText, List.length_append]
        have hblen : s1.buffer.length = x.length + 1 + y.length := by
          have := congrArg List.length hxy
          simp at this
          omega
        cases s1.inputDone <;> simp <;> omega
      omega
    · intro _
      rw [habs]
      rw [lineSplit_mid hx]


/-- The first unit of the stream if it belongs to the allowed set
(pure description of `takeMatchingChar`). -/
def headMatch (allowed : Text) : Text → Text
  | [] => []
  | u :: _ => if u ∈ allowed then [u] else []

/-- `Scanner.takeMatchingChar(allowedChars)` (scanner.ts lines 128-135). -/
def takeMatchingChar (allowed : Text) (s : ScanState) : Text × ScanState :=
  if (fillTo 1 s).1 = false then ([], (fillTo 1 s).2)
  else
    match (fillTo 1 s).2.buffer with
    | [] => ([], (fillTo 1 s).2)
    | u :: rest =>
      if u ∈ allowed then ([u], ⟨rest, (fillTo 1 s).2.chunks, (fillTo 1 s).2.inputDone⟩)
      else ([], (fillTo 1 s).2)

theorem takeMatchingChar_spec (allowed : Text) (s : ScanState) (hinv : SInv s) :
    (takeMatchingChar allowed s).1 = headMatch allowed (absText s) ∧
    absText (takeMatchingChar allowed s).2 =
      (absText s).drop (headMatch allowed (absText s)).length ∧
    (takeMatchingChar allowed s).2.inputDone =
      (s.inputDone || decide (absText s = [])) ∧
    SInv (takeMatchingChar allowed s).2 ∧
    nu (takeMatchingChar allowed s).2 ≤ nu s ∧
    ((takeMatchingChar allowed s).1 ≠ [] →
      nu (takeMatchingChar allowed s).2 + 2 ≤ nu s) := by
  rcases fillTo_spec 1 s hinv with ⟨h1, h2, h3, h4, h5, h6⟩
  rcases ht : absText s with _ | ⟨u, r⟩
  · have hv : (fillTo 1 s).1 = false := by rw [h1, ht]; simp
    have heq : takeMatchingChar allowed s = ([], (fillTo 1 s).2) := by
      simp only [takeMatchingChar, hv, reduceIte]
    rw [heq]
    refine ⟨by simp [headMatch], by simp [headMatch, h2, ht], ?_, h3, h4, by simp⟩
    rw [h5, ht]
    simp
  · have hv : (fillTo 1 s).1 = true := by rw [h1, ht]; simp
    have hblen : 1 ≤ (fillTo 1 s).2.buffer.length := h6 hv
    have hdone : (fillTo 1 s).2.inputDone = s.inputDone := by
      rw [h5, ht]
      simp
    rcases hbuf : (fillTo 1 s).2.buffer with _ | ⟨u', rest⟩
    · rw [hbuf] at hblen
      simp at hblen
    · have hbp : u' :: rest <+: absText s := by
        rw [← h2]
        exact hbuf ▸ buffer_prefixOf_absText (fillTo 1 s).2
      have hu : u' = u := by
        rcases hbp with ⟨tl, htl⟩
        rw [ht] at htl
        exact (List.cons.injEq _ _ _ _ ▸ htl).1
      subst hu
      have hrest : absText (fillTo 1 s).2 = u' :: (rest ++ (fillTo 1 s).2.chunks.flatten) := by
        show (fillTo 1 s).2.buffer ++ _ = _
        rw [hbuf]
        simp
      have habs2 : rest ++ (fillTo 1 s).2.chunks.flatten = r := by
        have := hrest.symm.trans (h2.trans ht)
        simpa using this
      by_cases hmem : u' ∈ allowed
      · have heq : takeMatchingChar allowed s =
            ([u'], ⟨rest, (fillTo 1 s).2.chunks, (fillTo 1 s).2.inputDone⟩) := by
          simp only [takeMatchingChar, hv, Bool.true_eq_false, reduceIte, hbuf, hmem,
            if_pos]
        have habs' : absText ⟨rest, (fillTo 1 s).2.chunks, (fillTo 1 s).2.inputDone⟩ = r := by
          show rest ++ _ = r
          exact habs2
        have hstep : nu ⟨rest, (fillTo 1 s).2.chunks, (fillTo 1 s).2.inputDone⟩ + 2 ≤
            nu (fillTo 1 s).2 := by
          simp only [nu, absText, hbuf]
          cases (fillTo 1 s).2.inputDone <;> simp <;> omega
        rw [heq]
        refine ⟨by simp [headMatch, hmem], ?_, by simp [habs', hdone],
          fun hd => h3 hd, ?_, fun _ => ?_⟩
        · rw [habs']
          simp [headMatch, hmem]
        · show nu ⟨rest, (fillTo 1 s).2.chunks, (fillTo 1 s).2.inputDone⟩ ≤ nu s
          omega
        · show nu ⟨rest, (fillTo 1 s).2.chunks, (fillTo 1 s).2.inputDone⟩ + 2 ≤ nu s
          omega
      · have heq : takeMatchingChar allowed s = ([], (fillTo 1 s).2) := by
          simp only [takeMatchingChar, hv, Bool.true_eq_false, reduceIte, hbuf, hmem,
            if_false]
        rw [heq]
        refine ⟨by simp [headMatch, hmem], ?_, ?_, h3, h4, by simp [headMatch, hmem]⟩
        · simp only [headMatch, hmem, if_false, List.length_nil, List.drop_zero]
          exact h2.trans ht
        · rw [hdone]
          simp


/-- Fuelled loop of `takeMatchingPrefix` (scanner.ts lines 137-146), under the
name `takeMatchingRunF`. -/
def takeMatchingRunF : Nat → Text → ScanState → Text × ScanState
  | 0, _, s => ([], s)
  | fuel + 1, allowed, s =>
    if (takeMatchingChar allowed s).1 = [] then ([], (takeMatchingChar allowed s).2)
    else
      ((takeMatchingChar allowed s).1 ++
        (takeMatchingRunF fuel allowed (takeMatchingChar allowed s).2).1,
        (takeMatchingRunF fuel allowed (takeMatchingChar allowed s).2).2)

/-- `Scanner.takeMatchingPrefix(allowedChars)` under a Lean-safe name:
consumes the longest run of buffered units drawn from the allowed set. -/
def takeMatchingRun (allowed : Text) (s : ScanState) : Text × ScanState :=
  takeMatchingRunF (nu s + 1) allowed s

theorem takeMatchingRunF_spec (fuel : Nat) : ∀ (allowed : Text) (s : ScanState),
    nu s < fuel → SInv s →
    (takeMatchingRunF fuel allowed s).1 =
      (absText s).takeWhile (fun u => decide (u ∈ allowed)) ∧
    absText (takeMatchingRunF fuel allowed s).2 =
      (absText s).dropWhile (fun u => decide (u ∈ allowed)) ∧
    (takeMatchingRunF fuel allowed s).2.inputDone =
      (s.inputDone ||
        decide ((absText s).dropWhile (fun u => decide (u ∈ allowed)) = [])) ∧
    SInv (takeMatchingRunF fuel allowed s).2 ∧
    nu (takeMatchingRunF fuel allowed s).2 +
      2 * (takeMatchingRunF fuel allowed s).1.length ≤ nu s := by
  induction fuel with
  | zero => intro allowed s h; omega
  | succ fuel ih =>
    intro allowed s hfuel hinv
    rcases takeMatchingChar_spec allowed s hinv with ⟨h1, h2, h3, h4, h5, h6⟩
    rcases ht : absText s with _ | ⟨u, r⟩
    · rw [ht] at h1 h2 h3
      have hval : (takeMatchingChar allowed s).1 = [] := by
        rw [h1]
        rfl
      have heq : takeMatchingRunF (fuel + 1) allowed s =
          ([], (takeMatchingChar allowed s).2) := by
        simp only [takeMatchingRunF, hval, reduceIte]
      rw [heq]
      refine ⟨by simp, by simpa using h2, by simpa using h3, h4, by simpa using h5⟩
    · by_cases hmem : u ∈ allowed
      · have hval : (takeMatchingChar allowed s).1 = [u] := by
          rw [h1, ht]
          simp [headMatch, hmem]
        have habs1 : absText (takeMatchingChar allowed s).2 = r := by
          rw [h2, ht]
          simp [headMatch, hmem]
        have hnu1 : nu (takeMatchingChar allowed s).2 + 2 ≤ nu s :=
          h6 (by rw [hval]; simp)
        have hrec := ih allowed (takeMatchingChar allowed s).2 (by omega) h4
        have heq : takeMatchingRunF (fuel + 1) allowed s =
            ((takeMatchingChar allowed s).1 ++
              (takeMatchingRunF fuel allowed (takeMatchingChar allowed s).2).1,
              (takeMatchingRunF fuel allowed (takeMatchingChar allowed s).2).2) := by
          rw [takeMatchingRunF]
          rw [if_neg (by rw [hval]; simp)]
        rw [heq]
        have htw : List.takeWhile (fun u => decide (u ∈ allowed)) (u :: r) =
            u :: r.takeWhile (fun u => decide (u ∈ allowed)) :=
          List.takeWhile_cons_of_pos (by simp [hmem])
        have hdw : List.dropWhile (fun u => decide (u ∈ allowed)) (u :: r) =
            r.dropWhile (fun u => decide (u ∈ allowed)) :=
          List.dropWhile_cons_of_pos (by simp [hmem])
        refine ⟨?_, ?_, ?_, hrec.2.2.2.1, ?_⟩
        · rw [hval, htw, hrec.1, habs1]
          rfl
        · rw [hrec.2.1, habs1, hdw]
        · rw [hrec.2.2.1, habs1, hdw, h3, ht]
          simp
        · rw [hval]
          have := hrec.2.2.2.2
          rw [hrec.1, habs1] at this
          simp only [List.length_append, List.length_cons, List.length_nil]
          rw [hrec.1, habs1]
          omega
      · have hval : (takeMatchingChar allowed s).1 = [] := by
          rw [h1, ht]
          simp [headMatch, hmem]
        have heq : takeMatchingRunF (fuel + 1) allowed s =
            ([], (takeMatchingChar allowed s).2) := by
          simp only [takeMatchingRunF, hval, reduceIte]
        rw [heq]
        have htw : List.takeWhile (fun u => decide (u ∈ allowed)) (u :: r) = [] :=
          List.takeWhile_cons_of_neg (by simp [hmem])
        have hdw : List.dropWhile (fun u => decide (u ∈ allowed)) (u :: r) =
            u :: r :=
          List.dropWhile_cons_of_neg (by simp [hmem])
        refine ⟨by rw [htw], ?_, ?_, h4, ?_⟩
        · rw [hdw, h2, ht]
          simp [headMatch, hmem]
        · rw [hdw, h3, ht]
        · simpa using h5
  
theorem takeMatchingRun_spec (allowed : Text) (s : ScanState) (hinv : SInv s) :
    (takeMatchingRun allowed s).1 =
      (absText s).takeWhile (fun u => decide (u ∈ allowed)) ∧
    absText (takeMatchingRun allowed s).2 =
      (absText s).dropWhile (fun u => decide (u ∈ allowed)) ∧
    (takeMatchingRun allowed s).2.inputDone =
      (s.inputDone ||
        decide ((absText s).dropWhile (fun u => decide (u ∈ allowed)) = [])) ∧
    SInv (takeMatchingRun allowed s).2 ∧
    nu (takeMatchingRun allowed s).2 +
      2 * (takeMatchingRun allowed s).1.length ≤ nu s :=
  takeMatchingRunF_spec (nu s + 1) allowed s (Nat.lt_succ_self _) hinv


/-- The emoji allow-list modelled from the repository tests
(scanner.test.ts uses the grinning face, robot, and accordion emoji),
each as its UTF-16 surrogate pair. -/
def emojiAllowed : List (Unit16 × Unit16) :=
  [(0xD83D, 0xDE00), (0xD83E, 0xDD16), (0xD83E, 0xDEA7)]

/-- The leading units of the allow-listed emoji. -/
def emojiFirsts : Text := emojiAllowed.map Prod.fst

/-- Pure description of `takeEmoji`: the first two units if they form an
allow-listed emoji. -/
def emojiHead : Text → Text
  | u :: v :: _ => if (u, v) ∈ emojiAllowed then [u, v] else []
  | _ => []

/-- Pure description of when `takeEmoji` exhausts the input: it reads ahead
only when the stream is empty, or holds a single unit that could begin an
allow-listed emoji. -/
def emojiEnd : Text → Bool
  | [] => true
  | [u] => u ∈ emojiFirsts
  | _ => false

/-- Modelled from the spec: `Scanner.takeEmoji` is missing from the sources
(only scanner.test.ts and `takeLabel` reference it).  Per the spec it
"consumes one grapheme matching a small allow-listed emoji set" and "must
not pull if the current buffered unit is already known not to match", so it
inspects the first buffered unit before pulling a second one. -/
def takeEmoji (s : ScanState) : Text × ScanState :=
  if (fillTo 1 s).1 = false then ([], (fillTo 1 s).2)
  else
    match (fillTo 1 s).2.buffer with
    | [] => ([], (fillTo 1 s).2)
    | u :: _ =>
      if u ∈ emojiFirsts then
        if (fillTo 2 (fillTo 1 s).2).1 = false then ([], (fillTo 2 (fillTo 1 s).2).2)
        else
          match (fillTo 2 (fillTo 1 s).2).2.buffer with
          | u' :: v :: rest =>
            if (u', v) ∈ emojiAllowed then
              ([u', v], ⟨rest, (fillTo 2 (fillTo 1 s).2).2.chunks,
                (fillTo 2 (fillTo 1 s).2).2.inputDone⟩)
            else ([], (fillTo 2 (fillTo 1 s).2).2)
          | _ => ([], (fillTo 2 (fillTo 1 s).2).2)
      else ([], (fillTo 1 s).2)

theorem takeEmoji_spec (s : ScanState) (hinv : SInv s) :
    (takeEmoji s).1 = emojiHead (absText s) ∧
    absText (takeEmoji s).2 = (absText s).drop (emojiHead (absText s)).length ∧
    (takeEmoji s).2.inputDone = (s.inputDone || emojiEnd (absText s)) ∧
    SInv (takeEmoji s).2 ∧
    nu (takeEmoji s).2 ≤ nu s ∧
    ((takeEmoji s).1 ≠ [] → nu (takeEmoji s).2 + 4 ≤ nu s) := by
  rcases fillTo_spec 1 s hinv with ⟨h1, h2, h3, h4, h5, h6⟩
  rcases ht : absText s with _ | ⟨u, r⟩
  · have hv : (fillTo 1 s).1 = false := by rw [h1, ht]; simp
    have heq : takeEmoji s = ([], (fillTo 1 s).2) := by
      simp only [takeEmoji, hv, reduceIte]
    rw [heq]
    refine ⟨by simp [emojiHead], by simp [emojiHead, h2, ht], ?_, h3, h4, by simp⟩
    rw [h5, ht]
    simp [emojiEnd]
  · have hv : (fillTo 1 s).1 = true := by rw [h1, ht]; simp
    have hblen : 1 ≤ (fillTo 1 s).2.buffer.length := h6 hv
    have hdone1 : (fillTo 1 s).2.inputDone = s.inputDone := by
      rw [h5, ht]
      simp
    rcases hbuf : (fillTo 1 s).2.buffer with _ | ⟨u', rest1⟩
    · rw [hbuf] at hblen
      simp at hblen
    · have hu : u' = u := by
        have hbp : u' :: rest1 <+: absText s := by
          rw [← h2]
          exact hbuf ▸ buffer_prefixOf_absText (fillTo 1 s).2
        rcases hbp with ⟨tl, htl⟩
        rw [ht] at htl
        exact (List.cons.injEq _ _ _ _ ▸ htl).1
      subst hu
      by_cases hfst : u' ∈ emojiFirsts
      · rcases fillTo_spec 2 (fillTo 1 s).2 h3 with ⟨g1, g2, g3, g4, g5, g6⟩
        rw [h2] at g1 g2 g5
        rcases hr : r with _ | ⟨v, r2⟩
        · have hv2 : (fillTo 2 (fillTo 1 s).2).1 = false := by
            rw [g1, ht, hr]
            simp
          have heq : takeEmoji s = ([], (fillTo 2 (fillTo 1 s).2).2) := by
            simp only [takeEmoji, hv, Bool.true_eq_false, reduceIte, hbuf, hfst,
              if_pos, hv2]
          rw [heq]
          refine ⟨by simp [emojiHead, hr], by simp [emojiHead, g2, ht, hr], ?_,
            g3, le_trans g4 h4, by simp⟩
          rw [g5, ht, hr]
          simp [emojiEnd, hfst]
        · have hv2 : (fillTo 2 (fillTo 1 s).2).1 = true := by
            rw [g1, ht, hr]
            simp
          have hblen2 : 2 ≤ (fillTo 2 (fillTo 1 s).2).2.buffer.length := g6 hv2
          have hdone2 : (fillTo 2 (fillTo 1 s).2).2.inputDone = s.inputDone := by
            rw [g5, hdone1, ht, hr]
            simp
          rcases hbuf2 : (fillTo 2 (fillTo 1 s).2).2.buffer with _ | ⟨u2, rest2⟩
          · rw [hbuf2] at hblen2
            simp at hblen2
          · rcases rest2 with _ | ⟨v2, rest3⟩
            · rw [hbuf2] at hblen2
              simp at hblen2
            · have hbp2 : u2 :: v2 :: rest3 <+: absText s := by
                rw [← g2]
                exact hbuf2 ▸ buffer_prefixOf_absText (fillTo 2 (fillTo 1 s).2).2
              have huv : u2 = u' ∧ v2 = v := by
                rcases hbp2 with ⟨tl, htl⟩
                rw [ht, hr] at htl
                have e1 := (List.cons.injEq _ _ _ _ ▸ htl).1
                have e2 := (List.cons.injEq _ _ _ _ ▸ (List.cons.injEq _ _ _ _ ▸ htl).2).1
                exact ⟨e1, e2⟩
              rcases huv with ⟨hu2, hv2eq⟩
              subst hu2
              subst hv2eq
              have habs2 : absText (fillTo 2 (fillTo 1 s).2).2 = absText s := g2
              have hrest : rest3 ++ (fillTo 2 (fillTo 1 s).2).2.chunks.flatten = r2 := by
                have : absText (fillTo 2 (fillTo 1 s).2).2 =
                    u2 :: v2 :: (rest3 ++ (fillTo 2 (fillTo 1 s).2).2.chunks.flatten) := by
                  show (fillTo 2 (fillTo 1 s).2).2.buffer ++ _ = _
                  rw [hbuf2]
                  simp
                rw [habs2, ht, hr] at this
                have h9 : r2 = rest3 ++ (fillTo 2 (fillTo 1 s).2).2.chunks.flatten := by
                  simpa using this
                exact h9.symm
              by_cases hpair : (u2, v2) ∈ emojiAllowed
              · have heq : takeEmoji s =
                    ([u2, v2], ⟨rest3, (fillTo 2 (fillTo 1 s).2).2.chunks,
                      (fillTo 2 (fillTo 1 s).2).2.inputDone⟩) := by
                  simp only [takeEmoji, hv, Bool.true_eq_false, reduceIte, hbuf, hfst,
                    if_pos, hv2, hbuf2, hpair]
                rw [heq]
                have habs3 : absText ⟨rest3, (fillTo 2 (fillTo 1 s).2).2.chunks,
                    (fillTo 2 (fillTo 1 s).2).2.inputDone⟩ = r2 := by
                  show rest3 ++ _ = r2
                  exact hrest
                have hstep : nu ⟨rest3, (fillTo 2 (fillTo 1 s).2).2.chunks,
                    (fillTo 2 (fillTo 1 s).2).2.inputDone⟩ + 4 ≤
                    nu (fillTo 2 (fillTo 1 s).2).2 := by
                  simp only [nu, absText, hbuf2]
                  cases (fillTo 2 (fillTo 1 s).2).2.inputDone <;> simp <;> omega
                refine ⟨by simp [emojiHead, hpair], ?_, by simp [habs3, hdone2, emojiEnd],
                  fun hd => g3 hd, ?_, fun _ => ?_⟩
                · rw [habs3]
                  simp [emojiHead, hpair]
                · show nu ⟨rest3, (fillTo 2 (fillTo 1 s).2).2.chunks,
                    (fillTo 2 (fillTo 1 s).2).2.inputDone⟩ ≤ nu s
                  have := le_trans g4 h4
                  omega
                · show nu ⟨rest3, (fillTo 2 (fillTo 1 s).2).2.chunks,
                    (fillTo 2 (fillTo 1 s).2).2.inputDone⟩ + 4 ≤ nu s
                  have := le_trans g4 h4
                  omega
              · have heq : takeEmoji s = ([], (fillTo 2 (fillTo 1 s).2).2) := by
                  simp only [takeEmoji, hv, Bool.true_eq_false, reduceIte, hbuf, hfst,
                    if_pos, hv2, hbuf2, hpair, if_false]
                rw [heq]
                refine ⟨by simp [emojiHead, hpair],
                  by simp [emojiHead, hpair, habs2, ht, hr],
                  ?_, g3, le_trans g4 h4, by simp [emojiHead, hpair]⟩
                rw [hdone2]
                simp [emojiEnd]
      · have heq : takeEmoji s = ([], (fillTo 1 s).2) := by
          simp only [takeEmoji, hv, Bool.true_eq_false, reduceIte, hbuf, hfst, if_false]
        rw [heq]
        have hnh : emojiHead (u' :: r) = [] := by
          cases r with
          | nil => simp [emojiHead]
          | cons v r2 =>
            simp only [emojiHead]
            rw [if_neg]
            intro hc
            apply hfst
            simp only [emojiFirsts]
            exact List.mem_map_of_mem Prod.fst hc
        refine ⟨by rw [hnh], ?_, ?_, h3, h4, by simp⟩
        · rw [hnh, h2, ht]
          simp
        · rw [hdone1]
          have : emojiEnd (u' :: r) = false := by
            cases r with
            | nil => simp [emojiEnd, hfst]
            | cons v r2 => simp [emojiEnd]
          rw [this]
          simp


/-- Fuelled loop of `takeLine` (scanner.ts lines 155-166). -/
def takeLineF : Nat → ScanState → Text × ScanState
  | 0, s => ([], s)
  | fuel + 1, s =>
    if 10 ∈ s.buffer then
      match idxOfNl s.buffer with
      | some e => (s.buffer.take (e + 1), { s with buffer := s.buffer.drop (e + 1) })
      | none => ([], s)
    else if (pull s).1 then takeLineF fuel (pull s).2
    else ((pull s).2.buffer, { (pull s).2 with buffer := [] })

/-- `Scanner.takeLine`: removes and returns a line including its newline, or
the trailing partial line at the end of input. -/
def takeLine (s : ScanState) : Text × ScanState := takeLineF (nu s + 1) s

theorem idxOfNl_mem {t : Text} (h : 10 ∈ t) : ∃ e, idxOfNl t = some e := by
  cases he : idxOfNl t with
  | none => exact absurd h ((idxOfNl_eq_none_iff t).mp he)
  | some e => exact ⟨e, rfl⟩

theorem takeLineF_spec (fuel : Nat) : ∀ (s : ScanState), nu s < fuel → SInv s →
    (takeLineF fuel s).1 = (lineSplit (absText s)).1 ∧
    absText (takeLineF fuel s).2 = (lineSplit (absText s)).2 ∧
    (takeLineF fuel s).2.inputDone = (s.inputDone || decide (10 ∉ absText s)) ∧
    SInv (takeLineF fuel s).2 ∧
    nu (takeLineF fuel s).2 + 2 * (takeLineF fuel s).1.length ≤ nu s := by
  induction fuel with
  | zero => intro s h; omega
  | succ fuel ih =>
    intro s hfuel hinv
    by_cases hmem : 10 ∈ s.buffer
    · rcases idxOfNl_mem hmem with ⟨e, he⟩
      rcases idxOfNl_some_decomp he with ⟨x, y, hxy, hx, hxlen⟩
      rcases take_of_decomp (y := y) hx with ⟨htake, hdrop⟩
      rw [hxlen] at htake hdrop
      rw [← hxy] at htake hdrop
      have heq : takeLineF (fuel + 1) s =
          (s.buffer.take (e + 1), { s with buffer := s.buffer.drop (e + 1) }) := by
        simp only [takeLineF, if_pos hmem, he]
      rw [heq]
      have habs : absText s = x ++ 10 :: (y ++ s.chunks.flatten) := by
        show s.buffer ++ _ = _
        rw [hxy]
        simp
      have hls : lineSplit (absText s) = (x ++ [10], y ++ s.chunks.flatten) := by
        rw [habs, lineSplit_mid hx]
      refine ⟨by rw [htake, hls], ?_, ?_, fun hd => hinv hd, ?_⟩
      · show s.buffer.drop (e + 1) ++ _ = _
        rw [hdrop, hls]
      · have : 10 ∈ absText s := by
          rw [habs]
          simp
        simp [this]
      · rw [htake]
        have hblen : s.buffer.length = x.length + 1 + y.length := by
          have := congrArg List.length hxy
          simp at this
          omega
        have hxl : (x ++ [10] : Text).length = e + 1 := by simp [hxlen]
        rw [hxl]
        simp only [nu, absText, List.length_append]
        have hdl : (s.buffer.drop (e + 1)).length = s.buffer.length - (e + 1) := by
          simp
        cases s.inputDone <;> simp [hdl] <;> omega
    · rcases hp : pull s with ⟨ok, s1⟩
      cases ok
      · rcases pull_false hp with ⟨hs1, habs⟩
        have heq : takeLineF (fuel + 1) s = (s1.buffer, { s1 with buffer := [] }) := by
          simp only [takeLineF, if_neg hmem, hp, Bool.false_eq_true, reduceIte]
        rw [heq]
        have hb1 : s1.buffer = s.buffer := by rw [hs1]
        have hnl : 10 ∉ absText s := by
          rw [habs]
          exact hmem
        have hls : lineSplit (absText s) = (absText s, []) := lineSplit_all_no_nl hnl
        have hnu := pull_false_nu hp
        refine ⟨by rw [hb1, hls, habs], ?_, ?_, ?_, ?_⟩
        · show ([] : Text) ++ s1.chunks.flatten = _
          rw [hs1, hls]
          simp
        · rw [hs1]
          simp [hnl]
        · intro _
          rw [hs1]
        · subst hs1
          simp only [nu, absText]
          cases hd : s.inputDone <;> simp <;> omega
      · have hnu := pull_true_nu hp
        rcases pull_true hp with ⟨habs, hdone, _, _⟩
        have heq : takeLineF (fuel + 1) s = takeLineF fuel s1 := by
          simp only [takeLineF, if_neg hmem, hp, reduceIte]
        rw [heq]
        have hrec := ih s1 (by omega) (pull_true_sinv hinv hp)
        refine ⟨by rw [hrec.1, habs], by rw [hrec.2.1, habs], ?_,
          hrec.2.2.2.1, by omega⟩
        rw [hrec.2.2.1, habs, hdone]

theorem takeLine_spec (s : ScanState) (hinv : SInv s) :
    (takeLine s).1 = (lineSplit (absText s)).1 ∧
    absText (takeLine s).2 = (lineSplit (absText s)).2 ∧
    (takeLine s).2.inputDone = (s.inputDone || decide (10 ∉ absText s)) ∧
    SInv (takeLine s).2 ∧
    nu (takeLine s).2 + 2 * (takeLine s).1.length ≤ nu s :=
  takeLineF_spec (nu s + 1) s (Nat.lt_succ_self _) hinv

/-- The blank-line decision of `takeBlankLine`, described purely: the first
line (with its newline) when it holds only whitespace, else nothing. -/
def blankTake (t : Text) : Text × Text :=
  if (lineSplit t).1.all jsTrimWs then lineSplit t else ([], t)

/-- Fuelled loop of `takeBlankLine` (scanner.ts lines 175-193). -/
def takeBlankLineF : Nat → ScanState → Text × ScanState
  | 0, s => ([], s)
  | fuel + 1, s =>
    if ((s.buffer.take ((idxOfNl s.buffer).getD s.buffer.length)).all jsTrimWs) = false
    then ([], s)
    else
      match idxOfNl s.buffer with
      | some k => (s.buffer.take (k + 1), { s with buffer := s.buffer.drop (k + 1) })
      | none =>
        if (pull s).1 then takeBlankLineF fuel (pull s).2
        else ((pull s).2.buffer, { (pull s).2 with buffer := [] })

/-- `Scanner.takeBlankLine`: removes a whitespace-only line if one is next,
pulling only enough input to decide. -/
def takeBlankLine (s : ScanState) : Text × ScanState := takeBlankLineF (nu s + 1) s

theorem takeBlankLineF_spec (fuel : Nat) : ∀ (s : ScanState), nu s < fuel → SInv s →
    (takeBlankLineF fuel s).1 = (blankTake (absText s)).1 ∧
    absText (takeBlankLineF fuel s).2 = (blankTake (absText s)).2 ∧
    (takeBlankLineF fuel s).2.inputDone =
      (s.inputDone || ((absText s).all jsTrimWs && decide (10 ∉ absText s))) ∧
    SInv (takeBlankLineF fuel s).2 ∧
    nu (takeBlankLineF fuel s).2 + 2 * (takeBlankLineF fuel s).1.length ≤ nu s := by
  induction fuel with
  | zero => intro s h; omega
  | succ fuel ih =>
    intro s hfuel hinv
    by_cases hblank :
        ((s.buffer.take ((idxOfNl s.buffer).getD s.buffer.length)).all jsTrimWs) = false
    · have heq : takeBlankLineF (fuel + 1) s = ([], s) := by
        simp only [takeBlankLineF, hblank, reduceIte]
      rw [heq]
      have hpre : s.buffer.take ((idxOfNl s.buffer).getD s.buffer.length) <+:
          (lineSplit (absText s)).1 := by
        cases he : idxOfNl s.buffer with
        | some k =>
          rcases idxOfNl_some_decomp he with ⟨x, y, hxy, hx, hxlen⟩
          have habs : absText s = x ++ 10 :: (y ++ s.chunks.flatten) := by
            show s.buffer ++ _ = _
            rw [hxy]
            simp
          have hls : (lineSplit (absText s)).1 = x ++ [10] := by
            rw [habs, lineSplit_mid hx]
          have htk : s.buffer.take k = x := by
            rw [hxy, ← hxlen]
            rw [List.take_append_eq_append_take]
            simp
          rw [hls]
          simp only [Option.getD_some]
          rw [htk]
          exact ⟨[10], rfl⟩
        | none =>
          have hnl : 10 ∉ s.buffer := (idxOfNl_eq_none_iff _).mp he
          have : (lineSplit (absText s)).1 = s.buffer ++ (lineSplit s.chunks.flatten).1 := by
            show (lineSplit (s.buffer ++ s.chunks.flatten)).1 = _
            rw [lineSplit_no_nl hnl]
          rw [this]
          simp only [Option.getD_none, List.take_length]
          exact ⟨(lineSplit s.chunks.flatten).1, rfl⟩
      have hlineb : (lineSplit (absText s)).1.all jsTrimWs = false := by
        cases hc : (lineSplit (absText s)).1.all jsTrimWs
        · rfl
        · rw [prefix_all hpre hc] at hblank
          exact absurd hblank (by simp)
      have hbt : blankTake (absText s) = ([], absText s) := by
        rw [blankTake, hlineb]
        simp
      have hallb : (absText s).all jsTrimWs = false := by
        cases hc : (absText s).all jsTrimWs
        · rfl
        · have h1 : (lineSplit (absText s)).1.all jsTrimWs = true :=
            prefix_all ⟨(lineSplit (absText s)).2, lineSplit_append _⟩ hc
          rw [h1] at hlineb
          exact absurd hlineb (by simp)
      rw [hbt]
      exact ⟨rfl, rfl, by simp [hallb], hinv, by simp⟩
    · have hblank' :
          ((s.buffer.take ((idxOfNl s.buffer).getD s.buffer.length)).all jsTrimWs) = true := by
        cases hc : ((s.buffer.take ((idxOfNl s.buffer).getD s.buffer.length)).all jsTrimWs)
        · exact absurd hc hblank
        · rfl
      cases he : idxOfNl s.buffer with
      | some k =>
        rcases idxOfNl_some_decomp he with ⟨x, y, hxy, hx, hxlen⟩
        rcases take_of_decomp (y := y) hx with ⟨htake, hdrop⟩
        rw [hxlen] at htake hdrop
        rw [← hxy] at htake hdrop
        simp only [he, Option.getD_some] at hblank'
        have heq : takeBlankLineF (fuel + 1) s =
            (s.buffer.take (k + 1), { s with buffer := s.buffer.drop (k + 1) }) := by
          simp only [takeBlankLineF, he, Option.getD_some, hblank',
            Bool.true_eq_false, reduceIte]
        rw [heq]
        have habs : absText s = x ++ 10 :: (y ++ s.chunks.flatten) := by
          show s.buffer ++ _ = _
          rw [hxy]
          simp
        have hls : lineSplit (absText s) = (x ++ [10], y ++ s.chunks.flatten) := by
          rw [habs, lineSplit_mid hx]
        have htk : s.buffer.take k = x := by
          rw [hxy, ← hxlen]
          rw [List.take_append_eq_append_take]
          simp
        have hxall : (x ++ [10] : Text).all jsTrimWs = true := by
          rw [htk] at hblank'
          rw [List.all_append, hblank']
          simp [jsTrimWs]
        have hbt : blankTake (absText s) = (x ++ [10], y ++ s.chunks.flatten) := by
          rw [blankTake, hls]
          simp [hxall]
        refine ⟨by rw [htake, hbt], ?_, ?_, fun hd => hinv hd, ?_⟩
        · show s.buffer.drop (k + 1) ++ _ = _
          rw [hdrop, hbt]
        · have : 10 ∈ absText s := by
            rw [habs]
            simp
          simp [this]
        · rw [htake]
          have hblen : s.buffer.length = x.length + 1 + y.length := by
            have := congrArg List.length hxy
            simp at this
            omega
          have hxl : (x ++ [10] : Text).length = k + 1 := by simp [hxlen]
          rw [hxl]
          simp only [nu, absText, List.length_append]
          have hdl : (s.buffer.drop (k + 1)).length = s.buffer.length - (k + 1) := by
            simp
          cases s.inputDone <;> simp [hdl] <;> omega
      | none =>
        have hnlb : 10 ∉ s.buffer := (idxOfNl_eq_none_iff _).mp he
        simp only [he, Option.getD_none, List.take_length] at hblank'
        have hball : s.buffer.all jsTrimWs = true := hblank'
        rcases hp : pull s with ⟨ok, s1⟩
        cases ok
        · rcases pull_false hp with ⟨hs1, habs⟩
          have heq : takeBlankLineF (fuel + 1) s = (s1.buffer, { s1 with buffer := [] }) := by
            simp only [takeBlankLineF, he, Option.getD_none, List.take_length,
              hblank', Bool.true_eq_false, reduceIte, hp, Bool.false_eq_true]
          rw [heq]
          have hb1 : s1.buffer = s.buffer := by rw [hs1]
          have hnl : 10 ∉ absText s := by
            rw [habs]
            exact hnlb
          have hall : (absText s).all jsTrimWs = true := by
            rw [habs]
            exact hball
          have hls : lineSplit (absText s) = (absText s, []) := lineSplit_all_no_nl hnl
          have hbt : blankTake (absText s) = (absText s, []) := by
            rw [blankTake, hls]
            simp [hall]
          refine ⟨by rw [hb1, hbt]; exact habs.symm, ?_, ?_, ?_, ?_⟩
          · show ([] : Text) ++ s1.chunks.flatten = _
            rw [hs1, hbt]
            simp
          · rw [hs1]
            simp [hall, hnl]
          · intro _
            rw [hs1]
          · subst hs1
            simp only [nu, absText]
            cases hd : s.inputDone <;> simp <;> omega
        · have hnu := pull_true_nu hp
          rcases pull_true hp with ⟨habs, hdone, _, _⟩
          have heq : takeBlankLineF (fuel + 1) s = takeBlankLineF fuel s1 := by
            simp only [takeBlankLineF, he, Option.getD_none, List.take_length,
              hblank', Bool.true_eq_false, reduceIte, hp]
          rw [heq]
          have hrec := ih s1 (by omega) (pull_true_sinv hinv hp)
          refine ⟨by rw [hrec.1, habs], by rw [hrec.2.1, habs], ?_,
            hrec.2.2.2.1, by omega⟩
          rw [hrec.2.2.1, habs, hdone]

theorem takeBlankLine_spec (s : ScanState) (hinv : SInv s) :
    (takeBlankLine s).1 = (blankTake (absText s)).1 ∧
    absText (takeBlankLine s).2 = (blankTake (absText s)).2 ∧
    (takeBlankLine s).2.inputDone =
      (s.inputDone || ((absText s).all jsTrimWs && decide (10 ∉ absText s))) ∧
    SInv (takeBlankLine s).2 ∧
    nu (takeBlankLine s).2 + 2 * (takeBlankLine s).1.length ≤ nu s :=
  takeBlankLineF_spec (nu s + 1) s (Nat.lt_succ_self _) hinv

end Scanner

/-- A call against the `CellWriter` sink: `startCodeCell`,
`startMarkdownCell`, or `write(text)`. -/
inductive Ev where
  | startCode : Ev
  | startMarkdown : Ev
  | write : Text → Ev
deriving DecidableEq

def Ev.isWrite : Ev → Bool
  | .write _ => true
  | _ => false

/-- The state of a parser run: the scanner state plus the ordered list of
sink calls made so far. -/
structure RS where
  scan : ScanState
  out : List Ev
deriving DecidableEq

/-- Performs one sink call: the sink's reply is `accept` applied to the
index of the call, and the call is recorded. -/
def callSink (accept : Nat → Bool) (e : Ev) (rs : RS) : Bool × RS :=
  (accept rs.out.length, ⟨rs.scan, rs.out ++ [e]⟩)

/-- Merges a call onto a call list, coalescing adjacent writes. -/
def mergeCons : Ev → List Ev → List Ev
  | .write t, .write t' :: l => .write (t ++ t') :: l
  | e, l => e :: l

/-- Normal form of a call list: adjacent writes coalesced.  Two runs are
considered to produce the same cells when their normal forms agree. -/
def normEv (l : List Ev) : List Ev := l.foldr mergeCons []

theorem mergeCons_write_write (t t' : Text) (l : List Ev) :
    mergeCons (.write t) (mergeCons (.write t') l) =
      mergeCons (.write (t ++ t')) l := by
  cases l with
  | nil => simp [mergeCons]
  | cons e l =>
    cases e <;> simp [mergeCons]

theorem foldr_mergeCons (e : Ev) (l y : List Ev) :
    List.foldr mergeCons y (mergeCons e l) = mergeCons e (List.foldr mergeCons y l) := by
  cases e with
  | write t =>
    cases l with
    | nil => simp [mergeCons]
    | cons e' l' =>
      cases e' with
      | write t' =>
        show List.foldr mergeCons y (Ev.write (t ++ t') :: l') =
          mergeCons (Ev.write t) (List.foldr mergeCons y (Ev.write t' :: l'))
        rw [List.foldr_cons, List.foldr_cons, mergeCons_write_write]
      | startCode => simp [mergeCons]
      | startMarkdown => simp [mergeCons]
  | startCode =>
    cases l <;> simp [mergeCons]
  | startMarkdown =>
    cases l <;> simp [mergeCons]

theorem foldr_mergeCons_norm (a y : List Ev) :
    List.foldr mergeCons y a = List.foldr mergeCons y (normEv a) := by
  induction a with
  | nil => simp [normEv]
  | cons e a ih =>
    show mergeCons e (List.foldr mergeCons y a) = _
    rw [ih]
    rw [normEv]
    show _ = List.foldr mergeCons y (mergeCons e (List.foldr mergeCons [] a))
    rw [foldr_mergeCons]

/-- Normalization after concatenation depends only on the two normal
forms. -/
theorem normEv_append (a b : List Ev) :
    normEv (a ++ b) = List.foldr mergeCons (normEv b) (normEv a) := by
  rw [normEv, List.foldr_append, ← foldr_mergeCons_norm]
  rfl

theorem normEv_congr {a b a' b' : List Ev} (ha : normEv a = normEv a')
    (hb : normEv b = normEv b') : normEv (a ++ b) = normEv (a' ++ b') := by
  rw [normEv_append, normEv_append, ha, hb]

theorem normEv_cons (e : Ev) (l : List Ev) :
    normEv (e :: l) = mergeCons e (normEv l) := rfl

namespace Scanner

/-- Whether a JavaScript string ends with a newline (`chunk.endsWith("\n")`). -/
def endsWithNl (c : Text) : Bool := c.getLast? = some 10

/-- Fuelled loop of `copyLineTo` (scanner.ts lines 203-216): streams the next
line to the sink in chunks as they arrive. -/
def copyLineToF : Nat → (Nat → Bool) → RS → Bool × RS
  | 0, _, rs => (true, rs)
  | fuel + 1, accept, rs =>
    if (takeChunkWithinLine rs.scan).1 = [] then
      (true, ⟨(takeChunkWithinLine rs.scan).2, rs.out⟩)
    else
      if (callSink accept (.write (takeChunkWithinLine rs.scan).1)
          ⟨(takeChunkWithinLine rs.scan).2, rs.out⟩).1 = false then
        (false, (callSink accept (.write (takeChunkWithinLine rs.scan).1)
          ⟨(takeChunkWithinLine rs.scan).2, rs.out⟩).2)
      else if endsWithNl (takeChunkWithinLine rs.scan).1 then
        (true, (callSink accept (.write (takeChunkWithinLine rs.scan).1)
          ⟨(takeChunkWithinLine rs.scan).2, rs.out⟩).2)
      else
        copyLineToF fuel accept
          (callSink accept (.write (takeChunkWithinLine rs.scan).1)
            ⟨(takeChunkWithinLine rs.scan).2, rs.out⟩).2

/-- `Scanner.copyLineTo(writer)`: copies the next line, including its
newline, to the sink; returns false if the sink rejects a chunk. -/
def copyLineTo (accept : Nat → Bool) (rs : RS) : Bool × RS :=
  copyLineToF (nu rs.scan + 1) accept rs

end Scanner


/-- The always-accepting sink reply. -/
def acceptAll : Nat → Bool := fun _ => true

theorem lineSplit_fst_last {t : Text} (h : 10 ∈ t) :
    (lineSplit t).1.getLast? = some 10 := by
  rcases Scanner.idxOfNl_mem h with ⟨e, he⟩
  rcases idxOfNl_some_decomp he with ⟨x, y, hxy, hx, _⟩
  rw [hxy, lineSplit_mid hx]
  simp

theorem prefix_plus_drop {c t : Text} (h : c <+: t) :
    c ++ t.drop c.length = t := by
  conv_rhs => rw [← List.take_append_drop c.length t]
  rw [← List.prefix_iff_eq_take.mp h]

namespace Scanner

theorem copyLineToF_true_spec (fuel : Nat) : ∀ (rs : RS),
    nu rs.scan < fuel → SInv rs.scan →
    (copyLineToF fuel acceptAll rs).1 = true ∧
    (∃ d, (copyLineToF fuel acceptAll rs).2.out = rs.out ++ d ∧
      normEv d = (if absText rs.scan = [] then []
        else [.write (lineSplit (absText rs.scan)).1])) ∧
    absText (copyLineToF fuel acceptAll rs).2.scan = (lineSplit (absText rs.scan)).2 ∧
    (copyLineToF fuel acceptAll rs).2.scan.inputDone =
      (rs.scan.inputDone || decide (10 ∉ absText rs.scan)) ∧
    SInv (copyLineToF fuel acceptAll rs).2.scan ∧
    nu (copyLineToF fuel acceptAll rs).2.scan +
      2 * (lineSplit (absText rs.scan)).1.length ≤ nu rs.scan := by
  induction fuel with
  | zero => intro rs h; omega
  | succ fuel ih =>
    intro rs hfuel hinv
    by_cases hA : absText rs.scan = []
    · rcases takeChunkWithinLine_spec_empty hinv hA with ⟨k1, k2, k3, k4, k5⟩
      have heq : copyLineToF (fuel + 1) acceptAll rs =
          (true, ⟨(takeChunkWithinLine rs.scan).2, rs.out⟩) := by
        simp only [copyLineToF, k1, reduceIte]
      rw [heq]
      refine ⟨rfl, ⟨[], by simp, by simp [hA, normEv]⟩, ?_, ?_, k4, ?_⟩
      · rw [k2, hA]
        rfl
      · rw [k3, hA]
        simp
      · rw [hA]
        simpa using k5
    · rcases takeChunkWithinLine_spec_ne hinv hA with ⟨k1, k2, k3, k4, k5, k6, k7⟩
      have hacc : (callSink acceptAll (.write (takeChunkWithinLine rs.scan).1)
          ⟨(takeChunkWithinLine rs.scan).2, rs.out⟩).1 = true := rfl
      by_cases hend : endsWithNl (takeChunkWithinLine rs.scan).1
      · have hmem : 10 ∈ (takeChunkWithinLine rs.scan).1 := by
          rw [endsWithNl] at hend
          simp only [decide_eq_true_eq] at hend
          exact List.mem_of_mem_getLast?
            (by rw [hend]; exact rfl)
        have hc := k7 hmem
        have heq : copyLineToF (fuel + 1) acceptAll rs =
            (true, (callSink acceptAll (.write (takeChunkWithinLine rs.scan).1)
              ⟨(takeChunkWithinLine rs.scan).2, rs.out⟩).2) := by
          simp only [copyLineToF, k1, reduceIte, hacc, Bool.true_eq_false, hend]
        rw [heq]
        have hdrop : (absText rs.scan).drop (takeChunkWithinLine rs.scan).1.length =
            (lineSplit (absText rs.scan)).2 := by
          rw [hc]
          nth_rewrite 2 [← lineSplit_append (absText rs.scan)]
          rw [List.drop_left]
        refine ⟨rfl, ⟨[.write (takeChunkWithinLine rs.scan).1], rfl, ?_⟩,
          ?_, ?_, k5, ?_⟩
        · rw [if_neg hA, hc]
          rfl
        · show absText (takeChunkWithinLine rs.scan).2 = _
          rw [k3, hdrop]
        · show (takeChunkWithinLine rs.scan).2.inputDone = _
          have hmemA : (10 ∈ absText rs.scan) := k2.subset hmem
          rw [k4]
          simp [hmemA]
        · rw [← hc]
          exact k6
      · have hnot : 10 ∉ (takeChunkWithinLine rs.scan).1 := by
          intro hmem
          apply hend
          rw [endsWithNl, k7 hmem]
          simp only [decide_eq_true_eq]
          exact lineSplit_fst_last (k2.subset hmem)
        have heq : copyLineToF (fuel + 1) acceptAll rs =
            copyLineToF fuel acceptAll
              (callSink acceptAll (.write (takeChunkWithinLine rs.scan).1)
                ⟨(takeChunkWithinLine rs.scan).2, rs.out⟩).2 := by
          simp only [copyLineToF, k1, reduceIte, hacc, Bool.true_eq_false, hend,
            Bool.false_eq_true]
        rw [heq]
        have hclen : 1 ≤ (takeChunkWithinLine rs.scan).1.length :=
          List.length_pos.mpr k1
        have hs1 : (callSink acceptAll (.write (takeChunkWithinLine rs.scan).1)
            ⟨(takeChunkWithinLine rs.scan).2, rs.out⟩).2 =
            ⟨(takeChunkWithinLine rs.scan).2,
              rs.out ++ [.write (takeChunkWithinLine rs.scan).1]⟩ := rfl
        rw [hs1]
        have hrec := ih ⟨(takeChunkWithinLine rs.scan).2,
          rs.out ++ [.write (takeChunkWithinLine rs.scan).1]⟩ (by
            show nu (takeChunkWithinLine rs.scan).2 < fuel
            omega) k5
        dsimp only at hrec
        have hAsplit : (takeChunkWithinLine rs.scan).1 ++
            (absText rs.scan).drop (takeChunkWithinLine rs.scan).1.length =
            absText rs.scan := prefix_plus_drop k2
        have hls : lineSplit (absText rs.scan) =
            ((takeChunkWithinLine rs.scan).1 ++
              (lineSplit (absText (takeChunkWithinLine rs.scan).2)).1,
              (lineSplit (absText (takeChunkWithinLine rs.scan).2)).2) := by
          conv_lhs => rw [← hAsplit, ← k3]
          rw [lineSplit_no_nl hnot]
        refine ⟨hrec.1, ?_, ?_, ?_, hrec.2.2.2.2.1, ?_⟩
        · rcases hrec.2.1 with ⟨d2, hd2, hn2⟩
          refine ⟨.write (takeChunkWithinLine rs.scan).1 :: d2, by
            rw [hd2]; simp, ?_⟩
          rw [normEv_cons, hn2, if_neg hA, hls]
          by_cases hA2 : absText (takeChunkWithinLine rs.scan).2 = []
          · rw [if_pos hA2, hA2]
            simp [mergeCons, lineSplit]
          · rw [if_neg hA2]
            simp [mergeCons]
        · rw [hrec.2.2.1, hls]
        · rw [hrec.2.2.2.1, k4]
          have hiff : (10 ∉ absText rs.scan) ↔
              (10 ∉ absText (takeChunkWithinLine rs.scan).2) := by
            constructor
            · intro hno hmem
              apply hno
              rw [← hAsplit, ← k3]
              exact List.mem_append_right _ hmem
            · intro hno hmem
              rw [← hAsplit, ← k3] at hmem
              rcases List.mem_append.mp hmem with h1 | h2
              · exact hnot h1
              · exact hno h2
          by_cases h10 : 10 ∉ absText rs.scan
          · simp [h10, hiff.mp h10]
          · have h10' : ¬ (10 ∉ absText (takeChunkWithinLine rs.scan).2) :=
              fun hc => h10 (hiff.mpr hc)
            simp [h10, h10']
        · have h1 := hrec.2.2.2.2.2
          have hlen : (lineSplit (absText rs.scan)).1.length =
              (takeChunkWithinLine rs.scan).1.length +
              (lineSplit (absText (takeChunkWithinLine rs.scan).2)).1.length := by
            rw [hls]
            simp
          rw [hlen]
          omega

/-- `copyLineTo` with an always-accepting sink: never cancelled, the merged
writes are exactly the first line, and the line is consumed. -/
theorem copyLineTo_true_spec (rs : RS) (hinv : SInv rs.scan) :
    (copyLineTo acceptAll rs).1 = true ∧
    (∃ d, (copyLineTo acceptAll rs).2.out = rs.out ++ d ∧
      normEv d = (if absText rs.scan = [] then []
        else [.write (lineSplit (absText rs.scan)).1])) ∧
    absText (copyLineTo acceptAll rs).2.scan = (lineSplit (absText rs.scan)).2 ∧
    (copyLineTo acceptAll rs).2.scan.inputDone =
      (rs.scan.inputDone || decide (10 ∉ absText rs.scan)) ∧
    SInv (copyLineTo acceptAll rs).2.scan ∧
    nu (copyLineTo acceptAll rs).2.scan +
      2 * (lineSplit (absText rs.scan)).1.length ≤ nu rs.scan :=
  copyLineToF_true_spec (nu rs.scan + 1) rs (Nat.lt_succ_self _) hinv

end Scanner

/-- Halting outcome of a `BotResponse` parse: the `CANCELLED` symbol thrown
when the sink refuses a write (botresponse.ts `throw CANCELLED`), or the
`Error("expected a header line")` thrown in `copy`. -/
inductive Halt where
  | cancelled : Halt
  | headerErr : Halt
deriving DecidableEq

/-- The cell types of botresponse.ts: `allCellTypes = ["markdown", ...allLanguages]`. -/
inductive CellType where
  | markdown : CellType
  | python : CellType
  | typescript : CellType
deriving DecidableEq

def CellType.name : CellType → Text
  | .markdown => uts "markdown"
  | .python => uts "python"
  | .typescript => uts "typescript"

/-- `allLanguages = ["python", "typescript"]`. -/
def allLanguages : List CellType := [.python, .typescript]

/-- `allCellTypes = ["markdown", ...allLanguages]`. -/
def allCellTypes : List CellType := .markdown :: allLanguages

/-- The header line `` `%${lang}\n` `` built in `matchHeaderLine`. -/
def headerOf (c : CellType) : Text := uts "%" ++ c.name ++ uts "\n"

/-- The code-fence opener `` "```" + lang + "\n" `` built in
`skipCodeBlockHeader` and `startsWithCodeBlockHeader`. -/
def fenceOf (c : CellType) : Text := uts "```" ++ c.name ++ uts "\n"

/-- `labelChars` (botresponse.ts): letters, digits, and space. -/
def labelChars : Text :=
  uts "abcdefghijklmnopqrstuvwxyzABCDEFGHIJKLMNOPQRSTUVWXYZ0123456789 "

/-- The `` /^```[ \t]*\n?$/.test(line) `` check in `copyCodeBlock`: after the
three backticks, only spaces and tabs, optionally ending in a newline. -/
def isFenceClose (l : Text) : Bool :=
  (uts "```").isPrefixOf l &&
    (((l.drop 3).dropWhile fun u => u == 32 || u == 9) == [] ||
      ((l.drop 3).dropWhile fun u => u == 32 || u == 9) == [10])

theorem atEnd_true_absText {s : ScanState} (hinv : SInv s)
    (h : s.atEnd = true) : absText s = [] := by
  rcases s with ⟨buf, cs, d⟩
  simp only [ScanState.atEnd, Bool.and_eq_true, List.isEmpty_iff] at h
  have hcs : cs = [] := hinv h.2
  simp [absText, h.1, hcs]

theorem atEnd_eq {s : ScanState} (hinv : SInv s)
    (he : absText s = [] → s.inputDone = true) :
    s.atEnd = decide (absText s = []) := by
  rcases hd : s.inputDone
  · have : absText s ≠ [] := fun hc => by rw [he hc] at hd; cases hd
    simp [ScanState.atEnd, hd, this]
  · have hcs : s.chunks = [] := hinv hd
    have habs : absText s = s.buffer := by simp [absText, hcs]
    rcases hb : s.buffer with _ | ⟨u, r⟩
    · simp [ScanState.atEnd, hd, hb, habs]
    · simp [ScanState.atEnd, hd, hb, habs]

namespace BotResponse

/-- `skipBlankLines` (botresponse.ts): `while (await takeBlankLine()) {}`,
fuelled. -/
def skipBlankLinesF : Nat → ScanState → ScanState
  | 0, s => s
  | fuel + 1, s =>
    match Scanner.takeBlankLine s with
    | ([], s1) => s1
    | (_ :: _, s1) => skipBlankLinesF fuel s1

def skipBlankLines (s : ScanState) : ScanState := skipBlankLinesF (nu s + 1) s

/-- The `for (const lang of allCellTypes)` loop of `matchHeaderLine`. -/
def matchHeaderLineGo : List CellType → ScanState → Option CellType × ScanState
  | [], s => (none, s)
  | c :: cs, s =>
    match Scanner.startsWith (headerOf c) s with
    | (true, s1) => (some c, s1)
    | (false, s1) => matchHeaderLineGo cs s1

/-- `matchHeaderLine` (botresponse.ts): returns the first cell type whose
header line is next in the stream. -/
def matchHeaderLine (s : ScanState) : Option CellType × ScanState :=
  matchHeaderLineGo allCellTypes s

/-- `takeLabel` (botresponse.ts): greedy run of label characters and
allow-listed emoji, fuelled. -/
def takeLabelF : Nat → ScanState → Text × ScanState
  | 0, s => ([], s)
  | fuel + 1, s =>
    match Scanner.takeMatchingChar labelChars s with
    | (c :: cr, s1) =>
      match takeLabelF fuel s1 with
      | (l, s2) => ((c :: cr) ++ l, s2)
    | ([], s1) =>
      match Scanner.takeEmoji s1 with
      | ([], s2) => ([], s2)
      | (e :: er, s2) =>
        match takeLabelF fuel s2 with
        | (l, s3) => ((e :: er) ++ l, s3)

def takeLabel (s : ScanState) : Text × ScanState := takeLabelF (nu s + 1) s

/-- The `if (!await output.write(t)) { throw CANCELLED; }` pattern. -/
def writeOrCancel (accept : Nat → Bool) (t : Text) (rs : RS) : Option Halt × RS :=
  match callSink accept (.write t) rs with
  | (true, rs1) => (none, rs1)
  | (false, rs1) => (some .cancelled, rs1)

/-- `copyOrAddCue` (botresponse.ts lines 208-222): skip spaces and tabs, take
a label; if the label is non-empty and `": "` follows, write the label back
with `": "`, otherwise write `defaultCue + ": " + label`. -/
def copyOrAddCue (accept : Nat → Bool) (cue : Text) (rs : RS) : Option Halt × RS :=
  match takeLabel (Scanner.takeMatchingRun (uts " \t") rs.scan).2 with
  | ([], s2) => writeOrCancel accept (cue ++ uts ": ") ⟨s2, rs.out⟩
  | (n :: nr, s2) =>
    match Scanner.skipToken (uts ": ") s2 with
    | (true, s3) => writeOrCancel accept ((n :: nr) ++ uts ": ") ⟨s3, rs.out⟩
    | (false, s3) => writeOrCancel accept (cue ++ uts ": " ++ (n :: nr)) ⟨s3, rs.out⟩

/-- The `for (const lang of allLanguages)` loop of `skipCodeBlockHeader`. -/
def skipCodeBlockHeaderGo : List CellType → ScanState → Bool × ScanState
  | [], s => (false, s)
  | c :: cs, s =>
    match Scanner.skipToken (fenceOf c) s with
    | (true, s1) => (true, s1)
    | (false, s1) => skipCodeBlockHeaderGo cs s1

/-- `skipCodeBlockHeader` (botresponse.ts lines 224-231). -/
def skipCodeBlockHeader (s : ScanState) : Bool × ScanState :=
  skipCodeBlockHeaderGo allLanguages s

/-- The `for (const lang of allLanguages)` loop of `startsWithCodeBlockHeader`. -/
def startsWithCodeBlockHeaderGo : List CellType → ScanState → Bool × ScanState
  | [], s => (false, s)
  | c :: cs, s =>
    match Scanner.startsWith (fenceOf c) s with
    | (true, s1) => (true, s1)
    | (false, s1) => startsWithCodeBlockHeaderGo cs s1

/-- `startsWithCodeBlockHeader` (botresponse.ts lines 233-240). -/
def startsWithCodeBlockHeader (s : ScanState) : Bool × ScanState :=
  startsWithCodeBlockHeaderGo allLanguages s

/-- Exit mode of the `copyCodeBlock` loop: `break` to the tail, `return`
out of the method, or a thrown cancellation. -/
inductive CBExit where
  | brk : CBExit
  | ret : CBExit
  | cancel : CBExit
deriving DecidableEq

/-- The `while (true)` loop of `copyCodeBlock` (botresponse.ts lines
261-278), fuelled: at the end of input, return; on a line starting with
three backticks, take the line and break if it closes the fence, else write
it; otherwise stream one line. -/
def copyCodeBlockLoopF : Nat → (Nat → Bool) → RS → CBExit × RS
  | 0, _, rs => (.ret, rs)
  | fuel + 1, accept, rs =>
    if rs.scan.atEnd then (.ret, rs)
    else
      match Scanner.startsWith (uts "```") rs.scan with
      | (true, s1) =>
        match Scanner.takeLine s1 with
        | (line, s2) =>
          if isFenceClose line then (.brk, ⟨s2, rs.out⟩)
          else
            match writeOrCancel accept line ⟨s2, rs.out⟩ with
            | (none, rs1) => copyCodeBlockLoopF fuel accept rs1
            | (some _, rs1) => (.cancel, rs1)
      | (false, s1) =>
        match Scanner.copyLineTo accept ⟨s1, rs.out⟩ with
        | (true, rs1) => copyCodeBlockLoopF fuel accept rs1
        | (false, rs1) => (.cancel, rs1)

/-- The tail of `copyCodeBlock` after the loop breaks (botresponse.ts lines
280-287): skip blank lines; unless at the end, at a header line, or at
another code fence, start a markdown cell (result ignored) and write the
cue. -/
def copyCodeBlockTail (accept : Nat → Bool) (cue : Text) (rs : RS) : Option Halt × RS :=
  match skipBlankLines rs.scan with
  | s1 =>
    if s1.atEnd then (none, ⟨s1, rs.out⟩)
    else
      match matchHeaderLine s1 with
      | (some c, s2) => (none, ⟨s2, rs.out⟩)
      | (none, s2) =>
        match startsWithCodeBlockHeader s2 with
        | (true, s3) => (none, ⟨s3, rs.out⟩)
        | (false, s3) =>
          copyOrAddCue accept cue (callSink accept .startMarkdown ⟨s3, rs.out⟩).2

/-- `copyCodeBlock` (botresponse.ts lines 258-288): start a code cell
(result ignored), run the loop, then the tail unless the loop returned or
cancelled. -/
def copyCodeBlock (accept : Nat → Bool) (cue : Text) (rs : RS) : Option Halt × RS :=
  match copyCodeBlockLoopF (nu rs.scan + 1) accept (callSink accept .startCode rs).2 with
  | (.cancel, rs1) => (some .cancelled, rs1)
  | (.ret, rs1) => (none, rs1)
  | (.brk, rs1) => copyCodeBlockTail accept cue rs1

/-- The `while` loop of `copyMarkdown` (botresponse.ts lines 249-255),
fuelled: stop at the end of input or at a header line; copy a code block
after a fence opener, else stream one line. -/
def copyMarkdownLoopF : Nat → (Nat → Bool) → Text → RS → Option Halt × RS
  | 0, _, _, rs => (none, rs)
  | fuel + 1, accept, cue, rs =>
    if rs.scan.atEnd then (none, rs)
    else
      match matchHeaderLine rs.scan with
      | (some c, s1) => (none, ⟨s1, rs.out⟩)
      | (none, s1) =>
        match skipCodeBlockHeader s1 with
        | (true, s2) =>
          match copyCodeBlock accept cue ⟨s2, rs.out⟩ with
          | (none, rs1) => copyMarkdownLoopF fuel accept cue rs1
          | (some h, rs1) => (some h, rs1)
        | (false, s2) =>
          match Scanner.copyLineTo accept ⟨s2, rs.out⟩ with
          | (true, rs1) => copyMarkdownLoopF fuel accept cue rs1
          | (false, rs1) => (some .cancelled, rs1)

/-- `copyMarkdown` (botresponse.ts lines 242-256): copy a code block after a
fence opener, else write the cue; then the loop. -/
def copyMarkdown (accept : Nat → Bool) (cue : Text) (rs : RS) : Option Halt × RS :=
  match skipCodeBlockHeader rs.scan with
  | (true, s1) =>
    match copyCodeBlock accept cue ⟨s1, rs.out⟩ with
    | (none, rs1) => copyMarkdownLoopF (nu rs1.scan + 1) accept cue rs1
    | (some h, rs1) => (some h, rs1)
  | (false, s1) =>
    match copyOrAddCue accept cue ⟨s1, rs.out⟩ with
    | (none, rs1) => copyMarkdownLoopF (nu rs1.scan + 1) accept cue rs1
    | (some h, rs1) => (some h, rs1)

/-- The `while` loop of `copyCodeCell` (botresponse.ts lines 290-299),
fuelled: stop at the end of input; return at a header line; stream one
line. -/
def copyCodeCellF : Nat → (Nat → Bool) → RS → Option Halt × RS
  | 0, _, rs => (none, rs)
  | fuel + 1, accept, rs =>
    if rs.scan.atEnd then (none, rs)
    else
      match matchHeaderLine rs.scan with
      | (some c, s1) => (none, ⟨s1, rs.out⟩)
      | (none, s1) =>
        match Scanner.copyLineTo accept ⟨s1, rs.out⟩ with
        | (true, rs1) => copyCodeCellF fuel accept rs1
        | (false, rs1) => (some .cancelled, rs1)

def copyCodeCell (accept : Nat → Bool) (rs : RS) : Option Halt × RS :=
  copyCodeCellF (nu rs.scan + 1) accept rs

/-- Start-of-cell sequence inside `copy`'s main loop: the start call whose
result is ignored, then `skipBlankLines`. -/
def startCell (accept : Nat → Bool) (e : Ev) (rs : RS) : RS :=
  match callSink accept e rs with
  | (_, rs1) => ⟨skipBlankLines rs1.scan, rs1.out⟩

/-- Continuation after a cell body inside `copy`'s main loop (botresponse.ts
lines 179-186): stop at the end of input, fail without a header line, or
hand the next header to the loop. -/
def copyLoopStep (next : CellType → RS → Option Halt × RS) (r : Option Halt × RS) :
    Option Halt × RS :=
  match r with
  | (some h, rs1) => (some h, rs1)
  | (none, rs1) =>
    if rs1.scan.atEnd then (none, rs1)
    else
      match matchHeaderLine rs1.scan with
      | (none, s2) => (some .headerErr, ⟨s2, rs1.out⟩)
      | (some c, s2) => next c ⟨s2, rs1.out⟩

/-- The `while (true)` loop of `copy` (botresponse.ts lines 166-187),
fuelled: skip the matched header token (result ignored), start the cell,
copy its body, then stop at the end of input, fail without a header line,
or continue with the next header. -/
def copyLoopF : Nat → (Nat → Bool) → Text → CellType → RS → Option Halt × RS
  | 0, _, _, _, rs => (none, rs)
  | fuel + 1, accept, cue, c, rs =>
    match Scanner.skipToken (headerOf c) rs.scan with
    | (_, s1) =>
      if c = .markdown then
        copyLoopStep (copyLoopF fuel accept cue)
          (copyMarkdown accept cue (startCell accept .startMarkdown ⟨s1, rs.out⟩))
      else
        copyLoopStep (copyLoopF fuel accept cue)
          (copyCodeCell accept (startCell accept .startCode ⟨s1, rs.out⟩))

/-- `copy` (botresponse.ts lines 138-188): skip leading blank lines; on
empty input write `"<cue>: (no response)"`; with a header line enter the
main loop directly, otherwise copy a leading markdown cell first. -/
def copy (accept : Nat → Bool) (cue : Text) (rs : RS) : Option Halt × RS :=
  match skipBlankLines rs.scan with
  | s1 =>
    if s1.atEnd then
      writeOrCancel accept (cue ++ uts ": (no response)") ⟨s1, rs.out⟩
    else
      match matchHeaderLine s1 with
      | (some c, s2) => copyLoopF (nu s2 + 1) accept cue c ⟨s2, rs.out⟩
      | (none, s2) =>
        copyLoopStep (fun c rs1 => copyLoopF (nu rs1.scan + 1) accept cue c rs1)
          (copyMarkdown accept cue ⟨s2, rs.out⟩)

/-- Runs `BotResponse.copy` against an input stream delivering the given
chunks: fresh scanner, empty call trace. -/
def runCopy (accept : Nat → Bool) (cue : Text) (chunks : List Text) : Option Halt × RS :=
  copy accept cue ⟨⟨[], chunks, false⟩, []⟩

end BotResponse

/-- Split a call trace into notebook cells: each `startCodeCell` /
`startMarkdownCell` call opens a new cell and the writes in between are
concatenated. -/
inductive CellKind where
  | code : CellKind
  | markdown : CellKind
deriving DecidableEq

def cellsGo : CellKind × Text → List Ev → List (CellKind × Text)
  | cur, [] => [cur]
  | cur, .startCode :: l => cur :: cellsGo (.code, []) l
  | cur, .startMarkdown :: l => cur :: cellsGo (.markdown, []) l
  | (k, t), .write w :: l => cellsGo (k, t ++ w) l

/-- The cells produced by a call trace; output starts inside a markdown
cell, and the leading cell is dropped when nothing was written to it. -/
def cells (l : List Ev) : List (CellKind × Text) :=
  match cellsGo (.markdown, []) l with
  | (.markdown, []) :: r => r
  | r => r

set_option maxHeartbeats 1000000 in
/-- Claim C3: on empty input (no chunks before the end sentinel),
`BotResponse.copy` makes exactly one sink call, a write of
`"bot: (no response)"`, producing exactly one markdown cell, and finishes
normally. -/
theorem c3_empty_input_no_response :
    (BotResponse.runCopy acceptAll (uts "bot") []).1 = none ∧
    (BotResponse.runCopy acceptAll (uts "bot") []).2.out =
      [.write (uts "bot: (no response)")] ∧
    cells (BotResponse.runCopy acceptAll (uts "bot") []).2.out =
      [(.markdown, uts "bot: (no response)")] := by
  exact ⟨by decide, by decide, by decide⟩

set_option maxHeartbeats 1000000 in
/-- Claim C4, counterexample: for the input `"%python\n\n \nx = 1\n\ny = 2"`
the produced code cell does not carry the text `"x = 1\ny = 2"` stated in
the spec: the interior blank line between the two statements is not
dropped. -/
theorem c4_counterexample :
    cells (BotResponse.runCopy acceptAll (uts "bot")
        [uts "%python\n\n \nx = 1\n\ny = 2"]).2.out ≠
      [(.code, uts "x = 1\ny = 2")] := by
  decide

set_option maxHeartbeats 1000000 in
/-- Claim C4, amended: blank lines immediately following the header marker
are dropped, but interior blank lines are kept: the input
`"%python\n\n \nx = 1\n\ny = 2"` yields exactly one code cell whose total
written text is `"x = 1\n\ny = 2"`, and the parse finishes normally. -/
theorem c4_amended :
    (BotResponse.runCopy acceptAll (uts "bot")
        [uts "%python\n\n \nx = 1\n\ny = 2"]).1 = none ∧
    cells (BotResponse.runCopy acceptAll (uts "bot")
        [uts "%python\n\n \nx = 1\n\ny = 2"]).2.out =
      [(.code, uts "x = 1\n\ny = 2")] := by
  exact ⟨by decide, by decide⟩

set_option maxHeartbeats 1000000 in
/-- Claim C5, counterexample: for the input `"%python\nx = 1\n%markdown\nHi!"`
the markdown cell's text is not `"Hi!"`: `copyOrAddCue` prepends the default
cue. -/
theorem c5_counterexample :
    cells (BotResponse.runCopy acceptAll (uts "bot")
        [uts "%python\nx = 1\n%markdown\nHi!"]).2.out ≠
      [(.code, uts "x = 1\n"), (.markdown, uts "Hi!")] := by
  decide

set_option maxHeartbeats 1000000 in
/-- Claim C5, amended: the input `"%python\nx = 1\n%markdown\nHi!"` yields a
code cell with text `"x = 1\n"` followed by a markdown cell with text
`"bot: Hi!"` (the default cue is inserted before the markdown content). -/
theorem c5_amended :
    (BotResponse.runCopy acceptAll (uts "bot")
        [uts "%python\nx = 1\n%markdown\nHi!"]).1 = none ∧
    cells (BotResponse.runCopy acceptAll (uts "bot")
        [uts "%python\nx = 1\n%markdown\nHi!"]).2.out =
      [(.code, uts "x = 1\n"), (.markdown, uts "bot: Hi!")] := by
  exact ⟨by decide, by decide⟩

set_option maxHeartbeats 1000000 in
/-- Claim C1, counterexample: delivering the same logical input `"!!\n"` as
one chunk or as three one-unit chunks produces different sequences of sink
calls (the write texts differ), so the raw call sequence is not
chunking-independent. -/
theorem c1_counterexample :
    ([uts "!!\n"] : List Text).flatten =
      ([uts "!", uts "!", uts "\n"] : List Text).flatten ∧
    (BotResponse.runCopy acceptAll (uts "bot") [uts "!!\n"]).2.out ≠
      (BotResponse.runCopy acceptAll (uts "bot") [uts "!", uts "!", uts "\n"]).2.out := by
  exact ⟨by decide, by decide⟩

set_option maxHeartbeats 1000000 in
/-- Claim C6, counterexample: the results of `startMarkdownCell` /
`startCodeCell` are ignored by the parser.  With a sink that refuses the
first call, running on `"%markdown\nhi"` makes a `startMarkdownCell` call
that returns false, yet a further sink call (a write) is made and the parse
finishes normally instead of raising CANCELLED. -/
theorem c6_counterexample :
    (fun i => decide (i ≠ 0)) 0 = false ∧
    (BotResponse.runCopy (fun i => decide (i ≠ 0)) (uts "bot")
        [uts "%markdown\nhi"]).2.out =
      [.startMarkdown, .write (uts "bot: hi")] ∧
    (BotResponse.runCopy (fun i => decide (i ≠ 0)) (uts "bot")
        [uts "%markdown\nhi"]).1 = none := by
  exact ⟨by decide, by decide, by decide⟩

/-- Claim C8: `Scanner.pull` appends each chunk to the buffer verbatim
(scanner.ts lines 37-48).  When the input is an emoji delivered as two
chunks split between its surrogate halves, the first pull exposes a buffer
ending in the lone leading surrogate 0xD83D while more input remains — the
coalescing required by the spec (and by the repository's own test
"doesn't split a surrogate pair", scanner.test.ts lines 35-42) does not
happen. -/
theorem c8_pull_splits_surrogate_pair :
    (Scanner.pull ⟨[], [[0xD83D], [0xDE00]], false⟩).1 = true ∧
    (Scanner.pull ⟨[], [[0xD83D], [0xDE00]], false⟩).2.buffer = [0xD83D] ∧
    (Scanner.pull ⟨[], [[0xD83D], [0xDE00]], false⟩).2.chunks ≠ [] := by
  exact ⟨rfl, rfl, by decide⟩

/-- `ChildExitError` (processes.ts lines 7-28): carries the command path and
arguments, the exit code, and the captured stderr text. -/
structure ChildExitError where
  path : Text
  args : List Text
  exitCode : Int
  stderr : Text
deriving DecidableEq

/-- An error thrown by `ChildPipe.close()`: either the stdout handler's own
exception or a `ChildExitError` from the process exit. -/
inductive CloseErr (E : Type) where
  | fromHandler : E → CloseErr E
  | fromExit : ChildExitError → CloseErr E

/-- The settled state of the `#stopped` completer (part_020 lines 201-245):
the `close` event handler calls `#throwExitError` — rejecting `#stopped`
with a `ChildExitError` carrying the captured stderr — when the child
exited with a non-zero code, and `#stop()` resolves it otherwise; the first
settlement wins. -/
def stoppedFrom (path : Text) (args : List Text) (exitCode : Int) (stderr : Text) :
    Except ChildExitError Unit :=
  if exitCode ≠ 0 then .error ⟨path, args, exitCode, stderr⟩ else .ok ()

namespace ChildPipe

/-- `ChildPipe.close()` (part_020 lines 285-302): awaits the handler first
so that its exception takes priority — on a handler error it awaits
`#stopped` while ignoring that promise's own error and rethrows the
handler's; otherwise it awaits `#stopped`, propagating the `ChildExitError`
raised on a non-zero exit, and returns the handler's value. -/
def close (E T : Type) (handlerResult : Except E T) (path : Text)
    (args : List Text) (exitCode : Int) (stderr : Text) : Except (CloseErr E) T :=
  match handlerResult with
  | .error e => .error (.fromHandler e)
  | .ok v =>
    match stoppedFrom path args exitCode stderr with
    | .error err => .error (.fromExit err)
    | .ok _ => .ok v

end ChildPipe

/-- Claim C7: when `ChildPipe.close()` is called, a handler exception is
propagated even if the child separately exited with a non-zero code; and
when the handler returns normally but the exit code is non-zero, `close`
throws the `ChildExitError` carrying the captured stderr and the exit
code. -/
theorem c7_close_priority (E T : Type) (path : Text) (args : List Text)
    (exitCode : Int) (stderr : Text) :
    (∀ e : E, ChildPipe.close E T (.error e) path args exitCode stderr =
      .error (.fromHandler e)) ∧
    (∀ v : T, exitCode ≠ 0 →
      ChildPipe.close E T (.ok v) path args exitCode stderr =
        .error (.fromExit ⟨path, args, exitCode, stderr⟩)) := by
  constructor
  · intro e
    rfl
  · intro v h
    simp only [ChildPipe.close, stoppedFrom, if_pos h]

/-- Witness for C7 at concrete inputs: a handler error wins over exit code
3, and a normal handler result with exit code 2 yields the exit error. -/
theorem c7_close_priority_witness :
    ChildPipe.close Nat Nat (.error 7) (uts "llm") [] 3 (uts "boom") =
      .error (.fromHandler 7) ∧
    ChildPipe.close Nat Nat (.ok 5) (uts "llm") [] 2 (uts "oops") =
      .error (.fromExit ⟨uts "llm", [], 2, uts "oops"⟩) :=
  ⟨(c7_close_priority Nat Nat (uts "llm") [] 3 (uts "boom")).1 7,
    (c7_close_priority Nat Nat (uts "llm") [] 2 (uts "oops")).2 5 (by decide)⟩

/-- Resolution state of the `readerWaiting` completer in `makePipe`
(streams.ts lines 478-483): a `Completer` settles at most once, so late
`resolve` calls are ignored. -/
inductive CompleterB where
  | unres : CompleterB
  | resT : CompleterB
  | resF : CompleterB
deriving DecidableEq

/-- State of the rendezvous pipe: the `readerWaiting` completer and the
`done` flag.  `nextRead` only carries handed-off data and never feeds back
into the return value of a later `write`/`close`, so it is elided. -/
structure PipeSt where
  rw : CompleterB
  done : Bool
deriving DecidableEq

namespace makePipe

/-- `readerWaiting.resolve(b)`: settles the completer the first time only. -/
def resolveRW (b : Bool) (s : PipeSt) : PipeSt :=
  match s.rw with
  | .unres => { s with rw := if b then .resT else .resF }
  | _ => s

/-- `read()` up to its await of `nextRead.promise` (streams.ts lines
485-501): when `done` it returns DONE immediately; otherwise it resolves
`readerWaiting` with true and blocks on `nextRead`. -/
def readStart (s : PipeSt) : PipeSt :=
  if s.done then s else resolveRW true s

/-- `cancel()` (streams.ts lines 503-508): resolves `readerWaiting` with
false — a no-op if the completer is already settled — resolves `nextRead`
with DONE, and sets `done`. -/
def cancel (s : PipeSt) : PipeSt :=
  { resolveRW false s with done := true }

/-- `send(data)` (streams.ts lines 512-531), the body of both `write` and
`close`.  `some false`: `readerWaiting.promise` was settled with false (a
cancel), so send returns false without replacing the completer.
`some true`: the promise was settled with true, so the completer is
replaced by a fresh one and send returns true (setting `done` when closing).
`none`: the promise is unsettled and the send blocks. -/
def send (isClose : Bool) (s : PipeSt) : Option Bool × PipeSt :=
  match s.rw with
  | .resF => (some false, s)
  | .resT => (some true, { rw := .unres, done := s.done || isClose })
  | .unres => (none, s)

/-- One pipe-facing action: the reader starting a read, the reader
cancelling, or the writer writing or closing. -/
inductive PipeOp where
  | readStart : PipeOp
  | cancel : PipeOp
  | write : PipeOp
  | close : PipeOp

/-- Runs a sequence of pipe actions, collecting the outcome of every
`write`/`close` call (`none` when the call blocks forever). -/
def runPipe : PipeSt → List PipeOp → List (Option Bool) × PipeSt
  | s, [] => ([], s)
  | s, .readStart :: ops => runPipe (readStart s) ops
  | s, .cancel :: ops => runPipe (cancel s) ops
  | s, .write :: ops =>
    match send false s with
    | (r, s1) =>
      match runPipe s1 ops with
      | (rs, s2) => (r :: rs, s2)
  | s, .close :: ops =>
    match send true s with
    | (r, s1) =>
      match runPipe s1 ops with
      | (rs, s2) => (r :: rs, s2)

end makePipe

/-- Claim C9, counterexample: when a `read()` is already pending at the
moment of `cancel()`, `readerWaiting` has been resolved with true and
`cancel`'s `resolve(false)` is a no-op — so the next `write` consumes the
stale grant and returns true, and the write after that blocks forever. -/
theorem c9_counterexample :
    (makePipe.runPipe ⟨.unres, false⟩
      [.readStart, .cancel, .write, .write]).1 = [some true, none] := by
  decide

/-- Claim C9, amended: if `cancel()` runs while `readerWaiting` is not
settled with true (no read is pending an unconsumed grant), then every
subsequent `write` and `close` returns false — it neither blocks nor
throws. -/
theorem c9_amended (s : PipeSt) (h : s.rw ≠ .resT) (ops : List makePipe.PipeOp) :
    ((makePipe.runPipe (makePipe.cancel s) ops).1.all
      fun r => r == some false) = true := by
  have hc : (makePipe.cancel s).rw = .resF ∧ (makePipe.cancel s).done = true := by
    rcases s with ⟨rw, d⟩
    cases rw
    · exact ⟨rfl, rfl⟩
    · exact absurd rfl h
    · exact ⟨rfl, rfl⟩
  have main : ∀ (ops : List makePipe.PipeOp) (t : PipeSt), t.rw = .resF → t.done = true →
      ((makePipe.runPipe t ops).1.all fun r => r == some false) = true := by
    intro ops
    induction ops with
    | nil => intro t h1 h2; rfl
    | cons op rest ih =>
      intro t h1 h2
      have ht : t = ⟨.resF, true⟩ := by
        rcases t with ⟨rw, d⟩
        simp only at h1 h2
        rw [h1, h2]
      subst ht
      cases op
      · exact ih ⟨.resF, true⟩ rfl rfl
      · exact ih ⟨.resF, true⟩ rfl rfl
      · have : makePipe.runPipe ⟨.resF, true⟩ (.write :: rest) =
            ((some false) :: (makePipe.runPipe ⟨.resF, true⟩ rest).1,
              (makePipe.runPipe ⟨.resF, true⟩ rest).2) := by
          show (match makePipe.send false ⟨.resF, true⟩ with
            | (r, s1) =>
              match makePipe.runPipe s1 rest with
              | (rs, s2) => (r :: rs, s2)) = _
          rfl
        rw [this]
        have hr := ih ⟨.resF, true⟩ rfl rfl
        simp [hr]
      · have : makePipe.runPipe ⟨.resF, true⟩ (.close :: rest) =
            ((some false) :: (makePipe.runPipe ⟨.resF, true⟩ rest).1,
              (makePipe.runPipe ⟨.resF, true⟩ rest).2) := by
          show (match makePipe.send true ⟨.resF, true⟩ with
            | (r, s1) =>
              match makePipe.runPipe s1 rest with
              | (rs, s2) => (r :: rs, s2)) = _
          rfl
        rw [this]
        have hr := ih ⟨.resF, true⟩ rfl rfl
        simp [hr]
  exact main ops (makePipe.cancel s) hc.1 hc.2

/-- Witness for the amended C9: cancelling with no pending read, then
writing twice and closing — all three calls return false. -/
theorem c9_amended_witness :
    ((makePipe.runPipe (makePipe.cancel ⟨.unres, false⟩)
      [.write, .write, .readStart, .close]).1.all fun r => r == some false) = true :=
  c9_amended ⟨.unres, false⟩ (by decide) [.write, .write, .readStart, .close]

/-- Pure description of `takeLabel`: the greedy run of label characters and
allow-listed emoji at the front of the text, fuelled by its length. -/
def specLabelF : Nat → Text → Text
  | 0, _ => []
  | fuel + 1, t =>
    match Scanner.headMatch labelChars t with
    | c :: cr => (c :: cr) ++ specLabelF fuel (t.drop 1)
    | [] =>
      match Scanner.emojiHead t with
      | e :: er => (e :: er) ++ specLabelF fuel (t.drop 2)
      | [] => []

def specLabel (t : Text) : Text := specLabelF (t.length + 1) t

theorem headMatch_cases (allowed t : Text) :
    Scanner.headMatch allowed t = [] ∨
      ∃ u r, t = u :: r ∧ u ∈ allowed ∧ Scanner.headMatch allowed t = [u] := by
  cases t with
  | nil => exact .inl rfl
  | cons u r =>
    by_cases hu : u ∈ allowed
    · exact .inr ⟨u, r, rfl, hu, by simp [Scanner.headMatch, hu]⟩
    · exact .inl (by simp [Scanner.headMatch, hu])

theorem emojiHead_cases (t : Text) :
    Scanner.emojiHead t = [] ∨
      ∃ u v r, t = u :: v :: r ∧ (u, v) ∈ Scanner.emojiAllowed ∧
        Scanner.emojiHead t = [u, v] := by
  match t with
  | [] => exact .inl rfl
  | [u] => exact .inl rfl
  | u :: v :: r =>
    by_cases huv : (u, v) ∈ Scanner.emojiAllowed
    · exact .inr ⟨u, v, r, rfl, huv, by simp [Scanner.emojiHead, huv]⟩
    · exact .inl (by simp [Scanner.emojiHead, huv])

theorem specLabelF_stable : ∀ (f f' : Nat) (t : Text), t.length < f → t.length < f' →
    specLabelF f t = specLabelF f' t := by
  intro f
  induction f with
  | zero => intro f' t h _; omega
  | succ f ih =>
    intro f' t hf hf'
    cases f' with
    | zero => omega
    | succ f' =>
      rcases headMatch_cases labelChars t with h0 | ⟨u, r, ht, hu, h1⟩
      · rcases emojiHead_cases t with e0 | ⟨u, v, r, ht, huv, e1⟩
        · simp only [specLabelF, h0, e0]
        · have hlen : (t.drop 2).length < f := by subst ht; simp at hf ⊢; omega
          have hlen' : (t.drop 2).length < f' := by subst ht; simp at hf' ⊢; omega
          simp only [specLabelF, h0, e1]
          exact congrArg _ (ih f' (t.drop 2) hlen hlen')
      · have hlen : (t.drop 1).length < f := by subst ht; simp at hf ⊢; omega
        have hlen' : (t.drop 1).length < f' := by subst ht; simp at hf' ⊢; omega
        simp only [specLabelF, h1]
        exact congrArg _ (ih f' (t.drop 1) hlen hlen')

namespace BotResponse

theorem takeLabelF_spec (fuel : Nat) : ∀ (s : ScanState), nu s < fuel → SInv s →
    (takeLabelF fuel s).1 = specLabel (absText s) ∧
    absText (takeLabelF fuel s).2 =
      (absText s).drop (specLabel (absText s)).length ∧
    SInv (takeLabelF fuel s).2 ∧
    nu (takeLabelF fuel s).2 ≤ nu s := by
  induction fuel with
  | zero => intro s h; omega
  | succ fuel ih =>
    intro s hfuel hinv
    rcases Scanner.takeMatchingChar_spec labelChars s hinv with ⟨m1, m2, m3, m4, m5, m6⟩
    rcases hm : Scanner.takeMatchingChar labelChars s with ⟨mc, s1⟩
    rw [hm] at m1 m2 m3 m4 m5 m6
    simp only at m1 m2 m3 m4 m5 m6
    cases mc with
    | nil =>
      have habs1 : absText s1 = absText s := by
        rw [m2, ← m1]
        simp
      rcases Scanner.takeEmoji_spec s1 m4 with ⟨e1, e2, e3, e4, e5, e6⟩
      rcases he : Scanner.takeEmoji s1 with ⟨ec, s2⟩
      rw [he] at e1 e2 e3 e4 e5 e6
      simp only at e1 e2 e3 e4 e5 e6
      rw [habs1] at e1 e2
      cases ec with
      | nil =>
        have heq : takeLabelF (fuel + 1) s = ([], s2) := by
          simp only [takeLabelF, hm, he]
        rw [heq]
        have hsl : specLabel (absText s) = [] := by
          rw [specLabel]
          rcases headMatch_cases labelChars (absText s) with h0 | ⟨u, r, ht, hu, h1⟩
          · rcases emojiHead_cases (absText s) with k0 | ⟨u, v, r, ht, huv, k1⟩
            · simp only [specLabelF, h0, k0]
            · rw [k1] at e1
              simp at e1
          · rw [h1] at m1
            simp at m1
        rw [hsl]
        refine ⟨rfl, ?_, e4, le_trans e5 m5⟩
        show absText s2 = _
        rw [e2, ← e1]
      | cons e er =>
        have heq : takeLabelF (fuel + 1) s =
            ((e :: er) ++ (takeLabelF fuel s2).1, (takeLabelF fuel s2).2) := by
          simp only [takeLabelF, hm, he]
        rw [heq]
        rcases emojiHead_cases (absText s) with k0 | ⟨u, v, r, ht, huv, k1⟩
        · rw [k0] at e1
          simp at e1
        · have hev : (e :: er : Text) = [u, v] := by rw [e1, k1]
          have he6 := e6 (by simp)
          have hrec := ih s2 (by omega) e4
          have e2' : absText s2 = (absText s).drop 2 := by
            rw [e2, k1]
            rfl
          have hpure : specLabel (absText s) = [u, v] ++ specLabel ((absText s).drop 2) := by
            rw [specLabel]
            have hlr : (absText s).drop 2 = r := by rw [ht]; rfl
            have hlen : (absText s).length = r.length + 2 := by rw [ht]; simp
            simp only [specLabelF, ← m1, k1]
            rw [specLabelF_stable (absText s).length ((absText s).drop 2).length.succ
              ((absText s).drop 2) (by rw [hlr, hlen]; omega) (by omega)]
            rfl
          refine ⟨?_, ?_, hrec.2.2.1, ?_⟩
          · rw [hpure, hev, hrec.1, e2']
          · show absText (takeLabelF fuel s2).2 = _
            rw [hrec.2.1, e2', hpure]
            simp only [List.drop_drop, List.length_append, List.length_cons,
              List.length_nil]
          · show nu (takeLabelF fuel s2).2 ≤ nu s
            omega
    | cons c cr =>
      rcases headMatch_cases labelChars (absText s) with h0 | ⟨u, r, ht, hu, h1⟩
      · rw [h0] at m1
        simp at m1
      · have hcu : (c :: cr : Text) = [u] := by rw [m1, h1]
        have heq : takeLabelF (fuel + 1) s =
            ((c :: cr) ++ (takeLabelF fuel s1).1, (takeLabelF fuel s1).2) := by
          simp only [takeLabelF, hm]
        rw [heq]
        have hm6 := m6 (by simp)
        have hrec := ih s1 (by omega) m4
        have m2' : absText s1 = (absText s).drop 1 := by
          rw [m2, ← m1, hcu]
          rfl
        have hpure : specLabel (absText s) = [u] ++ specLabel ((absText s).drop 1) := by
          rw [specLabel]
          have hlr : (absText s).drop 1 = r := by rw [ht]; rfl
          have hlen : (absText s).length = r.length + 1 := by rw [ht]; simp
          simp only [specLabelF, h1]
          rw [specLabelF_stable (absText s).length ((absText s).drop 1).length.succ
            ((absText s).drop 1) (by rw [hlr, hlen]; omega) (by omega)]
          rfl
        refine ⟨?_, ?_, hrec.2.2.1, ?_⟩
        · rw [hpure, hcu, hrec.1, m2']
        · show absText (takeLabelF fuel s1).2 = _
          rw [hrec.2.1, m2', hpure]
          simp only [List.drop_drop, List.length_append, List.length_cons,
            List.length_nil]
        · show nu (takeLabelF fuel s1).2 ≤ nu s
          omega

theorem takeLabel_spec (s : ScanState) (hinv : SInv s) :
    (takeLabel s).1 = specLabel (absText s) ∧
    absText (takeLabel s).2 = (absText s).drop (specLabel (absText s)).length ∧
    SInv (takeLabel s).2 ∧
    nu (takeLabel s).2 ≤ nu s :=
  takeLabelF_spec (nu s + 1) s (Nat.lt_succ_self _) hinv

end BotResponse

/-- The markdown-cell body after `copyOrAddCue` skips leading spaces and
tabs. -/
def cueBody (t : Text) : Text := t.dropWhile fun u => decide (u ∈ uts " \t")

/-- The label `copyOrAddCue` takes: the maximal run of letters, digits,
spaces and allow-listed emoji at the start of the body. -/
def cueLabel (t : Text) : Text := specLabel (cueBody t)

/-- Whether a non-empty label is immediately followed by the literal
`": "`. -/
def cueSep (t : Text) : Bool :=
  !(cueLabel t).isEmpty &&
    (uts ": ").isPrefixOf ((cueBody t).drop (cueLabel t).length)

/-- The input remaining after `copyOrAddCue`: with an existing cue, the body
after the label and its `": "`; otherwise the body after the label (which
the write re-emits). -/
def cueRest (t : Text) : Text :=
  if cueSep t then ((cueBody t).drop (cueLabel t).length).drop (uts ": ").length
  else (cueBody t).drop (cueLabel t).length

namespace BotResponse

theorem writeOrCancel_spec (accept : Nat → Bool) (t : Text) (rs : RS) :
    (writeOrCancel accept t rs).2 = ⟨rs.scan, rs.out ++ [.write t]⟩ ∧
    (writeOrCancel accept t rs).1 =
      (if accept rs.out.length then none else some .cancelled) := by
  cases hb : accept rs.out.length
  · have hc : callSink accept (Ev.write t) rs =
        (false, ⟨rs.scan, rs.out ++ [.write t]⟩) := by
      simp [callSink, hb]
    simp [writeOrCancel, hc, hb]
  · have hc : callSink accept (Ev.write t) rs =
        (true, ⟨rs.scan, rs.out ++ [.write t]⟩) := by
      simp [callSink, hb]
    simp [writeOrCancel, hc, hb]

theorem copyOrAddCue_spec (accept : Nat → Bool) (cue : Text) (rs : RS)
    (hinv : SInv rs.scan) :
    (copyOrAddCue accept cue rs).2.out =
      rs.out ++ [.write (if cueSep (absText rs.scan) then
        cueLabel (absText rs.scan) ++ uts ": "
        else cue ++ uts ": " ++ cueLabel (absText rs.scan))] ∧
    absText (copyOrAddCue accept cue rs).2.scan = cueRest (absText rs.scan) ∧
    SInv (copyOrAddCue accept cue rs).2.scan ∧
    nu (copyOrAddCue accept cue rs).2.scan ≤ nu rs.scan ∧
    (copyOrAddCue accept cue rs).1 =
      (if accept rs.out.length then none else some .cancelled) := by
  rcases Scanner.takeMatchingRun_spec (uts " \t") rs.scan hinv with ⟨t1, t2, t3, t4, t5⟩
  rcases takeLabel_spec (Scanner.takeMatchingRun (uts " \t") rs.scan).2 t4 with
    ⟨l1, l2, l3, l4⟩
  rcases htl : takeLabel (Scanner.takeMatchingRun (uts " \t") rs.scan).2 with ⟨name, s2⟩
  rw [htl] at l1 l2 l3 l4
  simp only at l1 l2 l3 l4
  rw [t2] at l1 l2
  have hbody : (absText rs.scan).dropWhile (fun u => decide (u ∈ uts " \t")) =
      cueBody (absText rs.scan) := rfl
  rw [hbody] at l1 l2
  have hscl : specLabel (cueBody (absText rs.scan)) = cueLabel (absText rs.scan) := rfl
  rw [hscl] at l1 l2
  cases name with
  | nil =>
    have hlabe : cueLabel (absText rs.scan) = [] := l1.symm
    have hsep : cueSep (absText rs.scan) = false := by
      simp [cueSep, hlabe]
    have heq : copyOrAddCue accept cue rs =
        writeOrCancel accept (cue ++ uts ": ") ⟨s2, rs.out⟩ := by
      simp only [copyOrAddCue, htl]
    rcases writeOrCancel_spec accept (cue ++ uts ": ") ⟨s2, rs.out⟩ with ⟨w1, w2⟩
    rw [heq, w1]
    refine ⟨by simp [hsep, hlabe], ?_, l3, ?_, w2⟩
    · show absText s2 = _
      rw [l2, hlabe]
      simp only [cueRest, hsep, Bool.false_eq_true, reduceIte, hlabe]
    · show nu s2 ≤ nu rs.scan
      omega
  | cons n nr =>
    rcases Scanner.skipToken_spec (uts ": ") s2 l3 with ⟨k1, k2, k3, k4, k5, k6⟩
    rcases hsk : Scanner.skipToken (uts ": ") s2 with ⟨ok, s3⟩
    rw [hsk] at k1 k2 k3 k4 k5 k6
    simp only at k1 k2 k3 k4 k5 k6
    rw [l2] at k1 k2
    cases ok
    · have hsep : cueSep (absText rs.scan) = false := by
        rw [cueSep, ← k1]
        simp
      have heq : copyOrAddCue accept cue rs =
          writeOrCancel accept (cue ++ uts ": " ++ (n :: nr)) ⟨s3, rs.out⟩ := by
        simp only [copyOrAddCue, htl, hsk]
      rcases writeOrCancel_spec accept (cue ++ uts ": " ++ (n :: nr)) ⟨s3, rs.out⟩ with
        ⟨w1, w2⟩
      rw [heq, w1]
      refine ⟨by simp [hsep, ← l1], ?_, k3, ?_, w2⟩
      · show absText s3 = _
        rw [k2, if_neg (by rw [← k1]; exact fun hc => by cases hc)]
        simp only [cueRest, hsep, Bool.false_eq_true, reduceIte]
      · show nu s3 ≤ nu rs.scan
        omega
    · have hsep : cueSep (absText rs.scan) = true := by
        rw [cueSep, ← k1]
        simp [← l1]
      have heq : copyOrAddCue accept cue rs =
          writeOrCancel accept ((n :: nr) ++ uts ": ") ⟨s3, rs.out⟩ := by
        simp only [copyOrAddCue, htl, hsk]
      rcases writeOrCancel_spec accept ((n :: nr) ++ uts ": ") ⟨s3, rs.out⟩ with ⟨w1, w2⟩
      rw [heq, w1]
      refine ⟨by simp [hsep, ← l1], ?_, k3, ?_, w2⟩
      · show absText s3 = _
        rw [k2, if_pos (k1.symm)]
        simp only [cueRest, hsep, reduceIte]
      · show nu s3 ≤ nu rs.scan
        omega

end BotResponse

/-- Claim C2: for every markdown-cell body, `copyOrAddCue` skips leading
spaces and tabs (`cueBody`), takes the label — the greedy run `specLabel`
of letters, digits, spaces and allow-listed emoji — and writes
`label ++ ": "` verbatim when the label is non-empty and immediately
followed by the literal `": "` (`cueSep`), and
`defaultCue ++ ": " ++ label` otherwise — re-emitting the tentatively
consumed label; the remaining input is `cueRest`, exactly the body minus
what the write accounts for, so no input is lost. -/
theorem c2_copy_or_add_cue (accept : Nat → Bool) (cue : Text) (rs : RS)
    (hinv : SInv rs.scan) :
    (BotResponse.copyOrAddCue accept cue rs).2.out =
      rs.out ++ [.write (if cueSep (absText rs.scan) then
        cueLabel (absText rs.scan) ++ uts ": "
        else cue ++ uts ": " ++ cueLabel (absText rs.scan))] ∧
    absText (BotResponse.copyOrAddCue accept cue rs).2.scan =
      cueRest (absText rs.scan) :=
  ⟨(BotResponse.copyOrAddCue_spec accept cue rs hinv).1,
    (BotResponse.copyOrAddCue_spec accept cue rs hinv).2.1⟩

/-- Witness for C2 on the concrete body `"Hi: there"`. -/
theorem c2_copy_or_add_cue_witness :
    SInv (⟨uts "Hi: there", [], true⟩ : ScanState) ∧
    ((BotResponse.copyOrAddCue acceptAll (uts "bot")
        ⟨⟨uts "Hi: there", [], true⟩, []⟩).2.out =
      [] ++ [.write (if cueSep (absText ⟨uts "Hi: there", [], true⟩) then
        cueLabel (absText ⟨uts "Hi: there", [], true⟩) ++ uts ": "
        else uts "bot" ++ uts ": " ++ cueLabel (absText ⟨uts "Hi: there", [], true⟩))] ∧
    absText (BotResponse.copyOrAddCue acceptAll (uts "bot")
        ⟨⟨uts "Hi: there", [], true⟩, []⟩).2.scan =
      cueRest (absText ⟨uts "Hi: there", [], true⟩)) :=
  ⟨fun _ => rfl, c2_copy_or_add_cue acceptAll (uts "bot")
    ⟨⟨uts "Hi: there", [], true⟩, []⟩ (fun _ => rfl)⟩

/-- Pure description of `skipBlankLines`: drop leading whitespace-only
lines (and a trailing all-whitespace fragment), fuelled by the length. -/
def dropBlankF : Nat → Text → Text
  | 0, t => t
  | fuel + 1, t =>
    match Scanner.blankTake t with
    | ([], t2) => t2
    | (_ :: _, t2) => dropBlankF fuel t2

def dropBlank (t : Text) : Text := dropBlankF (t.length + 1) t

theorem blankTake_fst_nil {t : Text} (h : (Scanner.blankTake t).1 = []) :
    (Scanner.blankTake t).2 = t := by
  rw [Scanner.blankTake] at h ⊢
  by_cases hall : (lineSplit t).1.all jsTrimWs = true
  · rw [if_pos hall] at h ⊢
    by_cases ht : t = []
    · rw [ht]
      rfl
    · have := lineSplit_fst_length_pos ht
      rw [h] at this
      simp at this
  · rw [if_neg hall]

theorem blankTake_snd_lt {t : Text} (h : (Scanner.blankTake t).1 ≠ []) :
    (Scanner.blankTake t).2.length < t.length := by
  rw [Scanner.blankTake] at h ⊢
  by_cases hall : (lineSplit t).1.all jsTrimWs = true
  · rw [if_pos hall] at h ⊢
    have := lineSplit_append t
    have hlen := congrArg List.length this
    simp only [List.length_append] at hlen
    have hpos : 0 < (lineSplit t).1.length := List.length_pos.mpr h
    omega
  · rw [if_neg hall] at h
    exact absurd rfl h

theorem dropBlankF_stable : ∀ (f f' : Nat) (t : Text), t.length < f → t.length < f' →
    dropBlankF f t = dropBlankF f' t := by
  intro f
  induction f with
  | zero => intro f' t h _; omega
  | succ f ih =>
    intro f' t hf hf'
    cases f' with
    | zero => omega
    | succ f' =>
      rcases hbt : Scanner.blankTake t with ⟨bv, bt⟩
      cases bv with
      | nil => simp only [dropBlankF, hbt]
      | cons b br =>
        have hlt : bt.length < t.length := by
          have := blankTake_snd_lt (t := t) (by rw [hbt]; simp)
          rw [hbt] at this
          exact this
        simp only [dropBlankF, hbt]
        exact ih f' bt (by omega) (by omega)

namespace BotResponse

theorem skipBlankLinesF_spec (fuel : Nat) : ∀ (s : ScanState), nu s < fuel → SInv s →
    absText (skipBlankLinesF fuel s) = dropBlank (absText s) ∧
    SInv (skipBlankLinesF fuel s) ∧
    (absText (skipBlankLinesF fuel s) = [] →
      (skipBlankLinesF fuel s).inputDone = true) ∧
    nu (skipBlankLinesF fuel s) ≤ nu s := by
  induction fuel with
  | zero => intro s h; omega
  | succ fuel ih =>
    intro s hfuel hinv
    rcases Scanner.takeBlankLine_spec s hinv with ⟨b1, b2, b3, b4, b5⟩
    rcases hb : Scanner.takeBlankLine s with ⟨v, s1⟩
    rw [hb] at b1 b2 b3 b4 b5
    simp only at b1 b2 b3 b4 b5
    rcases hbt : Scanner.blankTake (absText s) with ⟨bv, bt⟩
    rw [hbt] at b1 b2
    simp only at b1 b2
    cases v with
    | nil =>
      have hbv : bv = [] := b1.symm ▸ rfl
      subst hbv
      have hbtt : bt = absText s := by
        have := blankTake_fst_nil (t := absText s) (by rw [hbt])
        rw [hbt] at this
        exact this
      have heq : skipBlankLinesF (fuel + 1) s = s1 := by
        simp only [skipBlankLinesF, hb]
      rw [heq]
      have habs : absText s1 = absText s := by rw [b2, hbtt]
      have hpure : dropBlank (absText s) = absText s := by
        rw [dropBlank]
        simp only [dropBlankF, hbt, hbtt]
      refine ⟨by rw [habs, hpure], b4, ?_, b5⟩
      intro hnil
      rw [habs] at hnil
      rw [b3, hnil]
      simp [hnil]
    | cons x xr =>
      have hbv : bv = x :: xr := b1.symm ▸ rfl
      subst hbv
      have hlt : bt.length < (absText s).length := by
        have := blankTake_snd_lt (t := absText s) (by rw [hbt]; simp)
        rw [hbt] at this
        exact this
      have hlen : (x :: xr : Text).length ≥ 1 := by simp
      have heq : skipBlankLinesF (fuel + 1) s = skipBlankLinesF fuel s1 := by
        simp only [skipBlankLinesF, hb]
      rw [heq]
      have hrec := ih s1 (by omega) b4
      have hpure : dropBlank (absText s) = dropBlank (absText s1) := by
        rw [dropBlank]
        simp only [dropBlankF, hbt]
        rw [b2]
        rw [dropBlankF_stable (absText s).length (bt.length + 1) bt (by omega) (by omega)]
        rfl
      refine ⟨by rw [hrec.1, hpure], hrec.2.1, hrec.2.2.1, by omega⟩

theorem skipBlankLines_spec (s : ScanState) (hinv : SInv s) :
    absText (skipBlankLines s) = dropBlank (absText s) ∧
    SInv (skipBlankLines s) ∧
    (absText (skipBlankLines s) = [] → (skipBlankLines s).inputDone = true) ∧
    nu (skipBlankLines s) ≤ nu s :=
  skipBlankLinesF_spec (nu s + 1) s (Nat.lt_succ_self _) hinv

end BotResponse

/-- Pure value of `matchHeaderLine`-style loops: the first cell type in the
list whose header line is a prefix of the text. -/
def hdrOfGo : List CellType → Text → Option CellType
  | [], _ => none
  | c :: cs, t => if (headerOf c).isPrefixOf t then some c else hdrOfGo cs t

/-- The header line, if any, at the front of the text. -/
def hdrOf (t : Text) : Option CellType := hdrOfGo allCellTypes t

/-- Pure value of `skipCodeBlockHeader` / `startsWithCodeBlockHeader`: the
first language whose code-fence opener is a prefix of the text. -/
def cbhGo : List CellType → Text → Option CellType
  | [], _ => none
  | c :: cs, t => if (fenceOf c).isPrefixOf t then some c else cbhGo cs t

/-- The code-fence opener, if any, at the front of the text. -/
def cbhOf (t : Text) : Option CellType := cbhGo allLanguages t

theorem headerOf_length_pos (c : CellType) : 0 < (headerOf c).length := by
  cases c <;> decide

theorem fenceOf_length_pos (c : CellType) : 0 < (fenceOf c).length := by
  cases c <;> decide

namespace BotResponse

theorem matchHeaderLineGo_spec : ∀ (cs : List CellType) (s : ScanState), SInv s →
    (matchHeaderLineGo cs s).1 = hdrOfGo cs (absText s) ∧
    absText (matchHeaderLineGo cs s).2 = absText s ∧
    SInv (matchHeaderLineGo cs s).2 ∧
    nu (matchHeaderLineGo cs s).2 ≤ nu s ∧
    (s.inputDone = true → (matchHeaderLineGo cs s).2.inputDone = true) ∧
    (absText s = [] → cs ≠ [] → (matchHeaderLineGo cs s).2.inputDone = true) := by
  intro cs
  induction cs with
  | nil =>
    intro s hinv
    exact ⟨rfl, rfl, hinv, le_refl _, fun h => h, fun _ h => absurd rfl h⟩
  | cons c cs ih =>
    intro s hinv
    rcases Scanner.startsWith_spec (headerOf c) s hinv with ⟨w1, w2, w3, w4, w5, w6⟩
    rcases hw : Scanner.startsWith (headerOf c) s with ⟨ok, s1⟩
    rw [hw] at w1 w2 w3 w4 w5 w6
    simp only at w1 w2 w3 w4 w5 w6
    cases ok
    · have heq : matchHeaderLineGo (c :: cs) s = matchHeaderLineGo cs s1 := by
        simp only [matchHeaderLineGo, hw]
      rw [heq]
      have hrec := ih s1 w3
      have hpure : hdrOfGo (c :: cs) (absText s) = hdrOfGo cs (absText s) := by
        simp only [hdrOfGo, ← w1, Bool.false_eq_true, reduceIte]
      refine ⟨by rw [hrec.1, w2, hpure], by rw [hrec.2.1, w2], hrec.2.2.1,
        le_trans hrec.2.2.2.1 w4, ?_, ?_⟩
      · intro hd
        exact hrec.2.2.2.2.1 (by rw [w5, hd]; simp)
      · intro hA _
        apply hrec.2.2.2.2.1
        rw [w5, hA]
        have : Scanner.properPrefixOf ([] : Text) (headerOf c) = true := by
          rw [Scanner.properPrefixOf]
          simp [headerOf_length_pos c]
        rw [this]
        simp
    · have heq : matchHeaderLineGo (c :: cs) s = (some c, s1) := by
        simp only [matchHeaderLineGo, hw]
      rw [heq]
      have hpure : hdrOfGo (c :: cs) (absText s) = some c := by
        simp only [hdrOfGo, ← w1, reduceIte]
      refine ⟨by rw [hpure], w2, w3, w4, ?_, ?_⟩
      · intro hd
        rw [w5, hd]
        simp
      · intro hA _
        rw [w5, hA]
        have : Scanner.properPrefixOf ([] : Text) (headerOf c) = true := by
          rw [Scanner.properPrefixOf]
          simp [headerOf_length_pos c]
        rw [this]
        simp

theorem matchHeaderLine_spec (s : ScanState) (hinv : SInv s) :
    (matchHeaderLine s).1 = hdrOf (absText s) ∧
    absText (matchHeaderLine s).2 = absText s ∧
    SInv (matchHeaderLine s).2 ∧
    nu (matchHeaderLine s).2 ≤ nu s ∧
    (s.inputDone = true → (matchHeaderLine s).2.inputDone = true) ∧
    (absText s = [] → (matchHeaderLine s).2.inputDone = true) := by
  rcases matchHeaderLineGo_spec allCellTypes s hinv with ⟨h1, h2, h3, h4, h5, h6⟩
  exact ⟨h1, h2, h3, h4, h5, fun hA => h6 hA (by simp [allCellTypes])⟩

theorem skipCodeBlockHeaderGo_spec : ∀ (cs : List CellType) (s : ScanState), SInv s →
    (skipCodeBlockHeaderGo cs s).1 = (cbhGo cs (absText s)).isSome ∧
    absText (skipCodeBlockHeaderGo cs s).2 =
      (match cbhGo cs (absText s) with
        | some c => (absText s).drop (fenceOf c).length
        | none => absText s) ∧
    SInv (skipCodeBlockHeaderGo cs s).2 ∧
    nu (skipCodeBlockHeaderGo cs s).2 ≤ nu s ∧
    (∀ c, cbhGo cs (absText s) = some c →
      nu (skipCodeBlockHeaderGo cs s).2 + 2 * (fenceOf c).length ≤ nu s) := by
  intro cs
  induction cs with
  | nil =>
    intro s hinv
    exact ⟨rfl, rfl, hinv, le_refl _, fun c hc => by cases hc⟩
  | cons c cs ih =>
    intro s hinv
    rcases Scanner.skipToken_spec (fenceOf c) s hinv with ⟨k1, k2, k3, k4, k5, k6⟩
    rcases hk : Scanner.skipToken (fenceOf c) s with ⟨ok, s1⟩
    rw [hk] at k1 k2 k3 k4 k5 k6
    simp only at k1 k2 k3 k4 k5 k6
    cases ok
    · have heq : skipCodeBlockHeaderGo (c :: cs) s = skipCodeBlockHeaderGo cs s1 := by
        simp only [skipCodeBlockHeaderGo, hk]
      rw [heq]
      have habs : absText s1 = absText s := by
        rw [k2, if_neg (by rw [← k1]; exact fun hc => by cases hc)]
      have hrec := ih s1 k3
      rw [habs] at hrec
      have hpure : cbhGo (c :: cs) (absText s) = cbhGo cs (absText s) := by
        simp only [cbhGo, ← k1, Bool.false_eq_true, reduceIte]
      refine ⟨by rw [hrec.1, hpure], by rw [hrec.2.1, hpure], hrec.2.2.1,
        le_trans hrec.2.2.2.1 k4, ?_⟩
      intro c' hc'
      rw [hpure] at hc'
      exact le_trans (hrec.2.2.2.2 c' hc') k4
    · have heq : skipCodeBlockHeaderGo (c :: cs) s = (true, s1) := by
        simp only [skipCodeBlockHeaderGo, hk]
      rw [heq]
      have hpure : cbhGo (c :: cs) (absText s) = some c := by
        simp only [cbhGo, ← k1, reduceIte]
      have habs : absText s1 = (absText s).drop (fenceOf c).length := by
        rw [k2, if_pos k1.symm]
      refine ⟨by rw [hpure]; rfl, by rw [hpure, habs], k3, k4, ?_⟩
      intro c' hc'
      rw [hpure] at hc'
      have : c' = c := by cases hc'; rfl
      subst this
      exact k5 rfl

theorem skipCodeBlockHeader_spec (s : ScanState) (hinv : SInv s) :
    (skipCodeBlockHeader s).1 = (cbhOf (absText s)).isSome ∧
    absText (skipCodeBlockHeader s).2 =
      (match cbhOf (absText s) with
        | some c => (absText s).drop (fenceOf c).length
        | none => absText s) ∧
    SInv (skipCodeBlockHeader s).2 ∧
    nu (skipCodeBlockHeader s).2 ≤ nu s ∧
    (∀ c, cbhOf (absText s) = some c →
      nu (skipCodeBlockHeader s).2 + 2 * (fenceOf c).length ≤ nu s) :=
  skipCodeBlockHeaderGo_spec allLanguages s hinv

theorem startsWithCodeBlockHeaderGo_spec : ∀ (cs : List CellType) (s : ScanState),
    SInv s →
    (startsWithCodeBlockHeaderGo cs s).1 = (cbhGo cs (absText s)).isSome ∧
    absText (startsWithCodeBlockHeaderGo cs s).2 = absText s ∧
    SInv (startsWithCodeBlockHeaderGo cs s).2 ∧
    nu (startsWithCodeBlockHeaderGo cs s).2 ≤ nu s := by
  intro cs
  induction cs with
  | nil =>
    intro s hinv
    exact ⟨rfl, rfl, hinv, le_refl _⟩
  | cons c cs ih =>
    intro s hinv
    rcases Scanner.startsWith_spec (fenceOf c) s hinv with ⟨w1, w2, w3, w4, w5, w6⟩
    rcases hw : Scanner.startsWith (fenceOf c) s with ⟨ok, s1⟩
    rw [hw] at w1 w2 w3 w4 w5 w6
    simp only at w1 w2 w3 w4 w5 w6
    cases ok
    · have heq : startsWithCodeBlockHeaderGo (c :: cs) s =
          startsWithCodeBlockHeaderGo cs s1 := by
        simp only [startsWithCodeBlockHeaderGo, hw]
      rw [heq]
      have hrec := ih s1 w3
      rw [w2] at hrec
      have hpure : cbhGo (c :: cs) (absText s) = cbhGo cs (absText s) := by
        simp only [cbhGo, ← w1, Bool.false_eq_true, reduceIte]
      exact ⟨by rw [hrec.1, hpure], hrec.2.1, hrec.2.2.1, le_trans hrec.2.2.2 w4⟩
    · have heq : startsWithCodeBlockHeaderGo (c :: cs) s = (true, s1) := by
        simp only [startsWithCodeBlockHeaderGo, hw]
      rw [heq]
      have hpure : cbhGo (c :: cs) (absText s) = some c := by
        simp only [cbhGo, ← w1, reduceIte]
      exact ⟨by rw [hpure]; rfl, w2, w3, w4⟩

theorem startsWithCodeBlockHeader_spec (s : ScanState) (hinv : SInv s) :
    (startsWithCodeBlockHeader s).1 = (cbhOf (absText s)).isSome ∧
    absText (startsWithCodeBlockHeader s).2 = absText s ∧
    SInv (startsWithCodeBlockHeader s).2 ∧
    nu (startsWithCodeBlockHeader s).2 ≤ nu s :=
  startsWithCodeBlockHeaderGo_spec allLanguages s hinv

end BotResponse

/-- Trace discipline of a parse fragment: if any write in the emitted calls
`d` was refused by the sink, that write is the final call and the fragment
halted with CANCELLED. -/
def refusalLast (accept : Nat → Bool) (base : Nat) (d : List Ev) (h : Option Halt) :
    Prop :=
  ∀ i (hi : i < d.length), (d[i]).isWrite = true → accept (base + i) = false →
    i + 1 = d.length ∧ h = some .cancelled

theorem refusalLast_nil (accept : Nat → Bool) (base : Nat) (h : Option Halt) :
    refusalLast accept base [] h := by
  intro i hi
  simp at hi

theorem refusalLast_of_none {accept base d} (h1 : refusalLast accept base d none)
    (h : Option Halt) : refusalLast accept base d h := by
  intro i hi hw hf
  have := (h1 i hi hw hf).2
  cases this

theorem refusalLast_append {accept base d1 d2 h}
    (h1 : refusalLast accept base d1 none)
    (h2 : refusalLast accept (base + d1.length) d2 h) :
    refusalLast accept base (d1 ++ d2) h := by
  intro i hi hw hf
  by_cases hlt : i < d1.length
  · rw [List.getElem_append_left hlt] at hw
    have := (h1 i hlt hw hf).2
    cases this
  · have hge : d1.length ≤ i := by omega
    have hi2 : i - d1.length < d2.length := by
      simp only [List.length_append] at hi
      omega
    rw [List.getElem_append_right hge] at hw
    have hf2 : accept (base + d1.length + (i - d1.length)) = false := by
      have : base + d1.length + (i - d1.length) = base + i := by omega
      rw [this]
      exact hf
    have := h2 (i - d1.length) hi2 hw hf2
    refine ⟨?_, this.2⟩
    simp only [List.length_append]
    omega

theorem refusalLast_append_exp (accept : Nat → Bool) (base : Nat) (d1 d2 : List Ev)
    (h : Option Halt) (h1 : refusalLast accept base d1 none)
    (h2 : refusalLast accept (base + d1.length) d2 h) :
    refusalLast accept base (d1 ++ d2) h :=
  refusalLast_append h1 h2

theorem refusalLast_nonwrite (accept : Nat → Bool) (base : Nat) (e : Ev)
    (h : Option Halt) (he : e.isWrite = false) : refusalLast accept base [e] h := by
  intro i hi hw
  have : i = 0 := by simp at hi; omega
  subst this
  rw [show ([e])[0] = e from rfl] at hw
  rw [he] at hw
  cases hw

theorem refusalLast_single_write (accept : Nat → Bool) (base : Nat) (t : Text)
    (h : Option Halt) (hh : h = if accept base then none else some .cancelled) :
    refusalLast accept base [.write t] h := by
  intro i hi hw hf
  have : i = 0 := by simp at hi; omega
  subst this
  rw [Nat.add_zero] at hf
  rw [hf] at hh
  exact ⟨rfl, by rw [hh]; simp⟩

namespace Scanner

theorem copyLineToF_trace (fuel : Nat) : ∀ (accept : Nat → Bool) (rs : RS),
    nu rs.scan < fuel → SInv rs.scan →
    ∃ d, (copyLineToF fuel accept rs).2.out = rs.out ++ d ∧
      refusalLast accept rs.out.length d
        (if (copyLineToF fuel accept rs).1 then none else some .cancelled) ∧
      SInv (copyLineToF fuel accept rs).2.scan ∧
      nu (copyLineToF fuel accept rs).2.scan ≤ nu rs.scan := by
  induction fuel with
  | zero => intro accept rs h; omega
  | succ fuel ih =>
    intro accept rs hfuel hinv
    by_cases hA : absText rs.scan = []
    · rcases takeChunkWithinLine_spec_empty hinv hA with ⟨k1, k2, k3, k4, k5⟩
      have heq : copyLineToF (fuel + 1) accept rs =
          (true, ⟨(takeChunkWithinLine rs.scan).2, rs.out⟩) := by
        simp only [copyLineToF, k1, reduceIte]
      rw [heq]
      exact ⟨[], by simp, by simp only [reduceIte]; exact refusalLast_nil _ _ _, k4, k5⟩
    · rcases takeChunkWithinLine_spec_ne hinv hA with ⟨k1, k2, k3, k4, k5, k6, k7⟩
      have hclen : 1 ≤ (takeChunkWithinLine rs.scan).1.length := List.length_pos.mpr k1
      have hnu1 : nu (takeChunkWithinLine rs.scan).2 ≤ nu rs.scan := by omega
      cases hacc : accept rs.out.length
      · have hcs : (callSink accept (.write (takeChunkWithinLine rs.scan).1)
            ⟨(takeChunkWithinLine rs.scan).2, rs.out⟩).1 = false := hacc
        have heq : copyLineToF (fuel + 1) accept rs =
            (false, ⟨(takeChunkWithinLine rs.scan).2,
              rs.out ++ [.write (takeChunkWithinLine rs.scan).1]⟩) := by
          simp only [copyLineToF, k1, reduceIte, hcs]
          rfl
        rw [heq]
        refine ⟨[.write (takeChunkWithinLine rs.scan).1], rfl, ?_, k5, hnu1⟩
        simp only [Bool.false_eq_true, reduceIte]
        exact refusalLast_single_write accept rs.out.length _ _ (by rw [hacc]; simp)
      · have hcs : (callSink accept (.write (takeChunkWithinLine rs.scan).1)
            ⟨(takeChunkWithinLine rs.scan).2, rs.out⟩).1 = true := hacc
        by_cases hend : endsWithNl (takeChunkWithinLine rs.scan).1
        · have heq : copyLineToF (fuel + 1) accept rs =
              (true, ⟨(takeChunkWithinLine rs.scan).2,
                rs.out ++ [.write (takeChunkWithinLine rs.scan).1]⟩) := by
            simp only [copyLineToF, k1, reduceIte, hcs, Bool.true_eq_false, hend]
            rfl
          rw [heq]
          refine ⟨[.write (takeChunkWithinLine rs.scan).1], rfl, ?_, k5, hnu1⟩
          simp only [reduceIte]
          exact refusalLast_of_none
            (refusalLast_single_write accept rs.out.length _ _ (by rw [hacc]; simp)) _
        · have heq : copyLineToF (fuel + 1) accept rs =
              copyLineToF fuel accept ⟨(takeChunkWithinLine rs.scan).2,
                rs.out ++ [.write (takeChunkWithinLine rs.scan).1]⟩ := by
            simp only [copyLineToF, k1, reduceIte, hcs, Bool.true_eq_false,
              Bool.false_eq_true, hend]
            rfl
          rw [heq]
          rcases ih accept ⟨(takeChunkWithinLine rs.scan).2,
              rs.out ++ [.write (takeChunkWithinLine rs.scan).1]⟩ (by
            show nu (takeChunkWithinLine rs.scan).2 < fuel
            omega) k5 with ⟨d2, hd2, hr2, hs2, hn2⟩
          refine ⟨.write (takeChunkWithinLine rs.scan).1 :: d2, by rw [hd2]; simp,
            ?_, hs2, le_trans hn2 hnu1⟩
          have hfirst : refusalLast accept rs.out.length
              [.write (takeChunkWithinLine rs.scan).1] none :=
            refusalLast_single_write accept rs.out.length _ _ (by rw [hacc]; simp)
          have := refusalLast_append_exp _ _ _ d2 _ hfirst (by
            simpa using hr2)
          simpa using this
  
theorem copyLineTo_trace (accept : Nat → Bool) (rs : RS) (hinv : SInv rs.scan) :
    ∃ d, (copyLineTo accept rs).2.out = rs.out ++ d ∧
      refusalLast accept rs.out.length d
        (if (copyLineTo accept rs).1 then none else some .cancelled) ∧
      SInv (copyLineTo accept rs).2.scan ∧
      nu (copyLineTo accept rs).2.scan ≤ nu rs.scan :=
  copyLineToF_trace (nu rs.scan + 1) accept rs (Nat.lt_succ_self _) hinv

end Scanner

theorem nu_zero {s : ScanState} (hA : absText s = []) (hd : s.inputDone = true)
    (hinv : SInv s) : nu s = 0 := by
  have hcs : s.chunks = [] := hinv hd
  simp [nu, hA, hd, hcs]

theorem nu_pos_of_not_done {s : ScanState} (hd : s.inputDone = false) : 1 ≤ nu s := by
  simp [nu, hd]

theorem atEnd_false_done {s : ScanState} (hA : absText s = [])
    (h : s.atEnd = false) : s.inputDone = false := by
  have hbuf : s.buffer = [] := by
    have := Scanner.buffer_prefixOf_absText s
    rw [hA] at this
    exact List.prefix_nil.mp this
  rcases hd : s.inputDone
  · rfl
  · rw [ScanState.atEnd, hbuf, hd] at h
    simp at h

theorem atEnd_true_of {s : ScanState} (hA : absText s = []) (hd : s.inputDone = true) :
    s.atEnd = true := by
  have hbuf : s.buffer = [] := by
    have := Scanner.buffer_prefixOf_absText s
    rw [hA] at this
    exact List.prefix_nil.mp this
  simp [ScanState.atEnd, hbuf, hd]

theorem hdrOfGo_some_prefix : ∀ (cs : List CellType) (t : Text) (c : CellType),
    hdrOfGo cs t = some c → (headerOf c).isPrefixOf t = true := by
  intro cs
  induction cs with
  | nil => intro t c h; cases h
  | cons c0 cs ih =>
    intro t c h
    by_cases hp : (headerOf c0).isPrefixOf t = true
    · rw [hdrOfGo, if_pos hp] at h
      cases h
      exact hp
    · rw [hdrOfGo, if_neg hp] at h
      exact ih t c h

namespace Scanner

theorem copyLineToF_ok_nu (fuel : Nat) : ∀ (accept : Nat → Bool) (rs : RS),
    nu rs.scan < fuel → SInv rs.scan →
    (copyLineToF fuel accept rs).1 = true → absText rs.scan ≠ [] →
    nu (copyLineToF fuel accept rs).2.scan < nu rs.scan := by
  cases fuel with
  | zero => intro accept rs h; omega
  | succ fuel =>
    intro accept rs hfuel hinv hok hA
    rcases takeChunkWithinLine_spec_ne hinv hA with ⟨k1, k2, k3, k4, k5, k6, k7⟩
    have hclen : 1 ≤ (takeChunkWithinLine rs.scan).1.length := List.length_pos.mpr k1
    cases hacc : accept rs.out.length
    · have hcs : (callSink accept (.write (takeChunkWithinLine rs.scan).1)
          ⟨(takeChunkWithinLine rs.scan).2, rs.out⟩).1 = false := hacc
      have heq : (copyLineToF (fuel + 1) accept rs).1 = false := by
        simp only [copyLineToF, k1, reduceIte, hcs]
      rw [heq] at hok
      cases hok
    · have hcs : (callSink accept (.write (takeChunkWithinLine rs.scan).1)
          ⟨(takeChunkWithinLine rs.scan).2, rs.out⟩).1 = true := hacc
      by_cases hend : endsWithNl (takeChunkWithinLine rs.scan).1
      · have heq : copyLineToF (fuel + 1) accept rs =
            (true, ⟨(takeChunkWithinLine rs.scan).2,
              rs.out ++ [.write (takeChunkWithinLine rs.scan).1]⟩) := by
          simp only [copyLineToF, k1, reduceIte, hcs, Bool.true_eq_false, hend]
          rfl
        rw [heq]
        show nu (takeChunkWithinLine rs.scan).2 < nu rs.scan
        omega
      · have heq : copyLineToF (fuel + 1) accept rs =
            copyLineToF fuel accept ⟨(takeChunkWithinLine rs.scan).2,
              rs.out ++ [.write (takeChunkWithinLine rs.scan).1]⟩ := by
          simp only [copyLineToF, k1, reduceIte, hcs, Bool.true_eq_false,
            Bool.false_eq_true, hend]
          rfl
        rw [heq]
        rcases copyLineToF_trace fuel accept ⟨(takeChunkWithinLine rs.scan).2,
            rs.out ++ [.write (takeChunkWithinLine rs.scan).1]⟩ (by
          show nu (takeChunkWithinLine rs.scan).2 < fuel
          omega) k5 with ⟨d, _, _, _, hn⟩
        have : nu (takeChunkWithinLine rs.scan).2 < nu rs.scan := by omega
        exact lt_of_le_of_lt hn this

theorem copyLineTo_ok_nu (accept : Nat → Bool) (rs : RS) (hinv : SInv rs.scan)
    (hok : (copyLineTo accept rs).1 = true) (hA : absText rs.scan ≠ []) :
    nu (copyLineTo accept rs).2.scan < nu rs.scan :=
  copyLineToF_ok_nu (nu rs.scan + 1) accept rs (Nat.lt_succ_self _) hinv hok hA

end Scanner

namespace BotResponse

set_option maxHeartbeats 1600000 in
theorem copyCodeBlockLoopF_gspec (fuel : Nat) : ∀ (accept : Nat → Bool) (rs : RS),
    nu rs.scan < fuel → SInv rs.scan →
    ∃ d, (copyCodeBlockLoopF fuel accept rs).2.out = rs.out ++ d ∧
      refusalLast accept rs.out.length d
        (if (copyCodeBlockLoopF fuel accept rs).1 = .cancel then some .cancelled
          else none) ∧
      SInv (copyCodeBlockLoopF fuel accept rs).2.scan ∧
      nu (copyCodeBlockLoopF fuel accept rs).2.scan ≤ nu rs.scan := by
  induction fuel with
  | zero => intro accept rs h; omega
  | succ fuel ih =>
    intro accept rs hfuel hinv
    rcases hae : rs.scan.atEnd
    case true =>
      have heq : copyCodeBlockLoopF (fuel + 1) accept rs = (.ret, rs) := by
        simp only [copyCodeBlockLoopF, hae, reduceIte]
      rw [heq]
      exact ⟨[], by simp, refusalLast_nil _ _ _, hinv, le_refl _⟩
    case false =>
    rcases Scanner.startsWith_spec (uts "```") rs.scan hinv with ⟨w1, w2, w3, w4, w5, w6⟩
    rcases hw : Scanner.startsWith (uts "```") rs.scan with ⟨ok, s1⟩
    rw [hw] at w1 w2 w3 w4 w5 w6
    simp only at w1 w2 w3 w4 w5 w6
    cases ok
    case true =>
      have hAne : absText rs.scan ≠ [] := by
        intro hA
        have hlen := (List.isPrefixOf_iff_prefix.mp w1.symm).length_le
        rw [hA] at hlen
        have h3 : (uts "```").length = 3 := rfl
        simp [h3] at hlen
      rcases Scanner.takeLine_spec s1 w3 with ⟨t1, t2, t3, t4, t5⟩
      rcases htl : Scanner.takeLine s1 with ⟨line, s2⟩
      rw [htl] at t1 t2 t3 t4 t5
      simp only at t1 t2 t3 t4 t5
      have hlpos : 1 ≤ line.length := by
        rw [t1, w2]
        exact lineSplit_fst_length_pos hAne
      have hnu2 : nu s2 < nu s1 := by omega
      cases hfc : isFenceClose line
      case true =>
        have heq : copyCodeBlockLoopF (fuel + 1) accept rs = (.brk, ⟨s2, rs.out⟩) := by
          simp only [copyCodeBlockLoopF, hae, Bool.false_eq_true, reduceIte, hw, htl,
            hfc, reduceIte]
        rw [heq]
        exact ⟨[], by simp, refusalLast_nil _ _ _, t4, by
          show nu s2 ≤ nu rs.scan
          omega⟩
      case false =>
        rcases writeOrCancel_spec accept line ⟨s2, rs.out⟩ with ⟨wr1, wr2⟩
        cases hacc : accept rs.out.length
        case false =>
          have hwc : writeOrCancel accept line ⟨s2, rs.out⟩ =
              (some .cancelled, ⟨s2, rs.out ++ [.write line]⟩) := by
            rcases hp : writeOrCancel accept line ⟨s2, rs.out⟩ with ⟨a, b⟩
            rw [hp] at wr1 wr2
            simp only at wr1 wr2
            rw [wr1, wr2, hacc]
            simp
          have heq : copyCodeBlockLoopF (fuel + 1) accept rs =
              (.cancel, ⟨s2, rs.out ++ [.write line]⟩) := by
            simp only [copyCodeBlockLoopF, hae, Bool.false_eq_true, reduceIte, hw, htl,
              hfc, hwc]
          rw [heq]
          refine ⟨[.write line], rfl, ?_, t4, by
            show nu s2 ≤ nu rs.scan
            omega⟩
          simp only [reduceIte]
          exact refusalLast_single_write accept rs.out.length _ _ (by rw [hacc]; simp)
        case true =>
          have hwc : writeOrCancel accept line ⟨s2, rs.out⟩ =
              (none, ⟨s2, rs.out ++ [.write line]⟩) := by
            rcases hp : writeOrCancel accept line ⟨s2, rs.out⟩ with ⟨a, b⟩
            rw [hp] at wr1 wr2
            simp only at wr1 wr2
            rw [wr1, wr2, hacc]
            simp
          have heq : copyCodeBlockLoopF (fuel + 1) accept rs =
              copyCodeBlockLoopF fuel accept ⟨s2, rs.out ++ [.write line]⟩ := by
            simp only [copyCodeBlockLoopF, hae, Bool.false_eq_true, reduceIte, hw, htl,
              hfc, hwc]
          rw [heq]
          rcases ih accept ⟨s2, rs.out ++ [.write line]⟩ (by
            show nu s2 < fuel
            omega) t4 with ⟨d2, hd2, hr2, hs2, hn2⟩
          dsimp only at hd2 hr2 hn2
          refine ⟨.write line :: d2, by rw [hd2]; simp, ?_, hs2, by
            show nu (copyCodeBlockLoopF fuel accept ⟨s2, rs.out ++ [.write line]⟩).2.scan
              ≤ nu rs.scan
            omega⟩
          have hfirst : refusalLast accept rs.out.length [.write line] none :=
            refusalLast_single_write accept rs.out.length _ _ (by rw [hacc]; simp)
          have := refusalLast_append_exp _ _ _ d2 _ hfirst (by simpa using hr2)
          simpa using this
    case false =>
      rcases Scanner.copyLineTo_trace accept ⟨s1, rs.out⟩ w3 with ⟨d1, hd1, hr1, hs1, hn1⟩
      rcases hcl : Scanner.copyLineTo accept ⟨s1, rs.out⟩ with ⟨ok2, rs1⟩
      rw [hcl] at hd1 hr1 hs1 hn1
      simp only at hd1 hr1 hs1 hn1
      cases ok2
      case false =>
        have heq : copyCodeBlockLoopF (fuel + 1) accept rs = (.cancel, rs1) := by
          simp only [copyCodeBlockLoopF, hae, Bool.false_eq_true, reduceIte, hw, hcl]
        rw [heq]
        refine ⟨d1, hd1, ?_, hs1, le_trans hn1 w4⟩
        simp only [reduceIte]
        simpa using hr1
      case true =>
        have heq : copyCodeBlockLoopF (fuel + 1) accept rs =
            copyCodeBlockLoopF fuel accept rs1 := by
          simp only [copyCodeBlockLoopF, hae, Bool.false_eq_true, reduceIte, hw, hcl]
        rw [heq]
        have hfuel1 : nu rs1.scan < fuel := by
          by_cases hA : absText rs.scan = []
          · have hdone : rs.scan.inputDone = false := atEnd_false_done hA hae
            have hd1t : s1.inputDone = true := by
              rw [w5, hdone, hA]
              have : Scanner.properPrefixOf ([] : Text) (uts "```") = true := by decide
              rw [this]
              rfl
            have hnu0 : nu s1 = 0 := nu_zero (by rw [w2]; exact hA) hd1t w3
            have hge : 1 ≤ nu rs.scan := nu_pos_of_not_done hdone
            omega
          · have hlt : nu (Scanner.copyLineTo accept ⟨s1, rs.out⟩).2.scan <
                nu (⟨s1, rs.out⟩ : RS).scan :=
              Scanner.copyLineTo_ok_nu accept ⟨s1, rs.out⟩ w3 (by rw [hcl]) (by
                show absText s1 ≠ []
                rw [w2]
                exact hA)
            rw [hcl] at hlt
            dsimp only at hlt
            omega
        rcases ih accept rs1 hfuel1 hs1 with ⟨d2, hd2, hr2, hs2, hn2⟩
        refine ⟨d1 ++ d2, by rw [hd2, hd1]; simp, ?_, hs2, by omega⟩
        have hr1n : refusalLast accept rs.out.length d1 none := by
          simpa using hr1
        have hbase : rs1.out.length = rs.out.length + d1.length := by
          rw [hd1]
          simp
        refine refusalLast_append hr1n ?_
        rw [← hbase]
        exact hr2

end BotResponse

namespace BotResponse

set_option maxHeartbeats 1600000 in
theorem copyCodeBlockTail_gspec (accept : Nat → Bool) (cue : Text) (rs : RS)
    (hinv : SInv rs.scan) :
    ∃ d, (copyCodeBlockTail accept cue rs).2.out = rs.out ++ d ∧
      refusalLast accept rs.out.length d (copyCodeBlockTail accept cue rs).1 ∧
      ((copyCodeBlockTail accept cue rs).1 = none ∨
        (copyCodeBlockTail accept cue rs).1 = some .cancelled) ∧
      SInv (copyCodeBlockTail accept cue rs).2.scan ∧
      nu (copyCodeBlockTail accept cue rs).2.scan ≤ nu rs.scan := by
  rcases skipBlankLines_spec rs.scan hinv with ⟨sb1, sb2, sb3, sb4⟩
  rcases hae : (skipBlankLines rs.scan).atEnd
  case true =>
    have heq : copyCodeBlockTail accept cue rs =
        (none, ⟨skipBlankLines rs.scan, rs.out⟩) := by
      simp only [copyCodeBlockTail, hae, reduceIte]
    rw [heq]
    exact ⟨[], by simp, refusalLast_nil _ _ _, .inl rfl, sb2, sb4⟩
  case false =>
    rcases matchHeaderLine_spec (skipBlankLines rs.scan) sb2 with ⟨m1, m2, m3, m4, m5, m6⟩
    rcases hm : matchHeaderLine (skipBlankLines rs.scan) with ⟨hd, s2⟩
    rw [hm] at m1 m2 m3 m4 m5 m6
    simp only at m1 m2 m3 m4 m5 m6
    cases hd
    case some c =>
      have heq : copyCodeBlockTail accept cue rs = (none, ⟨s2, rs.out⟩) := by
        simp only [copyCodeBlockTail, hae, Bool.false_eq_true, reduceIte, hm]
      rw [heq]
      exact ⟨[], by simp, refusalLast_nil _ _ _, .inl rfl, m3, by
        show nu s2 ≤ nu rs.scan
        omega⟩
    case none =>
      rcases startsWithCodeBlockHeader_spec s2 m3 with ⟨p1, p2, p3, p4⟩
      rcases hp : startsWithCodeBlockHeader s2 with ⟨b, s3⟩
      rw [hp] at p1 p2 p3 p4
      simp only at p1 p2 p3 p4
      cases b
      case true =>
        have heq : copyCodeBlockTail accept cue rs = (none, ⟨s3, rs.out⟩) := by
          simp only [copyCodeBlockTail, hae, Bool.false_eq_true, reduceIte, hm, hp]
        rw [heq]
        exact ⟨[], by simp, refusalLast_nil _ _ _, .inl rfl, p3, by
          show nu s3 ≤ nu rs.scan
          omega⟩
      case false =>
        have hcs : (callSink accept .startMarkdown ⟨s3, rs.out⟩).2 =
            ⟨s3, rs.out ++ [.startMarkdown]⟩ := rfl
        rcases copyOrAddCue_spec accept cue ⟨s3, rs.out ++ [.startMarkdown]⟩ p3 with
          ⟨q1, q2, q3, q4, q5⟩
        rcases hco : copyOrAddCue accept cue ⟨s3, rs.out ++ [.startMarkdown]⟩ with
          ⟨h9, rs9⟩
        rw [hco] at q1 q2 q3 q4 q5
        dsimp only at q1 q2 q3 q4 q5
        have heq : copyCodeBlockTail accept cue rs = (h9, rs9) := by
          rw [copyCodeBlockTail]
          simp only [hae, Bool.false_eq_true, reduceIte, hm, hp, hcs, hco]
        rw [heq]
        refine ⟨.startMarkdown ::
          [.write (if cueSep (absText s3) then cueLabel (absText s3) ++ uts ": "
            else cue ++ uts ": " ++ cueLabel (absText s3))], by rw [q1]; simp, ?_,
          ?_, q3, by
            show nu rs9.scan ≤ nu rs.scan
            omega⟩
        · have hfirst : refusalLast accept rs.out.length [.startMarkdown] none :=
            refusalLast_nonwrite _ _ _ _ rfl
          have hsecond : refusalLast accept (rs.out.length + 1)
              [.write (if cueSep (absText s3) then cueLabel (absText s3) ++ uts ": "
                else cue ++ uts ": " ++ cueLabel (absText s3))] h9 := by
            apply refusalLast_single_write
            rw [q5]
            simp
          have := refusalLast_append_exp _ _ [.startMarkdown] _ _ hfirst (by
            simpa using hsecond)
          simpa using this
        · rw [q5]
          cases accept (rs.out.length + 1)
          · simp
          · simp
  
set_option maxHeartbeats 1600000 in
theorem copyCodeBlock_gspec (accept : Nat → Bool) (cue : Text) (rs : RS)
    (hinv : SInv rs.scan) :
    ∃ d, (copyCodeBlock accept cue rs).2.out = rs.out ++ d ∧
      refusalLast accept rs.out.length d (copyCodeBlock accept cue rs).1 ∧
      ((copyCodeBlock accept cue rs).1 = none ∨
        (copyCodeBlock accept cue rs).1 = some .cancelled) ∧
      SInv (copyCodeBlock accept cue rs).2.scan ∧
      nu (copyCodeBlock accept cue rs).2.scan ≤ nu rs.scan := by
  have hcs : (callSink accept .startCode rs).2 = ⟨rs.scan, rs.out ++ [.startCode]⟩ := rfl
  rcases copyCodeBlockLoopF_gspec (nu rs.scan + 1) accept
      ⟨rs.scan, rs.out ++ [.startCode]⟩ (Nat.lt_succ_self _) hinv with
    ⟨d1, hd1, hr1, hs1, hn1⟩
  dsimp only at hd1 hr1 hs1 hn1
  rcases hl : copyCodeBlockLoopF (nu rs.scan + 1) accept
      ⟨rs.scan, rs.out ++ [.startCode]⟩ with ⟨ex, rs1⟩
  rw [hl] at hd1 hr1 hs1 hn1
  simp only at hd1 hr1 hs1 hn1
  have hfirst : refusalLast accept rs.out.length [.startCode] none :=
    refusalLast_nonwrite _ _ _ _ rfl
  cases ex
  case cancel =>
    have heq : copyCodeBlock accept cue rs = (some .cancelled, rs1) := by
      simp only [copyCodeBlock, hcs, hl]
    rw [heq]
    refine ⟨.startCode :: d1, by rw [hd1]; simp, ?_, .inr rfl, hs1, hn1⟩
    have := refusalLast_append_exp _ _ [.startCode] _ _ hfirst (by
      simp only [List.length_append, List.length_cons, List.length_nil] at hr1 ⊢
      simpa using hr1)
    simpa using this
  case ret =>
    have heq : copyCodeBlock accept cue rs = (none, rs1) := by
      simp only [copyCodeBlock, hcs, hl]
    rw [heq]
    refine ⟨.startCode :: d1, by rw [hd1]; simp, ?_, .inl rfl, hs1, hn1⟩
    have := refusalLast_append_exp _ _ [.startCode] _ _ hfirst (by
      simp only [List.length_append, List.length_cons, List.length_nil] at hr1 ⊢
      simpa using hr1)
    simpa using this
  case brk =>
    have heq : copyCodeBlock accept cue rs = copyCodeBlockTail accept cue rs1 := by
      simp only [copyCodeBlock, hcs, hl]
    rw [heq]
    rcases copyCodeBlockTail_gspec accept cue rs1 hs1 with ⟨d2, hd2, hr2, hh2, hs2, hn2⟩
    refine ⟨.startCode :: (d1 ++ d2), by rw [hd2, hd1]; simp, ?_, hh2, hs2, by omega⟩
    have hr1n : refusalLast accept (rs.out.length + 1) d1 none := by
      simp only [List.length_append, List.length_cons, List.length_nil] at hr1
      simpa using hr1
    have hbase : rs1.out.length = rs.out.length + 1 + d1.length := by
      rw [hd1]
      simp
      omega
    have hr2' : refusalLast accept (rs.out.length + 1 + d1.length) d2
        (copyCodeBlockTail accept cue rs1).1 := by
      rw [← hbase]
      exact hr2
    have hmid := refusalLast_append hr1n hr2'
    have := refusalLast_append_exp _ _ [.startCode] _ _ hfirst (by simpa using hmid)
    simpa using this

end BotResponse

namespace BotResponse

set_option maxHeartbeats 1600000 in
theorem copyMarkdownLoopF_gspec (fuel : Nat) : ∀ (accept : Nat → Bool) (cue : Text)
    (rs : RS), nu rs.scan < fuel → SInv rs.scan →
    ∃ d, (copyMarkdownLoopF fuel accept cue rs).2.out = rs.out ++ d ∧
      refusalLast accept rs.out.length d (copyMarkdownLoopF fuel accept cue rs).1 ∧
      ((copyMarkdownLoopF fuel accept cue rs).1 = none ∨
        (copyMarkdownLoopF fuel accept cue rs).1 = some .cancelled) ∧
      SInv (copyMarkdownLoopF fuel accept cue rs).2.scan ∧
      nu (copyMarkdownLoopF fuel accept cue rs).2.scan ≤ nu rs.scan ∧
      ((copyMarkdownLoopF fuel accept cue rs).1 = none →
        ((copyMarkdownLoopF fuel accept cue rs).2.scan.atEnd = true ∨
          (hdrOf (absText (copyMarkdownLoopF fuel accept cue rs).2.scan)).isSome
            = true)) := by
  induction fuel with
  | zero => intro accept cue rs h; omega
  | succ fuel ih =>
    intro accept cue rs hfuel hinv
    rcases hae : rs.scan.atEnd
    case true =>
      have heq : copyMarkdownLoopF (fuel + 1) accept cue rs = (none, rs) := by
        simp only [copyMarkdownLoopF, hae, reduceIte]
      rw [heq]
      exact ⟨[], by simp, refusalLast_nil _ _ _, .inl rfl, hinv, le_refl _,
        fun _ => .inl hae⟩
    case false =>
    rcases matchHeaderLine_spec rs.scan hinv with ⟨m1, m2, m3, m4, m5, m6⟩
    rcases hm : matchHeaderLine rs.scan with ⟨hd, s1⟩
    rw [hm] at m1 m2 m3 m4 m5 m6
    simp only at m1 m2 m3 m4 m5 m6
    cases hd
    case some c =>
      have heq : copyMarkdownLoopF (fuel + 1) accept cue rs = (none, ⟨s1, rs.out⟩) := by
        simp only [copyMarkdownLoopF, hae, Bool.false_eq_true, reduceIte, hm]
      rw [heq]
      refine ⟨[], by simp, refusalLast_nil _ _ _, .inl rfl, m3, by
        show nu s1 ≤ nu rs.scan
        omega, fun _ => .inr ?_⟩
      show (hdrOf (absText s1)).isSome = true
      rw [m2, ← m1]
      rfl
    case none =>
      rcases skipCodeBlockHeader_spec s1 m3 with ⟨k1, k2, k3, k4, k5⟩
      rcases hsk : skipCodeBlockHeader s1 with ⟨b, s2⟩
      rw [hsk] at k1 k2 k3 k4 k5
      simp only at k1 k2 k3 k4 k5
      cases b
      case true =>
        have hsome : ∃ c', cbhOf (absText s1) = some c' := by
          cases hcg : cbhOf (absText s1) with
          | none => rw [hcg] at k1; simp at k1
          | some c' => exact ⟨c', rfl⟩
        rcases hsome with ⟨c', hcg⟩
        have hstrict := k5 c' hcg
        have hfen := fenceOf_length_pos c'
        rcases copyCodeBlock_gspec accept cue ⟨s2, rs.out⟩ k3 with ⟨d1, q1, q2, q3, q4, q5⟩
        rcases hcb : copyCodeBlock accept cue ⟨s2, rs.out⟩ with ⟨h9, rs9⟩
        rw [hcb] at q1 q2 q3 q4 q5
        dsimp only at q1 q2 q3 q4 q5
        cases h9
        case some h =>
          have heq : copyMarkdownLoopF (fuel + 1) accept cue rs = (some h, rs9) := by
            simp only [copyMarkdownLoopF, hae, Bool.false_eq_true, reduceIte, hm, hsk,
              hcb]
          rw [heq]
          have hhc : h = Halt.cancelled := by
            rcases q3 with q3 | q3
            · cases q3
            · cases q3
              rfl
          refine ⟨d1, q1, q2, .inr (by rw [hhc]), q4, by
            show nu rs9.scan ≤ nu rs.scan
            omega, fun hc => by cases hc⟩
        case none =>
          have heq : copyMarkdownLoopF (fuel + 1) accept cue rs =
              copyMarkdownLoopF fuel accept cue rs9 := by
            simp only [copyMarkdownLoopF, hae, Bool.false_eq_true, reduceIte, hm, hsk,
              hcb]
          rw [heq]
          rcases ih accept cue rs9 (by omega) q4 with ⟨d2, r1, r2, r3, r4, r5, r6⟩
          refine ⟨d1 ++ d2, by rw [r1, q1]; simp, ?_, r3, r4, by omega, r6⟩
          have hq2n : refusalLast accept rs.out.length d1 none := by simpa using q2
          have hbase : rs9.out.length = rs.out.length + d1.length := by
            rw [q1]
            simp
          refine refusalLast_append hq2n ?_
          rw [← hbase]
          exact r2
      case false =>
        have hcg : cbhOf (absText s1) = none := by
          cases hcg : cbhOf (absText s1) with
          | none => rfl
          | some c' => rw [hcg] at k1; simp at k1
        have habs2 : absText s2 = absText s1 := by
          rw [k2, hcg]
        rcases Scanner.copyLineTo_trace accept ⟨s2, rs.out⟩ k3 with ⟨d1, q1, q2, q3, q4⟩
        rcases hcl : Scanner.copyLineTo accept ⟨s2, rs.out⟩ with ⟨ok2, rs9⟩
        rw [hcl] at q1 q2 q3 q4
        simp only at q1 q2 q3 q4
        cases ok2
        case false =>
          have heq : copyMarkdownLoopF (fuel + 1) accept cue rs =
              (some .cancelled, rs9) := by
            simp only [copyMarkdownLoopF, hae, Bool.false_eq_true, reduceIte, hm, hsk,
              hcl]
          rw [heq]
          refine ⟨d1, q1, by simpa using q2, .inr rfl, q3, by
            show nu rs9.scan ≤ nu rs.scan
            omega, fun hc => by cases hc⟩
        case true =>
          have heq : copyMarkdownLoopF (fuel + 1) accept cue rs =
              copyMarkdownLoopF fuel accept cue rs9 := by
            simp only [copyMarkdownLoopF, hae, Bool.false_eq_true, reduceIte, hm, hsk,
              hcl]
          rw [heq]
          have hfuel9 : nu rs9.scan < fuel := by
            by_cases hA : absText rs.scan = []
            · have hdone : rs.scan.inputDone = false := atEnd_false_done hA hae
              have hnu1 : nu s1 = 0 := nu_zero (by rw [m2]; exact hA) (m6 hA) m3
              have hge : 1 ≤ nu rs.scan := nu_pos_of_not_done hdone
              omega
            · have hlt : nu (Scanner.copyLineTo accept ⟨s2, rs.out⟩).2.scan <
                  nu (⟨s2, rs.out⟩ : RS).scan :=
                Scanner.copyLineTo_ok_nu accept ⟨s2, rs.out⟩ k3 (by rw [hcl]) (by
                  show absText s2 ≠ []
                  rw [habs2, m2]
                  exact hA)
              rw [hcl] at hlt
              dsimp only at hlt
              omega
          rcases ih accept cue rs9 hfuel9 q3 with ⟨d2, r1, r2, r3, r4, r5, r6⟩
          refine ⟨d1 ++ d2, by rw [r1, q1]; simp, ?_, r3, r4, by omega, r6⟩
          have hq2n : refusalLast accept rs.out.length d1 none := by simpa using q2
          have hbase : rs9.out.length = rs.out.length + d1.length := by
            rw [q1]
            simp
          refine refusalLast_append hq2n ?_
          rw [← hbase]
          exact r2

end BotResponse

namespace BotResponse

set_option maxHeartbeats 1600000 in
theorem copyMarkdown_gspec (accept : Nat → Bool) (cue : Text) (rs : RS)
    (hinv : SInv rs.scan) :
    ∃ d, (copyMarkdown accept cue rs).2.out = rs.out ++ d ∧
      refusalLast accept rs.out.length d (copyMarkdown accept cue rs).1 ∧
      ((copyMarkdown accept cue rs).1 = none ∨
        (copyMarkdown accept cue rs).1 = some .cancelled) ∧
      SInv (copyMarkdown accept cue rs).2.scan ∧
      nu (copyMarkdown accept cue rs).2.scan ≤ nu rs.scan ∧
      ((copyMarkdown accept cue rs).1 = none →
        ((copyMarkdown accept cue rs).2.scan.atEnd = true ∨
          (hdrOf (absText (copyMarkdown accept cue rs).2.scan)).isSome = true)) := by
  rcases skipCodeBlockHeader_spec rs.scan hinv with ⟨k1, k2, k3, k4, k5⟩
  rcases hsk : skipCodeBlockHeader rs.scan with ⟨b, s1⟩
  rw [hsk] at k1 k2 k3 k4 k5
  simp only at k1 k2 k3 k4 k5
  cases b
  case true =>
    rcases copyCodeBlock_gspec accept cue ⟨s1, rs.out⟩ k3 with ⟨d1, q1, q2, q3, q4, q5⟩
    rcases hcb : copyCodeBlock accept cue ⟨s1, rs.out⟩ with ⟨h9, rs9⟩
    rw [hcb] at q1 q2 q3 q4 q5
    dsimp only at q1 q2 q3 q4 q5
    cases h9
    case some h =>
      have heq : copyMarkdown accept cue rs = (some h, rs9) := by
        simp only [copyMarkdown, hsk, hcb]
      rw [heq]
      have hhc : h = Halt.cancelled := by
        rcases q3 with q3 | q3
        · cases q3
        · cases q3
          rfl
      exact ⟨d1, q1, q2, .inr (by rw [hhc]), q4, by
        show nu rs9.scan ≤ nu rs.scan
        omega, fun hc => by cases hc⟩
    case none =>
      have heq : copyMarkdown accept cue rs =
          copyMarkdownLoopF (nu rs9.scan + 1) accept cue rs9 := by
        simp only [copyMarkdown, hsk, hcb]
      rw [heq]
      rcases copyMarkdownLoopF_gspec (nu rs9.scan + 1) accept cue rs9
        (Nat.lt_succ_self _) q4 with ⟨d2, r1, r2, r3, r4, r5, r6⟩
      refine ⟨d1 ++ d2, by rw [r1, q1]; simp, ?_, r3, r4, by omega, r6⟩
      have hq2n : refusalLast accept rs.out.length d1 none := by simpa using q2
      have hbase : rs9.out.length = rs.out.length + d1.length := by
        rw [q1]
        simp
      refine refusalLast_append hq2n ?_
      rw [← hbase]
      exact r2
  case false =>
    rcases copyOrAddCue_spec accept cue ⟨s1, rs.out⟩ k3 with ⟨q1, q2, q3, q4, q5⟩
    rcases hco : copyOrAddCue accept cue ⟨s1, rs.out⟩ with ⟨h9, rs9⟩
    rw [hco] at q1 q2 q3 q4 q5
    dsimp only at q1 q2 q3 q4 q5
    have hq2 : refusalLast accept rs.out.length
        [.write (if cueSep (absText s1) then cueLabel (absText s1) ++ uts ": "
          else cue ++ uts ": " ++ cueLabel (absText s1))] h9 := by
      apply refusalLast_single_write
      rw [q5]
    cases h9
    case some h =>
      have heq : copyMarkdown accept cue rs = (some h, rs9) := by
        simp only [copyMarkdown, hsk, hco]
      rw [heq]
      have hhc : h = Halt.cancelled := by
        cases hacc : accept rs.out.length
        · rw [hacc] at q5
          simp only [Bool.false_eq_true, reduceIte, Option.some.injEq] at q5
          exact q5
        · rw [hacc] at q5
          simp at q5
      exact ⟨_, q1, hq2, .inr (by rw [hhc]), q3, by
        show nu rs9.scan ≤ nu rs.scan
        omega, fun hc => by cases hc⟩
    case none =>
      have heq : copyMarkdown accept cue rs =
          copyMarkdownLoopF (nu rs9.scan + 1) accept cue rs9 := by
        simp only [copyMarkdown, hsk, hco]
      rw [heq]
      rcases copyMarkdownLoopF_gspec (nu rs9.scan + 1) accept cue rs9
        (Nat.lt_succ_self _) q3 with ⟨d2, r1, r2, r3, r4, r5, r6⟩
      refine ⟨.write (if cueSep (absText s1) then cueLabel (absText s1) ++ uts ": "
        else cue ++ uts ": " ++ cueLabel (absText s1)) :: d2,
        by rw [r1, q1]; simp, ?_, r3, r4, by omega, r6⟩
      have hbase : rs9.out.length = rs.out.length + 1 := by
        rw [q1]
        simp
      have := refusalLast_append hq2 (by
        rw [show rs.out.length + List.length [Ev.write (if cueSep (absText s1) then
          cueLabel (absText s1) ++ uts ": "
          else cue ++ uts ": " ++ cueLabel (absText s1))] = rs9.out.length by
            rw [hbase]; rfl]
        exact r2)
      simpa using this

end BotResponse

namespace BotResponse

set_option maxHeartbeats 1600000 in
theorem copyCodeCellF_gspec (fuel : Nat) : ∀ (accept : Nat → Bool) (rs : RS),
    nu rs.scan < fuel → SInv rs.scan →
    ∃ d, (copyCodeCellF fuel accept rs).2.out = rs.out ++ d ∧
      refusalLast accept rs.out.length d (copyCodeCellF fuel accept rs).1 ∧
      ((copyCodeCellF fuel accept rs).1 = none ∨
        (copyCodeCellF fuel accept rs).1 = some .cancelled) ∧
      SInv (copyCodeCellF fuel accept rs).2.scan ∧
      nu (copyCodeCellF fuel accept rs).2.scan ≤ nu rs.scan ∧
      ((copyCodeCellF fuel accept rs).1 = none →
        ((copyCodeCellF fuel accept rs).2.scan.atEnd = true ∨
          (hdrOf (absText (copyCodeCellF fuel accept rs).2.scan)).isSome = true)) := by
  induction fuel with
  | zero => intro accept rs h; omega
  | succ fuel ih =>
    intro accept rs hfuel hinv
    rcases hae : rs.scan.atEnd
    case true =>
      have heq : copyCodeCellF (fuel + 1) accept rs = (none, rs) := by
        simp only [copyCodeCellF, hae, reduceIte]
      rw [heq]
      exact ⟨[], by simp, refusalLast_nil _ _ _, .inl rfl, hinv, le_refl _,
        fun _ => .inl hae⟩
    case false =>
    rcases matchHeaderLine_spec rs.scan hinv with ⟨m1, m2, m3, m4, m5, m6⟩
    rcases hm : matchHeaderLine rs.scan with ⟨hd, s1⟩
    rw [hm] at m1 m2 m3 m4 m5 m6
    simp only at m1 m2 m3 m4 m5 m6
    cases hd
    case some c =>
      have heq : copyCodeCellF (fuel + 1) accept rs = (none, ⟨s1, rs.out⟩) := by
        simp only [copyCodeCellF, hae, Bool.false_eq_true, reduceIte, hm]
      rw [heq]
      refine ⟨[], by simp, refusalLast_nil _ _ _, .inl rfl, m3, by
        show nu s1 ≤ nu rs.scan
        omega, fun _ => .inr ?_⟩
      show (hdrOf (absText s1)).isSome = true
      rw [m2, ← m1]
      rfl
    case none =>
      rcases Scanner.copyLineTo_trace accept ⟨s1, rs.out⟩ m3 with ⟨d1, q1, q2, q3, q4⟩
      rcases hcl : Scanner.copyLineTo accept ⟨s1, rs.out⟩ with ⟨ok2, rs9⟩
      rw [hcl] at q1 q2 q3 q4
      simp only at q1 q2 q3 q4
      cases ok2
      case false =>
        have heq : copyCodeCellF (fuel + 1) accept rs = (some .cancelled, rs9) := by
          simp only [copyCodeCellF, hae, Bool.false_eq_true, reduceIte, hm, hcl]
        rw [heq]
        refine ⟨d1, q1, by simpa using q2, .inr rfl, q3, by
          show nu rs9.scan ≤ nu rs.scan
          omega, fun hc => by cases hc⟩
      case true =>
        have heq : copyCodeCellF (fuel + 1) accept rs = copyCodeCellF fuel accept rs9 := by
          simp only [copyCodeCellF, hae, Bool.false_eq_true, reduceIte, hm, hcl]
        rw [heq]
        have hfuel9 : nu rs9.scan < fuel := by
          by_cases hA : absText rs.scan = []
          · have hdone : rs.scan.inputDone = false := atEnd_false_done hA hae
            have hnu1 : nu s1 = 0 := nu_zero (by rw [m2]; exact hA) (m6 hA) m3
            have hge : 1 ≤ nu rs.scan := nu_pos_of_not_done hdone
            omega
          · have hlt : nu (Scanner.copyLineTo accept ⟨s1, rs.out⟩).2.scan <
                nu (⟨s1, rs.out⟩ : RS).scan :=
              Scanner.copyLineTo_ok_nu accept ⟨s1, rs.out⟩ m3 (by rw [hcl]) (by
                show absText s1 ≠ []
                rw [m2]
                exact hA)
            rw [hcl] at hlt
            dsimp only at hlt
            omega
        rcases ih accept rs9 hfuel9 q3 with ⟨d2, r1, r2, r3, r4, r5, r6⟩
        refine ⟨d1 ++ d2, by rw [r1, q1]; simp, ?_, r3, r4, by omega, r6⟩
        have hq2n : refusalLast accept rs.out.length d1 none := by simpa using q2
        have hbase : rs9.out.length = rs.out.length + d1.length := by
          rw [q1]
          simp
        refine refusalLast_append hq2n ?_
        rw [← hbase]
        exact r2

theorem copyCodeCell_gspec (accept : Nat → Bool) (rs : RS) (hinv : SInv rs.scan) :
    ∃ d, (copyCodeCell accept rs).2.out = rs.out ++ d ∧
      refusalLast accept rs.out.length d (copyCodeCell accept rs).1 ∧
      ((copyCodeCell accept rs).1 = none ∨
        (copyCodeCell accept rs).1 = some .cancelled) ∧
      SInv (copyCodeCell accept rs).2.scan ∧
      nu (copyCodeCell accept rs).2.scan ≤ nu rs.scan ∧
      ((copyCodeCell accept rs).1 = none →
        ((copyCodeCell accept rs).2.scan.atEnd = true ∨
          (hdrOf (absText (copyCodeCell accept rs).2.scan)).isSome = true)) :=
  copyCodeCellF_gspec (nu rs.scan + 1) accept rs (Nat.lt_succ_self _) hinv

end BotResponse

namespace BotResponse

set_option maxHeartbeats 1600000 in
theorem copyLoopF_gspec (fuel : Nat) : ∀ (accept : Nat → Bool) (cue : Text)
    (c : CellType) (rs : RS), nu rs.scan < fuel → SInv rs.scan →
    (headerOf c).isPrefixOf (absText rs.scan) = true →
    ∃ d, (copyLoopF fuel accept cue c rs).2.out = rs.out ++ d ∧
      refusalLast accept rs.out.length d (copyLoopF fuel accept cue c rs).1 ∧
      ((copyLoopF fuel accept cue c rs).1 = none ∨
        (copyLoopF fuel accept cue c rs).1 = some .cancelled) ∧
      SInv (copyLoopF fuel accept cue c rs).2.scan ∧
      nu (copyLoopF fuel accept cue c rs).2.scan ≤ nu rs.scan := by
  induction fuel with
  | zero => intro accept cue c rs h; omega
  | succ fuel ih =>
    intro accept cue c rs hfuel hinv hhdr
    rcases Scanner.skipToken_spec (headerOf c) rs.scan hinv with ⟨k1, k2, k3, k4, k5, k6⟩
    rcases hsk : Scanner.skipToken (headerOf c) rs.scan with ⟨ok, s1⟩
    rw [hsk] at k1 k2 k3 k4 k5 k6
    simp only at k1 k2 k3 k4 k5 k6
    have hok : ok = true := by rw [k1, hhdr]
    subst hok
    have hstrict := k5 rfl
    have hhl := headerOf_length_pos c
    rcases skipBlankLines_spec s1 k3 with ⟨sb1, sb2, sb3, sb4⟩
    by_cases hc : c = CellType.markdown
    · subst hc
      have hsc : startCell accept .startMarkdown ⟨s1, rs.out⟩ =
          ⟨skipBlankLines s1, rs.out ++ [.startMarkdown]⟩ := rfl
      rcases copyMarkdown_gspec accept cue ⟨skipBlankLines s1, rs.out ++ [.startMarkdown]⟩
        sb2 with ⟨d1, q1, q2, q3, q4, q5, q6⟩
      rcases hmd : copyMarkdown accept cue
          ⟨skipBlankLines s1, rs.out ++ [.startMarkdown]⟩ with ⟨h9, rs9⟩
      rw [hmd] at q1 q2 q3 q4 q5 q6
      dsimp only at q1 q2 q3 q4 q5 q6
      have hfirst : refusalLast accept rs.out.length [.startMarkdown] none :=
        refusalLast_nonwrite _ _ _ _ rfl
      have hq2s : refusalLast accept (rs.out.length + 1) d1 h9 := by
        simpa using q2
      cases h9 with
      | some h =>
        have heq : copyLoopF (fuel + 1) accept cue CellType.markdown rs = (some h, rs9) := by
          simp only [copyLoopF, hsk, reduceIte, hsc, hmd, copyLoopStep]
        rw [heq]
        have hhc : h = Halt.cancelled := by
          rcases q3 with q3 | q3
          · cases q3
          · cases q3
            rfl
        refine ⟨.startMarkdown :: d1, by dsimp only; rw [q1]; simp, ?_, .inr (by rw [hhc]), q4, by
          show nu rs9.scan ≤ nu rs.scan
          omega⟩
        have := refusalLast_append_exp _ _ [.startMarkdown] _ _ hfirst (by simpa using hq2s)
        simpa using this
      | none =>
        cases hae9 : rs9.scan.atEnd with
        | false =>
          rcases matchHeaderLine_spec rs9.scan q4 with ⟨m1, m2, m3, m4, m5, m6⟩
          rcases hm9 : matchHeaderLine rs9.scan with ⟨hd2, s2⟩
          rw [hm9] at m1 m2 m3 m4 m5 m6
          simp only at m1 m2 m3 m4 m5 m6
          have hpost := q6 rfl
          rcases hpost with hpost | hpost
          · rw [hae9] at hpost
            cases hpost
          · cases hd2 with
            | none =>
              rw [← m1] at hpost
              cases hpost
            | some c2 =>
              have heq : copyLoopF (fuel + 1) accept cue CellType.markdown rs =
                  copyLoopF fuel accept cue c2 ⟨s2, rs9.out⟩ := by
                simp only [copyLoopF, hsk, reduceIte, hsc, hmd, copyLoopStep,
                  hae9, Bool.false_eq_true, if_false, hm9]
              rw [heq]
              have hpre2 : (headerOf c2).isPrefixOf (absText s2) = true := by
                rw [m2]
                exact hdrOfGo_some_prefix allCellTypes _ c2 m1.symm
              rcases ih accept cue c2 ⟨s2, rs9.out⟩ (by
                show nu s2 < fuel
                omega) m3 (by
                show (headerOf c2).isPrefixOf (absText s2) = true
                exact hpre2) with ⟨d2, r1, r2, r3, r4, r5⟩
              dsimp only at r1 r2 r5
              refine ⟨.startMarkdown :: (d1 ++ d2), by rw [r1, q1]; simp, ?_, r3, r4, by
                show nu (copyLoopF fuel accept cue c2 ⟨s2, rs9.out⟩).2.scan ≤ nu rs.scan
                omega⟩
              have hbase : rs9.out.length = rs.out.length + 1 + d1.length := by
                rw [q1]
                simp
                omega
              have hmid := refusalLast_append hq2s (by
                rw [← hbase]
                exact r2)
              have := refusalLast_append_exp _ _ [.startMarkdown] _ _ hfirst (by
                simpa using hmid)
              simpa using this
        | true =>
          have heq : copyLoopF (fuel + 1) accept cue CellType.markdown rs = (none, rs9) := by
            simp only [copyLoopF, hsk, reduceIte, hsc, hmd, copyLoopStep, hae9, if_true]
          rw [heq]
          refine ⟨.startMarkdown :: d1, by dsimp only; rw [q1]; simp, ?_, .inl rfl, q4, by
            show nu rs9.scan ≤ nu rs.scan
            omega⟩
          have := refusalLast_append_exp _ _ [.startMarkdown] _ _ hfirst (by simpa using hq2s)
          simpa using this
    · have hsc : startCell accept .startCode ⟨s1, rs.out⟩ =
          ⟨skipBlankLines s1, rs.out ++ [.startCode]⟩ := rfl
      rcases copyCodeCell_gspec accept ⟨skipBlankLines s1, rs.out ++ [.startCode]⟩
        sb2 with ⟨d1, q1, q2, q3, q4, q5, q6⟩
      rcases hmd : copyCodeCell accept
          ⟨skipBlankLines s1, rs.out ++ [.startCode]⟩ with ⟨h9, rs9⟩
      rw [hmd] at q1 q2 q3 q4 q5 q6
      dsimp only at q1 q2 q3 q4 q5 q6
      have hfirst : refusalLast accept rs.out.length [.startCode] none :=
        refusalLast_nonwrite _ _ _ _ rfl
      have hq2s : refusalLast accept (rs.out.length + 1) d1 h9 := by
        simpa using q2
      cases h9 with
      | some h =>
        have heq : copyLoopF (fuel + 1) accept cue c rs = (some h, rs9) := by
          simp only [copyLoopF, hsk, if_neg hc, hsc, hmd, copyLoopStep]
        rw [heq]
        have hhc : h = Halt.cancelled := by
          rcases q3 with q3 | q3
          · cases q3
          · cases q3
            rfl
        refine ⟨.startCode :: d1, by dsimp only; rw [q1]; simp, ?_, .inr (by rw [hhc]), q4, by
          show nu rs9.scan ≤ nu rs.scan
          omega⟩
        have := refusalLast_append_exp _ _ [.startCode] _ _ hfirst (by simpa using hq2s)
        simpa using this
      | none =>
        cases hae9 : rs9.scan.atEnd with
        | false =>
          rcases matchHeaderLine_spec rs9.scan q4 with ⟨m1, m2, m3, m4, m5, m6⟩
          rcases hm9 : matchHeaderLine rs9.scan with ⟨hd2, s2⟩
          rw [hm9] at m1 m2 m3 m4 m5 m6
          simp only at m1 m2 m3 m4 m5 m6
          have hpost := q6 rfl
          rcases hpost with hpost | hpost
          · rw [hae9] at hpost
            cases hpost
          · cases hd2 with
            | none =>
              rw [← m1] at hpost
              cases hpost
            | some c2 =>
              have heq : copyLoopF (fuel + 1) accept cue c rs =
                  copyLoopF fuel accept cue c2 ⟨s2, rs9.out⟩ := by
                simp only [copyLoopF, hsk, if_neg hc, hsc, hmd, copyLoopStep,
                  hae9, Bool.false_eq_true, if_false, hm9]
              rw [heq]
              have hpre2 : (headerOf c2).isPrefixOf (absText s2) = true := by
                rw [m2]
                exact hdrOfGo_some_prefix allCellTypes _ c2 m1.symm
              rcases ih accept cue c2 ⟨s2, rs9.out⟩ (by
                show nu s2 < fuel
                omega) m3 (by
                show (headerOf c2).isPrefixOf (absText s2) = true
                exact hpre2) with ⟨d2, r1, r2, r3, r4, r5⟩
              dsimp only at r1 r2 r5
              refine ⟨.startCode :: (d1 ++ d2), by rw [r1, q1]; simp, ?_, r3, r4, by
                show nu (copyLoopF fuel accept cue c2 ⟨s2, rs9.out⟩).2.scan ≤ nu rs.scan
                omega⟩
              have hbase : rs9.out.length = rs.out.length + 1 + d1.length := by
                rw [q1]
                simp
                omega
              have hmid := refusalLast_append hq2s (by
                rw [← hbase]
                exact r2)
              have := refusalLast_append_exp _ _ [.startCode] _ _ hfirst (by
                simpa using hmid)
              simpa using this
        | true =>
          have heq : copyLoopF (fuel + 1) accept cue c rs = (none, rs9) := by
            simp only [copyLoopF, hsk, if_neg hc, hsc, hmd, copyLoopStep, hae9, if_true]
          rw [heq]
          refine ⟨.startCode :: d1, by dsimp only; rw [q1]; simp, ?_, .inl rfl, q4, by
            show nu rs9.scan ≤ nu rs.scan
            omega⟩
          have := refusalLast_append_exp _ _ [.startCode] _ _ hfirst (by simpa using hq2s)
          simpa using this

end BotResponse

namespace BotResponse

set_option maxHeartbeats 1600000 in
theorem copy_gspec (accept : Nat → Bool) (cue : Text) (rs : RS) (hinv : SInv rs.scan) :
    ∃ d, (copy accept cue rs).2.out = rs.out ++ d ∧
      refusalLast accept rs.out.length d (copy accept cue rs).1 ∧
      ((copy accept cue rs).1 = none ∨
        (copy accept cue rs).1 = some .cancelled) ∧
      SInv (copy accept cue rs).2.scan := by
  rcases skipBlankLines_spec rs.scan hinv with ⟨sb1, sb2, sb3, sb4⟩
  cases hae : (skipBlankLines rs.scan).atEnd with
  | true =>
    rcases writeOrCancel_spec accept (cue ++ uts ": (no response)")
      ⟨skipBlankLines rs.scan, rs.out⟩ with ⟨w1, w2⟩
    rcases hwc : writeOrCancel accept (cue ++ uts ": (no response)")
        ⟨skipBlankLines rs.scan, rs.out⟩ with ⟨h9, rs9⟩
    rw [hwc] at w1 w2
    dsimp only at w1 w2
    have heq : copy accept cue rs = (h9, rs9) := by
      rw [copy]
      simp only [hae, reduceIte, hwc]
    rw [heq]
    refine ⟨[.write (cue ++ uts ": (no response)")], by rw [w1], ?_, ?_, by
      rw [w1]
      exact sb2⟩
    · exact refusalLast_single_write accept rs.out.length _ _ w2
    · rw [w2]
      cases accept rs.out.length
      · simp
      · simp
  | false =>
    rcases matchHeaderLine_spec (skipBlankLines rs.scan) sb2 with ⟨m1, m2, m3, m4, m5, m6⟩
    rcases hm : matchHeaderLine (skipBlankLines rs.scan) with ⟨hd, s2⟩
    rw [hm] at m1 m2 m3 m4 m5 m6
    simp only at m1 m2 m3 m4 m5 m6
    cases hd with
    | some c =>
      have heq : copy accept cue rs =
          copyLoopF (nu s2 + 1) accept cue c ⟨s2, rs.out⟩ := by
        rw [copy]
        simp only [hae, Bool.false_eq_true, reduceIte, hm]
      rw [heq]
      have hpre : (headerOf c).isPrefixOf (absText s2) = true := by
        rw [m2]
        exact hdrOfGo_some_prefix allCellTypes _ c m1.symm
      rcases copyLoopF_gspec (nu s2 + 1) accept cue c ⟨s2, rs.out⟩ (by
        show nu s2 < nu s2 + 1
        omega) m3 (by
        show (headerOf c).isPrefixOf (absText s2) = true
        exact hpre) with ⟨d, r1, r2, r3, r4, r5⟩
      dsimp only at r1 r2
      exact ⟨d, r1, r2, r3, r4⟩
    | none =>
      rcases copyMarkdown_gspec accept cue ⟨s2, rs.out⟩ m3 with ⟨d1, q1, q2, q3, q4, q5, q6⟩
      rcases hmd : copyMarkdown accept cue ⟨s2, rs.out⟩ with ⟨h9, rs9⟩
      rw [hmd] at q1 q2 q3 q4 q5 q6
      dsimp only at q1 q2 q3 q4 q5 q6
      cases h9 with
      | some h =>
        have heq : copy accept cue rs = (some h, rs9) := by
          rw [copy]
          simp only [hae, Bool.false_eq_true, reduceIte, hm, hmd, copyLoopStep]
        rw [heq]
        have hhc : h = Halt.cancelled := by
          rcases q3 with q3 | q3
          · cases q3
          · cases q3
            rfl
        exact ⟨d1, q1, q2, .inr (by rw [hhc]), q4⟩
      | none =>
        cases hae9 : rs9.scan.atEnd with
        | true =>
          have heq : copy accept cue rs = (none, rs9) := by
            rw [copy]
            simp only [hae, Bool.false_eq_true, reduceIte, hm, hmd, copyLoopStep,
              hae9, if_true]
          rw [heq]
          exact ⟨d1, q1, q2, .inl rfl, q4⟩
        | false =>
          rcases matchHeaderLine_spec rs9.scan q4 with ⟨n1, n2, n3, n4, n5, n6⟩
          rcases hm9 : matchHeaderLine rs9.scan with ⟨hd2, s3⟩
          rw [hm9] at n1 n2 n3 n4 n5 n6
          simp only at n1 n2 n3 n4 n5 n6
          have hpost := q6 rfl
          rcases hpost with hpost | hpost
          · rw [hae9] at hpost
            cases hpost
          · cases hd2 with
            | none =>
              rw [← n1] at hpost
              cases hpost
            | some c2 =>
              have heq : copy accept cue rs =
                  copyLoopF (nu (⟨s3, rs9.out⟩ : RS).scan + 1) accept cue c2
                    ⟨s3, rs9.out⟩ := by
                rw [copy]
                simp only [hae, Bool.false_eq_true, reduceIte, hm, hmd, copyLoopStep,
                  hae9, if_false, hm9]
              rw [heq]
              have hpre2 : (headerOf c2).isPrefixOf (absText s3) = true := by
                rw [n2]
                exact hdrOfGo_some_prefix allCellTypes _ c2 n1.symm
              rcases copyLoopF_gspec (nu (⟨s3, rs9.out⟩ : RS).scan + 1) accept cue c2
                ⟨s3, rs9.out⟩ (Nat.lt_succ_self _) n3 (by
                show (headerOf c2).isPrefixOf (absText s3) = true
                exact hpre2) with ⟨d2, r1, r2, r3, r4, r5⟩
              dsimp only at r1 r2
              refine ⟨d1 ++ d2, by rw [r1, q1]; simp, ?_, r3, r4⟩
              have hq2n : refusalLast accept rs.out.length d1 none := by simpa using q2
              have hbase : rs9.out.length = rs.out.length + d1.length := by
                rw [q1]
                simp
              refine refusalLast_append hq2n ?_
              rw [← hbase]
              exact r2

end BotResponse

/-- Claim C6, amended: once a write returns false, the parse aborts
immediately by raising CANCELLED — a refused write is the final sink call
of the entire run, and the run's outcome is CANCELLED.  (The results of
`startMarkdownCell` / `startCodeCell` are ignored by the code, as the
counterexample shows, so the property holds for writes only.) -/
theorem c6_amended (accept : Nat → Bool) (cue : Text) (chunks : List Text) :
    refusalLast accept 0 (BotResponse.runCopy accept cue chunks).2.out
      (BotResponse.runCopy accept cue chunks).1 := by
  have hinv : SInv (⟨[], chunks, false⟩ : ScanState) := fun h => Bool.noConfusion h
  rcases BotResponse.copy_gspec accept cue ⟨⟨[], chunks, false⟩, []⟩ hinv with
    ⟨d, r1, r2, r3, r4⟩
  have hout : (BotResponse.runCopy accept cue chunks).2.out = d := by
    show (BotResponse.copy accept cue ⟨⟨[], chunks, false⟩, []⟩).2.out = d
    rw [r1]
    rfl
  rw [hout]
  exact r2

/-- Witness for the amended C6: a sink that refuses every call, on input
`"hi"`: the single write (call 0) is refused, it is the final call of the
run, and the run is cancelled. -/
theorem c6_amended_witness :
    0 + 1 = (BotResponse.runCopy (fun _ => false) (uts "bot") [uts "hi"]).2.out.length ∧
    (BotResponse.runCopy (fun _ => false) (uts "bot") [uts "hi"]).1 =
      some .cancelled :=
  c6_amended (fun _ => false) (uts "bot") [uts "hi"] 0 (by decide) (by decide)
    (by decide)

/-- Claim C10: the internal `Error("expected a header line")` branch of
`BotResponse.copy` is unreachable: for every sink and every input
chunking, the run never halts with `headerErr`, because whenever a cell
body returns normally with input remaining the remaining input begins with
a recognized header line. -/
theorem c10_header_err_unreachable (accept : Nat → Bool) (cue : Text)
    (chunks : List Text) :
    (BotResponse.runCopy accept cue chunks).1 ≠ some .headerErr := by
  have hinv : SInv (⟨[], chunks, false⟩ : ScanState) := fun h => Bool.noConfusion h
  rcases BotResponse.copy_gspec accept cue ⟨⟨[], chunks, false⟩, []⟩ hinv with
    ⟨d, r1, r2, r3, r4⟩
  intro hc
  have hc' : (BotResponse.copy accept cue ⟨⟨[], chunks, false⟩, []⟩).1 =
      some .headerErr := hc
  rcases r3 with r3 | r3
  · rw [r3] at hc'
    cases hc'
  · rw [r3] at hc'
    cases hc'

/-- The text written by `copyOrAddCue`: the existing cue verbatim, or the
default cue followed by the consumed label. -/
def cueText (cue t : Text) : Text :=
  if cueSep t then cueLabel t ++ uts ": " else cue ++ uts ": " ++ cueLabel t

/-- Pure denotation of the `copyCodeBlock` loop on the logical input text:
the emitted calls, the remaining text, and whether the loop broke at a
closing fence (rather than returning at the end of input). -/
def cbLoopP : Nat → Text → List Ev × Text × Bool
  | 0, t => ([], t, false)
  | fuel + 1, t =>
    if t = [] then ([], t, false)
    else if (uts "```").isPrefixOf t then
      if isFenceClose (lineSplit t).1 then ([], (lineSplit t).2, true)
      else
        match cbLoopP fuel (lineSplit t).2 with
        | (evs, r) => (.write (lineSplit t).1 :: evs, r)
    else
      match cbLoopP fuel (lineSplit t).2 with
      | (evs, r) => (.write (lineSplit t).1 :: evs, r)

/-- Pure denotation of the tail of `copyCodeBlock`. -/
def cbTailP (cue t : Text) : List Ev × Text :=
  if dropBlank t = [] then ([], dropBlank t)
  else if (hdrOf (dropBlank t)).isSome then ([], dropBlank t)
  else if (cbhOf (dropBlank t)).isSome then ([], dropBlank t)
  else ([.startMarkdown, .write (cueText cue (dropBlank t))], cueRest (dropBlank t))

/-- Pure denotation of `copyCodeBlock` (entered after the fence opener has
been consumed). -/
def cbP (cue t : Text) : List Ev × Text :=
  match cbLoopP (t.length + 1) t with
  | (evs, r, false) => (.startCode :: evs, r)
  | (evs, r, true) =>
    match cbTailP cue r with
    | (evs2, r2) => (.startCode :: (evs ++ evs2), r2)

/-- Pure denotation of the `copyMarkdown` loop. -/
def mdLoopP : Nat → Text → Text → List Ev × Text
  | 0, _, t => ([], t)
  | fuel + 1, cue, t =>
    if t = [] then ([], t)
    else if (hdrOf t).isSome then ([], t)
    else match cbhOf t with
      | some c =>
        match cbP cue (t.drop (fenceOf c).length) with
        | (evs, r) =>
          match mdLoopP fuel cue r with
          | (evs2, r2) => (evs ++ evs2, r2)
      | none =>
        match mdLoopP fuel cue (lineSplit t).2 with
        | (evs, r) => (.write (lineSplit t).1 :: evs, r)

/-- Pure denotation of `copyMarkdown`. -/
def mdP (cue t : Text) : List Ev × Text :=
  match cbhOf t with
  | some c =>
    match cbP cue (t.drop (fenceOf c).length) with
    | (evs, r) =>
      match mdLoopP (r.length + 1) cue r with
      | (evs2, r2) => (evs ++ evs2, r2)
  | none =>
    match mdLoopP ((cueRest t).length + 1) cue (cueRest t) with
    | (evs, r) => (.write (cueText cue t) :: evs, r)

/-- Pure denotation of the `copyCodeCell` loop. -/
def ccLoopP : Nat → Text → List Ev × Text
  | 0, t => ([], t)
  | fuel + 1, t =>
    if t = [] then ([], t)
    else if (hdrOf t).isSome then ([], t)
    else match ccLoopP fuel (lineSplit t).2 with
      | (evs, r) => (.write (lineSplit t).1 :: evs, r)

/-- Pure denotation of `copyCodeCell`. -/
def ccP (t : Text) : List Ev × Text := ccLoopP (t.length + 1) t

/-- Pure denotation of the main cell loop of `copy`. -/
def loopP : Nat → Text → CellType → Text → List Ev × Text
  | 0, _, _, t => ([], t)
  | fuel + 1, cue, c, t =>
    match (if c = .markdown then
        mdP cue (dropBlank (if (headerOf c).isPrefixOf t then
          t.drop (headerOf c).length else t))
      else ccP (dropBlank (if (headerOf c).isPrefixOf t then
        t.drop (headerOf c).length else t))) with
    | (evs, r) =>
      if r = [] then ((if c = .markdown then Ev.startMarkdown else Ev.startCode) :: evs, r)
      else match hdrOf r with
        | none => ((if c = .markdown then Ev.startMarkdown else Ev.startCode) :: evs, r)
        | some c2 =>
          match loopP fuel cue c2 r with
          | (evs2, r2) =>
            (((if c = .markdown then Ev.startMarkdown else Ev.startCode) :: evs) ++ evs2,
              r2)

/-- Pure denotation of `BotResponse.copy` on the logical input text. -/
def copyP (cue t : Text) : List Ev × Text :=
  if dropBlank t = [] then ([.write (cue ++ uts ": (no response)")], dropBlank t)
  else match hdrOf (dropBlank t) with
    | some c => loopP ((dropBlank t).length + 1) cue c (dropBlank t)
    | none =>
      match mdP cue (dropBlank t) with
      | (evs, r) =>
        if r = [] then (evs, r)
        else match hdrOf r with
          | none => (evs, r)
          | some c2 =>
            match loopP (r.length + 1) cue c2 r with
            | (evs2, r2) => (evs ++ evs2, r2)

theorem lineSplit_snd_le (t : Text) : (lineSplit t).2.length ≤ t.length := by
  have := congrArg List.length (lineSplit_append t)
  simp only [List.length_append] at this
  omega

theorem lineSplit_snd_lt {t : Text} (h : t ≠ []) :
    (lineSplit t).2.length < t.length := by
  have := congrArg List.length (lineSplit_append t)
  simp only [List.length_append] at this
  have := lineSplit_fst_length_pos h
  omega

theorem blankTake_snd_le (t : Text) : (Scanner.blankTake t).2.length ≤ t.length := by
  rw [Scanner.blankTake]
  by_cases hall : (lineSplit t).1.all jsTrimWs = true
  · rw [if_pos hall]
    exact lineSplit_snd_le t
  · rw [if_neg hall]

theorem dropBlankF_len : ∀ (f : Nat) (t : Text), (dropBlankF f t).length ≤ t.length := by
  intro f
  induction f with
  | zero => intro t; exact le_refl _
  | succ f ih =>
    intro t
    rcases hbt : Scanner.blankTake t with ⟨bv, bt⟩
    have hle : bt.length ≤ t.length := by
      have := blankTake_snd_le t
      rw [hbt] at this
      exact this
    cases bv with
    | nil =>
      simp only [dropBlankF, hbt]
      exact hle
    | cons x xr =>
      simp only [dropBlankF, hbt]
      exact le_trans (ih bt) hle

theorem dropBlank_len (t : Text) : (dropBlank t).length ≤ t.length :=
  dropBlankF_len (t.length + 1) t

theorem len_dropWhile_le (p : Nat → Bool) : ∀ (l : Text),
    (List.dropWhile p l).length ≤ l.length := by
  intro l
  induction l with
  | nil => exact le_refl _
  | cons x xs ih =>
    cases hp : p x with
    | false =>
      simp only [List.dropWhile, hp]
      exact le_refl _
    | true =>
      simp only [List.dropWhile, hp, List.length_cons]
      omega

theorem cueRest_len (t : Text) : (cueRest t).length ≤ t.length := by
  have hbody : (cueBody t).length ≤ t.length := len_dropWhile_le _ _
  rw [cueRest]
  by_cases hsep : cueSep t = true
  · rw [if_pos hsep]
    simp only [List.length_drop]
    omega
  · rw [if_neg hsep]
    simp only [List.length_drop]
    omega

theorem cbLoopP_len : ∀ (f : Nat) (t : Text), (cbLoopP f t).2.1.length ≤ t.length := by
  intro f
  induction f with
  | zero => intro t; exact le_refl _
  | succ f ih =>
    intro t
    by_cases ht : t = []
    · simp only [cbLoopP, ht, reduceIte]
      exact le_refl _
    · have hsnd := lineSplit_snd_le t
      by_cases hp : (uts "```").isPrefixOf t = true
      · by_cases hfc : isFenceClose (lineSplit t).1 = true
        · simp only [cbLoopP, ht, reduceIte, hp, hfc]
          exact hsnd
        · rcases hc : cbLoopP f (lineSplit t).2 with ⟨evs, r⟩
          have := ih (lineSplit t).2
          rw [hc] at this
          simp only [cbLoopP, ht, reduceIte, hp, hfc, Bool.false_eq_true, hc]
          exact le_trans this hsnd
      · rcases hc : cbLoopP f (lineSplit t).2 with ⟨evs, r⟩
        have := ih (lineSplit t).2
        rw [hc] at this
        simp only [cbLoopP, ht, reduceIte, hp, Bool.false_eq_true, hc]
        exact le_trans this hsnd

theorem cbTailP_len (cue t : Text) : (cbTailP cue t).2.length ≤ t.length := by
  have h1 := dropBlank_len t
  have h2 := cueRest_len (dropBlank t)
  rw [cbTailP]
  by_cases he : dropBlank t = []
  · rw [if_pos he]
    exact h1
  · rw [if_neg he]
    by_cases hh : (hdrOf (dropBlank t)).isSome = true
    · rw [if_pos hh]
      exact h1
    · rw [if_neg hh]
      by_cases hcb : (cbhOf (dropBlank t)).isSome = true
      · rw [if_pos hcb]
        exact h1
      · rw [if_neg hcb]
        show (cueRest (dropBlank t)).length ≤ t.length
        omega

theorem cbP_len (cue t : Text) : (cbP cue t).2.length ≤ t.length := by
  rcases hc : cbLoopP (t.length + 1) t with ⟨evs, r, brk⟩
  have hr : r.length ≤ t.length := by
    have := cbLoopP_len (t.length + 1) t
    rw [hc] at this
    exact this
  cases brk
  · simp only [cbP, hc]
    exact hr
  · rcases ht : cbTailP cue r with ⟨evs2, r2⟩
    have h2 : r2.length ≤ r.length := by
      have := cbTailP_len cue r
      rw [ht] at this
      exact this
    simp only [cbP, hc, ht]
    show r2.length ≤ t.length
    omega

theorem mdLoopP_len : ∀ (f : Nat) (cue t : Text), (mdLoopP f cue t).2.length ≤ t.length := by
  intro f
  induction f with
  | zero => intro cue t; exact le_refl _
  | succ f ih =>
    intro cue t
    by_cases ht : t = []
    · simp only [mdLoopP, ht, reduceIte]
      exact le_refl _
    · by_cases hh : (hdrOf t).isSome = true
      · simp only [mdLoopP, ht, reduceIte, hh]
        exact le_refl _
      · cases hcb : cbhOf t with
        | some c =>
          rcases hb : cbP cue (t.drop (fenceOf c).length) with ⟨evs, r⟩
          rcases hm : mdLoopP f cue r with ⟨evs2, r2⟩
          have h1 : r.length ≤ (t.drop (fenceOf c).length).length := by
            have := cbP_len cue (t.drop (fenceOf c).length)
            rw [hb] at this
            exact this
          have h2 : r2.length ≤ r.length := by
            have := ih cue r
            rw [hm] at this
            exact this
          simp only [mdLoopP, ht, reduceIte, hh, Bool.false_eq_true, hcb, hb, hm]
          simp only [List.length_drop] at h1
          omega
        | none =>
          rcases hm : mdLoopP f cue (lineSplit t).2 with ⟨evs, r⟩
          have h2 : r.length ≤ (lineSplit t).2.length := by
            have := ih cue (lineSplit t).2
            rw [hm] at this
            exact this
          have := lineSplit_snd_le t
          simp only [mdLoopP, ht, reduceIte, hh, Bool.false_eq_true, hcb, hm]
          omega

theorem mdP_len (cue t : Text) : (mdP cue t).2.length ≤ t.length := by
  cases hcb : cbhOf t with
  | some c =>
    rcases hb : cbP cue (t.drop (fenceOf c).length) with ⟨evs, r⟩
    rcases hm : mdLoopP (r.length + 1) cue r with ⟨evs2, r2⟩
    have h1 : r.length ≤ (t.drop (fenceOf c).length).length := by
      have := cbP_len cue (t.drop (fenceOf c).length)
      rw [hb] at this
      exact this
    have h2 : r2.length ≤ r.length := by
      have := mdLoopP_len (r.length + 1) cue r
      rw [hm] at this
      exact this
    simp only [mdP, hcb, hb, hm]
    simp only [List.length_drop] at h1
    omega
  | none =>
    rcases hm : mdLoopP ((cueRest t).length + 1) cue (cueRest t) with ⟨evs, r⟩
    have h2 : r.length ≤ (cueRest t).length := by
      have := mdLoopP_len ((cueRest t).length + 1) cue (cueRest t)
      rw [hm] at this
      exact this
    have := cueRest_len t
    simp only [mdP, hcb, hm]
    omega

theorem ccLoopP_len : ∀ (f : Nat) (t : Text), (ccLoopP f t).2.length ≤ t.length := by
  intro f
  induction f with
  | zero => intro t; exact le_refl _
  | succ f ih =>
    intro t
    by_cases ht : t = []
    · simp only [ccLoopP, ht, reduceIte]
      exact le_refl _
    · by_cases hh : (hdrOf t).isSome = true
      · simp only [ccLoopP, ht, reduceIte, hh]
        exact le_refl _
      · rcases hm : ccLoopP f (lineSplit t).2 with ⟨evs, r⟩
        have h2 : r.length ≤ (lineSplit t).2.length := by
          have := ih (lineSplit t).2
          rw [hm] at this
          exact this
        have := lineSplit_snd_le t
        simp only [ccLoopP, ht, reduceIte, hh, Bool.false_eq_true, hm]
        omega

theorem ccP_len (t : Text) : (ccP t).2.length ≤ t.length := ccLoopP_len (t.length + 1) t

theorem normEv_single (e : Ev) : normEv [e] = [e] := by
  cases e <;> rfl

namespace BotResponse

set_option maxHeartbeats 1600000 in
theorem cbLoopF_pspec (fuel : Nat) : ∀ (rs : RS) (pf : Nat),
    nu rs.scan < fuel → (absText rs.scan).length < pf → SInv rs.scan →
    (copyCodeBlockLoopF fuel acceptAll rs).1 =
      (bif (cbLoopP pf (absText rs.scan)).2.2 then CBExit.brk else CBExit.ret) ∧
    (∃ d, (copyCodeBlockLoopF fuel acceptAll rs).2.out = rs.out ++ d ∧
      normEv d = normEv (cbLoopP pf (absText rs.scan)).1) ∧
    absText (copyCodeBlockLoopF fuel acceptAll rs).2.scan =
      (cbLoopP pf (absText rs.scan)).2.1 ∧
    SInv (copyCodeBlockLoopF fuel acceptAll rs).2.scan ∧
    nu (copyCodeBlockLoopF fuel acceptAll rs).2.scan ≤ nu rs.scan := by
  induction fuel with
  | zero => intro rs pf h; omega
  | succ fuel ih =>
    intro rs pf hfuel hpf hinv
    cases pf with
    | zero => omega
    | succ pf =>
    rcases hae : rs.scan.atEnd
    case true =>
      have hA : absText rs.scan = [] := atEnd_true_absText hinv hae
      have heq : copyCodeBlockLoopF (fuel + 1) acceptAll rs = (.ret, rs) := by
        simp only [copyCodeBlockLoopF, hae, reduceIte]
      have hp : cbLoopP (pf + 1) (absText rs.scan) = ([], absText rs.scan, false) := by
        rw [hA]
        rfl
      rw [heq, hp]
      exact ⟨rfl, ⟨[], by simp, rfl⟩, by
        show absText rs.scan = absText rs.scan
        rfl, hinv, le_refl _⟩
    case false =>
    have hAeq := hae
    rcases Scanner.startsWith_spec (uts "```") rs.scan hinv with ⟨w1, w2, w3, w4, w5, w6⟩
    rcases hw : Scanner.startsWith (uts "```") rs.scan with ⟨ok, s1⟩
    rw [hw] at w1 w2 w3 w4 w5 w6
    simp only at w1 w2 w3 w4 w5 w6
    cases ok
    case true =>
      have hpre : (uts "```").isPrefixOf (absText rs.scan) = true := w1.symm
      have hAne : absText rs.scan ≠ [] := by
        intro hA
        have hlen := (List.isPrefixOf_iff_prefix.mp hpre).length_le
        rw [hA] at hlen
        have h3 : (uts "```").length = 3 := rfl
        simp [h3] at hlen
      rcases Scanner.takeLine_spec s1 w3 with ⟨t1, t2, t3, t4, t5⟩
      rcases htl : Scanner.takeLine s1 with ⟨line, s2⟩
      rw [htl] at t1 t2 t3 t4 t5
      simp only at t1 t2 t3 t4 t5
      rw [w2] at t1 t2
      have hlpos : 1 ≤ line.length := by
        rw [t1]
        exact lineSplit_fst_length_pos hAne
      have hnu2 : nu s2 < nu s1 := by omega
      cases hfc : isFenceClose line
      case true =>
        have hfc2 : isFenceClose (lineSplit (absText rs.scan)).1 = true := by
          rw [← t1]
          exact hfc
        have heq : copyCodeBlockLoopF (fuel + 1) acceptAll rs = (.brk, ⟨s2, rs.out⟩) := by
          simp only [copyCodeBlockLoopF, hae, Bool.false_eq_true, reduceIte, hw, htl,
            hfc, reduceIte]
        have hp : cbLoopP (pf + 1) (absText rs.scan) =
            ([], (lineSplit (absText rs.scan)).2, true) := by
          simp only [cbLoopP, hAne, reduceIte, hpre, hfc2]
        rw [heq, hp]
        exact ⟨rfl, ⟨[], by simp, rfl⟩, t2, t4, by
          show nu s2 ≤ nu rs.scan
          omega⟩
      case false =>
        have hfc2 : isFenceClose (lineSplit (absText rs.scan)).1 = false := by
          rw [← t1]
          exact hfc
        rcases writeOrCancel_spec acceptAll line ⟨s2, rs.out⟩ with ⟨wr1, wr2⟩
        have hwc : writeOrCancel acceptAll line ⟨s2, rs.out⟩ =
            (none, ⟨s2, rs.out ++ [.write line]⟩) := by
          rcases hp : writeOrCancel acceptAll line ⟨s2, rs.out⟩ with ⟨a, b⟩
          rw [hp] at wr1 wr2
          simp only at wr1 wr2
          rw [wr1, wr2]
          simp [acceptAll]
        have heq : copyCodeBlockLoopF (fuel + 1) acceptAll rs =
            copyCodeBlockLoopF fuel acceptAll ⟨s2, rs.out ++ [.write line]⟩ := by
          simp only [copyCodeBlockLoopF, hae, Bool.false_eq_true, reduceIte, hw, htl,
            hfc, hwc]
        rcases ih ⟨s2, rs.out ++ [.write line]⟩ pf (by
            show nu s2 < fuel
            omega) (by
            show (absText s2).length < pf
            rw [t2]
            have h1 := lineSplit_snd_lt hAne
            omega) t4 with ⟨v2, ⟨d2, hd2, hm2⟩, ha2, hs2, hn2⟩
        dsimp only at v2 hd2 hm2 ha2 hn2
        rw [t2] at v2 hm2 ha2
        rcases hcp : cbLoopP pf (lineSplit (absText rs.scan)).2 with ⟨evs, r, brk⟩
        rw [hcp] at v2 hm2 ha2
        simp only at v2 hm2 ha2
        have hp : cbLoopP (pf + 1) (absText rs.scan) =
            (.write (lineSplit (absText rs.scan)).1 :: evs, r, brk) := by
          simp only [cbLoopP, hAne, reduceIte, hpre, hfc2, Bool.false_eq_true, hcp]
        rw [heq, hp]
        refine ⟨v2, ⟨.write line :: d2, by rw [hd2]; simp, ?_⟩, ha2, hs2, by
          have := hn2
          show nu (copyCodeBlockLoopF fuel acceptAll ⟨s2, rs.out ++ [.write line]⟩).2.scan
            ≤ nu rs.scan
          omega⟩
        show normEv ([.write line] ++ d2) =
          normEv ([.write (lineSplit (absText rs.scan)).1] ++ evs)
        exact normEv_congr (by rw [t1]) hm2
    case false =>
      have hnpre : (uts "```").isPrefixOf (absText rs.scan) = false := w1.symm
      rcases Scanner.copyLineTo_true_spec ⟨s1, rs.out⟩ w3 with ⟨c1, ⟨d1, hd1, hm1⟩, c3, c4, c5, c6⟩
      rcases hcl : Scanner.copyLineTo acceptAll ⟨s1, rs.out⟩ with ⟨ok2, rs1⟩
      rw [hcl] at c1 hd1 c3 c4 c5 c6
      simp only at c1 hd1 c3 c4 c5 c6
      dsimp only at hm1
      rw [w2] at hm1 c3 c6
      have hok2 : ok2 = true := c1
      subst hok2
      have heq : copyCodeBlockLoopF (fuel + 1) acceptAll rs =
          copyCodeBlockLoopF fuel acceptAll rs1 := by
        simp only [copyCodeBlockLoopF, hae, Bool.false_eq_true, reduceIte, hw, hcl]
      by_cases hA : absText rs.scan = []
      · have hdone : rs.scan.inputDone = false := atEnd_false_done hA hae
        have hd1t : s1.inputDone = true := by
          rw [w5, hdone, hA]
          have : Scanner.properPrefixOf ([] : Text) (uts "```") = true := by decide
          rw [this]
          rfl
        have hnu0 : nu s1 = 0 := nu_zero (by rw [w2]; exact hA) hd1t w3
        have hge : 1 ≤ nu rs.scan := nu_pos_of_not_done hdone
        have hfuel1 : nu rs1.scan < fuel := by omega
        have hA1 : absText rs1.scan = [] := by
          rw [c3, hA]
          rfl
        rcases ih rs1 (pf + 1) hfuel1 (by simp [hA1]) c5 with
          ⟨v2, ⟨d2, hd2, hm2⟩, ha2, hs2, hn2⟩
        rw [hA1] at v2 hm2 ha2
        have hpnil : cbLoopP (pf + 1) ([] : Text) = ([], [], false) := rfl
        rw [hpnil] at v2 hm2 ha2
        simp only at v2 hm2 ha2
        have hp : cbLoopP (pf + 1) (absText rs.scan) = ([], [], false) := by
          rw [hA]
          exact hpnil
        rw [heq, hp]
        have hm1e : normEv d1 = [] := by
          rw [hm1, hA]
          simp
        refine ⟨v2, ⟨d1 ++ d2, by rw [hd2, hd1]; simp, ?_⟩, ha2, hs2, by
          have := hn2
          show nu (copyCodeBlockLoopF fuel acceptAll rs1).2.scan ≤ nu rs.scan
          omega⟩
        show normEv (d1 ++ d2) = normEv ([] : List Ev)
        rw [normEv_append, hm1e, hm2]
        rfl
      · have hAne := hA
        have hmne : normEv d1 = [.write (lineSplit (absText rs.scan)).1] := by
          rw [hm1, if_neg hAne]
        have hnu1 : nu rs1.scan < nu rs.scan := by
          have hfst := lineSplit_fst_length_pos hAne
          omega
        rcases ih rs1 pf (by omega) (by
            rw [c3]
            have h1 := lineSplit_snd_lt hAne
            omega) c5 with ⟨v2, ⟨d2, hd2, hm2⟩, ha2, hs2, hn2⟩
        rw [c3] at v2 hm2 ha2
        rcases hcp : cbLoopP pf (lineSplit (absText rs.scan)).2 with ⟨evs, r, brk⟩
        rw [hcp] at v2 hm2 ha2
        simp only at v2 hm2 ha2
        have hp : cbLoopP (pf + 1) (absText rs.scan) =
            (.write (lineSplit (absText rs.scan)).1 :: evs, r, brk) := by
          simp only [cbLoopP, hAne, reduceIte, hnpre, Bool.false_eq_true, hcp]
        rw [heq, hp]
        refine ⟨v2, ⟨d1 ++ d2, by rw [hd2, hd1]; simp, ?_⟩, ha2, hs2, by
          have := hn2
          show nu (copyCodeBlockLoopF fuel acceptAll rs1).2.scan ≤ nu rs.scan
          omega⟩
        show normEv (d1 ++ d2) =
          normEv ([.write (lineSplit (absText rs.scan)).1] ++ evs)
        exact normEv_congr (by rw [hmne]; rfl) hm2

end BotResponse

namespace BotResponse

set_option maxHeartbeats 1600000 in
theorem cbTail_pspec (cue : Text) (rs : RS) (hinv : SInv rs.scan) :
    (copyCodeBlockTail acceptAll cue rs).1 = none ∧
    (∃ d, (copyCodeBlockTail acceptAll cue rs).2.out = rs.out ++ d ∧
      normEv d = normEv (cbTailP cue (absText rs.scan)).1) ∧
    absText (copyCodeBlockTail acceptAll cue rs).2.scan =
      (cbTailP cue (absText rs.scan)).2 ∧
    SInv (copyCodeBlockTail acceptAll cue rs).2.scan ∧
    nu (copyCodeBlockTail acceptAll cue rs).2.scan ≤ nu rs.scan := by
  rcases skipBlankLines_spec rs.scan hinv with ⟨sb1, sb2, sb3, sb4⟩
  cases hae : (skipBlankLines rs.scan).atEnd with
  | true =>
    have hA1 : dropBlank (absText rs.scan) = [] := by
      rw [← sb1]
      exact atEnd_true_absText sb2 hae
    have heq : copyCodeBlockTail acceptAll cue rs =
        (none, ⟨skipBlankLines rs.scan, rs.out⟩) := by
      simp only [copyCodeBlockTail, hae, reduceIte]
    have hp : cbTailP cue (absText rs.scan) = ([], dropBlank (absText rs.scan)) := by
      simp only [cbTailP, hA1, reduceIte]
    rw [heq, hp]
    exact ⟨rfl, ⟨[], by simp, rfl⟩, by rw [sb1], sb2, sb4⟩
  | false =>
    have hA1 : dropBlank (absText rs.scan) ≠ [] := by
      intro hc
      have hd : (skipBlankLines rs.scan).inputDone = true := sb3 (by rw [sb1]; exact hc)
      have := atEnd_true_of (by rw [sb1]; exact hc) hd
      rw [this] at hae
      cases hae
    rcases matchHeaderLine_spec (skipBlankLines rs.scan) sb2 with ⟨m1, m2, m3, m4, m5, m6⟩
    rcases hmh : matchHeaderLine (skipBlankLines rs.scan) with ⟨hv, s2⟩
    rw [hmh] at m1 m2 m3 m4 m5 m6
    simp only at m1 m2 m3 m4 m5 m6
    rw [sb1] at m1 m2
    cases hv with
    | some c =>
      have hsome : (hdrOf (dropBlank (absText rs.scan))).isSome = true := by
        rw [← m1]
        rfl
      have heq : copyCodeBlockTail acceptAll cue rs = (none, ⟨s2, rs.out⟩) := by
        simp only [copyCodeBlockTail, hae, Bool.false_eq_true, reduceIte, hmh]
      have hp : cbTailP cue (absText rs.scan) = ([], dropBlank (absText rs.scan)) := by
        simp only [cbTailP, hA1, reduceIte, hsome]
      rw [heq, hp]
      exact ⟨rfl, ⟨[], by simp, rfl⟩, m2, m3, le_trans m4 sb4⟩
    | none =>
      have hnone : (hdrOf (dropBlank (absText rs.scan))).isSome = false := by
        rw [← m1]
        rfl
      rcases startsWithCodeBlockHeader_spec s2 m3 with ⟨q1, q2, q3, q4⟩
      rcases hsw : startsWithCodeBlockHeader s2 with ⟨bv, s3⟩
      rw [hsw] at q1 q2 q3 q4
      simp only at q1 q2 q3 q4
      rw [m2] at q1 q2
      cases bv with
      | true =>
        have hsome : (cbhOf (dropBlank (absText rs.scan))).isSome = true := q1.symm
        have heq : copyCodeBlockTail acceptAll cue rs = (none, ⟨s3, rs.out⟩) := by
          simp only [copyCodeBlockTail, hae, Bool.false_eq_true, reduceIte, hmh, hsw]
        have hp : cbTailP cue (absText rs.scan) = ([], dropBlank (absText rs.scan)) := by
          simp only [cbTailP, hA1, reduceIte, hnone, Bool.false_eq_true, hsome]
        rw [heq, hp]
        exact ⟨rfl, ⟨[], by simp, rfl⟩, q2, q3, by
          show nu s3 ≤ nu rs.scan
          omega⟩
      | false =>
        have hcbn : (cbhOf (dropBlank (absText rs.scan))).isSome = false := q1.symm
        have hcs : (callSink acceptAll .startMarkdown ⟨s3, rs.out⟩).2 =
            ⟨s3, rs.out ++ [.startMarkdown]⟩ := rfl
        rcases copyOrAddCue_spec acceptAll cue ⟨s3, rs.out ++ [.startMarkdown]⟩ q3 with
          ⟨a1, a2, a3, a4, a5⟩
        rcases hoc : copyOrAddCue acceptAll cue ⟨s3, rs.out ++ [.startMarkdown]⟩ with
          ⟨h9, rs9⟩
        rw [hoc] at a1 a2 a3 a4 a5
        dsimp only at a1 a2 a3 a4 a5
        rw [q2] at a1 a2
        have heq : copyCodeBlockTail acceptAll cue rs = (h9, rs9) := by
          simp only [copyCodeBlockTail, hae, Bool.false_eq_true, reduceIte, hmh, hsw,
            hcs, hoc]
        have hp : cbTailP cue (absText rs.scan) =
            ([.startMarkdown, .write (cueText cue (dropBlank (absText rs.scan)))],
              cueRest (dropBlank (absText rs.scan))) := by
          simp only [cbTailP, hA1, reduceIte, hnone, Bool.false_eq_true, hcbn]
        have hh9 : h9 = none := by
          rw [a5]
          simp [acceptAll]
        rw [heq, hp, hh9]
        refine ⟨rfl, ⟨.startMarkdown ::
          [.write (if cueSep (dropBlank (absText rs.scan)) then
            cueLabel (dropBlank (absText rs.scan)) ++ uts ": "
            else cue ++ uts ": " ++ cueLabel (dropBlank (absText rs.scan)))],
          by rw [a1]; simp, ?_⟩, a2, a3, by
            show nu rs9.scan ≤ nu rs.scan
            omega⟩
        have hct : (if cueSep (dropBlank (absText rs.scan)) then
            cueLabel (dropBlank (absText rs.scan)) ++ uts ": "
            else cue ++ uts ": " ++ cueLabel (dropBlank (absText rs.scan))) =
            cueText cue (dropBlank (absText rs.scan)) := by
          rw [cueText]
        rw [hct]
    
end BotResponse

namespace BotResponse

set_option maxHeartbeats 1600000 in
theorem copyCodeBlock_pspec (cue : Text) (rs : RS) (hinv : SInv rs.scan) :
    (copyCodeBlock acceptAll cue rs).1 = none ∧
    (∃ d, (copyCodeBlock acceptAll cue rs).2.out = rs.out ++ d ∧
      normEv d = normEv (cbP cue (absText rs.scan)).1) ∧
    absText (copyCodeBlock acceptAll cue rs).2.scan = (cbP cue (absText rs.scan)).2 ∧
    SInv (copyCodeBlock acceptAll cue rs).2.scan ∧
    nu (copyCodeBlock acceptAll cue rs).2.scan ≤ nu rs.scan := by
  have hcs : (callSink acceptAll .startCode rs).2 = ⟨rs.scan, rs.out ++ [.startCode]⟩ := rfl
  rcases cbLoopF_pspec (nu rs.scan + 1) ⟨rs.scan, rs.out ++ [.startCode]⟩
      ((absText rs.scan).length + 1) (Nat.lt_succ_self _) (Nat.lt_succ_self _) hinv with
    ⟨v1, ⟨d1, hd1, hm1⟩, ha1, hs1, hn1⟩
  dsimp only at v1 hd1 hm1 ha1 hs1 hn1
  rcases hcp : cbLoopP ((absText rs.scan).length + 1) (absText rs.scan) with ⟨evs, r, brk⟩
  rw [hcp] at v1 hm1 ha1
  simp only at v1 hm1 ha1
  rcases hl : copyCodeBlockLoopF (nu rs.scan + 1) acceptAll
      ⟨rs.scan, rs.out ++ [.startCode]⟩ with ⟨ex, rs1⟩
  rw [hl] at v1 hd1 ha1 hs1 hn1
  simp only at v1 hd1 ha1 hs1 hn1
  cases brk
  case false =>
    have hex : ex = CBExit.ret := v1
    subst hex
    have heq : copyCodeBlock acceptAll cue rs = (none, rs1) := by
      simp only [copyCodeBlock, hcs, hl]
    have hp : cbP cue (absText rs.scan) = (.startCode :: evs, r) := by
      simp only [cbP, hcp]
    rw [heq, hp]
    refine ⟨rfl, ⟨.startCode :: d1, by rw [hd1]; simp, ?_⟩, ha1, hs1, hn1⟩
    show normEv (.startCode :: d1) = normEv (.startCode :: evs)
    rw [normEv_cons, normEv_cons, hm1]
  case true =>
    have hex : ex = CBExit.brk := v1
    subst hex
    have heq : copyCodeBlock acceptAll cue rs = copyCodeBlockTail acceptAll cue rs1 := by
      simp only [copyCodeBlock, hcs, hl]
    rcases cbTail_pspec cue rs1 hs1 with ⟨t1, ⟨d2, hd2, hm2⟩, ta, ts, tn⟩
    rw [ha1] at hm2 ta
    rcases ht : cbTailP cue r with ⟨evs2, r2⟩
    rw [ht] at hm2 ta
    simp only at hm2 ta
    have hp : cbP cue (absText rs.scan) = (.startCode :: (evs ++ evs2), r2) := by
      simp only [cbP, hcp, ht]
    rw [heq, hp]
    refine ⟨t1, ⟨.startCode :: (d1 ++ d2), by rw [hd2, hd1]; simp, ?_⟩, ta, ts, by omega⟩
    show normEv (.startCode :: (d1 ++ d2)) = normEv (.startCode :: (evs ++ evs2))
    rw [normEv_cons, normEv_cons]
    rw [normEv_congr hm1 hm2]

end BotResponse

theorem hdrOf_nil : hdrOf [] = none := rfl

theorem cbhOf_nil : cbhOf [] = none := rfl

namespace BotResponse

set_option maxHeartbeats 1600000 in
theorem mdLoopF_pspec (fuel : Nat) : ∀ (cue : Text) (rs : RS) (pf : Nat),
    nu rs.scan < fuel → (absText rs.scan).length < pf → SInv rs.scan →
    (copyMarkdownLoopF fuel acceptAll cue rs).1 = none ∧
    (∃ d, (copyMarkdownLoopF fuel acceptAll cue rs).2.out = rs.out ++ d ∧
      normEv d = normEv (mdLoopP pf cue (absText rs.scan)).1) ∧
    absText (copyMarkdownLoopF fuel acceptAll cue rs).2.scan =
      (mdLoopP pf cue (absText rs.scan)).2 ∧
    SInv (copyMarkdownLoopF fuel acceptAll cue rs).2.scan ∧
    nu (copyMarkdownLoopF fuel acceptAll cue rs).2.scan ≤ nu rs.scan := by
  induction fuel with
  | zero => intro cue rs pf h; omega
  | succ fuel ih =>
    intro cue rs pf hfuel hpf hinv
    cases pf with
    | zero => omega
    | succ pf =>
    rcases hae : rs.scan.atEnd
    case true =>
      have hA : absText rs.scan = [] := atEnd_true_absText hinv hae
      have heq : copyMarkdownLoopF (fuel + 1) acceptAll cue rs = (none, rs) := by
        simp only [copyMarkdownLoopF, hae, reduceIte]
      have hp : mdLoopP (pf + 1) cue (absText rs.scan) = ([], absText rs.scan) := by
        rw [hA]
        rfl
      rw [heq, hp]
      exact ⟨rfl, ⟨[], by simp, rfl⟩, rfl, hinv, le_refl _⟩
    case false =>
    rcases matchHeaderLine_spec rs.scan hinv with ⟨m1, m2, m3, m4, m5, m6⟩
    rcases hm : matchHeaderLine rs.scan with ⟨hv, s1⟩
    rw [hm] at m1 m2 m3 m4 m5 m6
    simp only at m1 m2 m3 m4 m5 m6
    cases hv
    case some c =>
      have hsome : (hdrOf (absText rs.scan)).isSome = true := by
        rw [← m1]
        rfl
      have hAne : absText rs.scan ≠ [] := by
        intro hc
        rw [hc, hdrOf_nil] at hsome
        cases hsome
      have heq : copyMarkdownLoopF (fuel + 1) acceptAll cue rs =
          (none, ⟨s1, rs.out⟩) := by
        simp only [copyMarkdownLoopF, hae, Bool.false_eq_true, reduceIte, hm]
      have hp : mdLoopP (pf + 1) cue (absText rs.scan) = ([], absText rs.scan) := by
        simp only [mdLoopP, hAne, reduceIte, hsome]
      rw [heq, hp]
      exact ⟨rfl, ⟨[], by simp, rfl⟩, m2, m3, by
        show nu s1 ≤ nu rs.scan
        omega⟩
    case none =>
      have hnone : (hdrOf (absText rs.scan)).isSome = false := by
        rw [← m1]
        rfl
      rcases skipCodeBlockHeader_spec s1 m3 with ⟨k1, k2, k3, k4, k5⟩
      rcases hsk : skipCodeBlockHeader s1 with ⟨b, s2⟩
      rw [hsk] at k1 k2 k3 k4 k5
      simp only at k1 k2 k3 k4 k5
      rw [m2] at k1 k2 k5
      cases b
      case true =>
        have hsome2 : ∃ c', cbhOf (absText rs.scan) = some c' := by
          cases hcg : cbhOf (absText rs.scan) with
          | none => rw [hcg] at k1; simp at k1
          | some c' => exact ⟨c', rfl⟩
        rcases hsome2 with ⟨c', hcg⟩
        have hAne : absText rs.scan ≠ [] := by
          intro hc
          rw [hc, cbhOf_nil] at hcg
          cases hcg
        have hstrict := k5 c' hcg
        have hfen := fenceOf_length_pos c'
        have habs2 : absText s2 = (absText rs.scan).drop (fenceOf c').length := by
          rw [k2, hcg]
        rcases copyCodeBlock_pspec cue ⟨s2, rs.out⟩ k3 with
          ⟨q1, ⟨d1, hd1, hm1⟩, qa, qs, qn⟩
        rcases hcb : copyCodeBlock acceptAll cue ⟨s2, rs.out⟩ with ⟨h9, rs9⟩
        rw [hcb] at q1 hd1 qa qs qn
        dsimp only at q1 hd1 hm1 qa qs qn
        rw [habs2] at hm1 qa
        have hh9 : h9 = none := q1
        subst hh9
        rcases hbp : cbP cue ((absText rs.scan).drop (fenceOf c').length) with ⟨evs, r⟩
        rw [hbp] at hm1 qa
        simp only at hm1 qa
        have heq : copyMarkdownLoopF (fuel + 1) acceptAll cue rs =
            copyMarkdownLoopF fuel acceptAll cue rs9 := by
          simp only [copyMarkdownLoopF, hae, Bool.false_eq_true, reduceIte, hm, hsk,
            hcb]
        have hlenr : r.length ≤ (absText rs.scan).length - (fenceOf c').length := by
          have := cbP_len cue ((absText rs.scan).drop (fenceOf c').length)
          rw [hbp] at this
          simp only [List.length_drop] at this
          exact this
        have hAlen : 1 ≤ (absText rs.scan).length := by
          have := List.length_pos.mpr hAne
          omega
        rcases ih cue rs9 pf (by
            show nu rs9.scan < fuel
            omega) (by
            rw [qa]
            omega) qs with ⟨r1, ⟨d2, hd2, hm2⟩, ra, rss, rn⟩
        rw [qa] at hm2 ra
        rcases hml : mdLoopP pf cue r with ⟨evs2, r2⟩
        rw [hml] at hm2 ra
        simp only at hm2 ra
        have hp : mdLoopP (pf + 1) cue (absText rs.scan) = (evs ++ evs2, r2) := by
          simp only [mdLoopP, hAne, reduceIte, hnone, Bool.false_eq_true, hcg, hbp, hml]
        rw [heq, hp]
        refine ⟨r1, ⟨d1 ++ d2, by rw [hd2, hd1]; simp, ?_⟩, ra, rss, by
          show nu (copyMarkdownLoopF fuel acceptAll cue rs9).2.scan ≤ nu rs.scan
          omega⟩
        exact normEv_congr hm1 hm2
      case false =>
        have hcg : cbhOf (absText rs.scan) = none := by
          cases hcg : cbhOf (absText rs.scan) with
          | none => rfl
          | some c' => rw [hcg] at k1; simp at k1
        have habs2 : absText s2 = absText rs.scan := by
          rw [k2, hcg]
        rcases Scanner.copyLineTo_true_spec ⟨s2, rs.out⟩ k3 with
          ⟨c1, ⟨d1, hd1, hm1⟩, c3, c4, c5, c6⟩
        rcases hcl : Scanner.copyLineTo acceptAll ⟨s2, rs.out⟩ with ⟨ok2, rs9⟩
        rw [hcl] at c1 hd1 c3 c4 c5 c6
        simp only at c1 hd1 c3 c4 c5 c6
        dsimp only at hm1
        rw [habs2] at hm1 c3 c6
        have hok2 : ok2 = true := c1
        subst hok2
        have heq : copyMarkdownLoopF (fuel + 1) acceptAll cue rs =
            copyMarkdownLoopF fuel acceptAll cue rs9 := by
          simp only [copyMarkdownLoopF, hae, Bool.false_eq_true, reduceIte, hm, hsk,
            hcl]
        by_cases hA : absText rs.scan = []
        · have hdone : rs.scan.inputDone = false := atEnd_false_done hA hae
          have hnu1 : nu s1 = 0 := nu_zero (by rw [m2]; exact hA) (m6 hA) m3
          have hge : 1 ≤ nu rs.scan := nu_pos_of_not_done hdone
          have hfuel9 : nu rs9.scan < fuel := by omega
          have hA9 : absText rs9.scan = [] := by
            rw [c3, hA]
            rfl
          rcases ih cue rs9 (pf + 1) hfuel9 (by simp [hA9]) c5 with
            ⟨r1, ⟨d2, hd2, hm2⟩, ra, rss, rn⟩
          rw [hA9] at hm2 ra
          have hpnil : mdLoopP (pf + 1) cue ([] : Text) = ([], []) := rfl
          rw [hpnil] at hm2 ra
          simp only at hm2 ra
          have hp : mdLoopP (pf + 1) cue (absText rs.scan) = ([], []) := by
            rw [hA]
            exact hpnil
          rw [heq, hp]
          have hm1e : normEv d1 = [] := by
            rw [hm1, hA]
            simp
          refine ⟨r1, ⟨d1 ++ d2, by rw [hd2, hd1]; simp, ?_⟩, ra, rss, by
            show nu (copyMarkdownLoopF fuel acceptAll cue rs9).2.scan ≤ nu rs.scan
            omega⟩
          show normEv (d1 ++ d2) = normEv ([] : List Ev)
          rw [normEv_append, hm1e, hm2]
          rfl
        · have hAne := hA
          have hmne : normEv d1 = [.write (lineSplit (absText rs.scan)).1] := by
            rw [hm1, if_neg hAne]
          have hfst := lineSplit_fst_length_pos hAne
          have hnu9 : nu rs9.scan < nu rs.scan := by omega
          have hsndlt := lineSplit_snd_lt hAne
          rcases ih cue rs9 pf (by omega) (by rw [c3]; omega) c5 with
            ⟨r1, ⟨d2, hd2, hm2⟩, ra, rss, rn⟩
          rw [c3] at hm2 ra
          rcases hml : mdLoopP pf cue (lineSplit (absText rs.scan)).2 with ⟨evs, r⟩
          rw [hml] at hm2 ra
          simp only at hm2 ra
          have hp : mdLoopP (pf + 1) cue (absText rs.scan) =
              (.write (lineSplit (absText rs.scan)).1 :: evs, r) := by
            simp only [mdLoopP, hAne, reduceIte, hnone, Bool.false_eq_true, hcg, hml]
          rw [heq, hp]
          refine ⟨r1, ⟨d1 ++ d2, by rw [hd2, hd1]; simp, ?_⟩, ra, rss, by
            show nu (copyMarkdownLoopF fuel acceptAll cue rs9).2.scan ≤ nu rs.scan
            omega⟩
          show normEv (d1 ++ d2) =
            normEv ([.write (lineSplit (absText rs.scan)).1] ++ evs)
          exact normEv_congr (by rw [hmne]; rfl) hm2

end BotResponse

namespace BotResponse

set_option maxHeartbeats 1600000 in
theorem copyMarkdown_pspec (cue : Text) (rs : RS) (hinv : SInv rs.scan) :
    (copyMarkdown acceptAll cue rs).1 = none ∧
    (∃ d, (copyMarkdown acceptAll cue rs).2.out = rs.out ++ d ∧
      normEv d = normEv (mdP cue (absText rs.scan)).1) ∧
    absText (copyMarkdown acceptAll cue rs).2.scan = (mdP cue (absText rs.scan)).2 ∧
    SInv (copyMarkdown acceptAll cue rs).2.scan ∧
    nu (copyMarkdown acceptAll cue rs).2.scan ≤ nu rs.scan := by
  rcases skipCodeBlockHeader_spec rs.scan hinv with ⟨k1, k2, k3, k4, k5⟩
  rcases hsk : skipCodeBlockHeader rs.scan with ⟨b, s1⟩
  rw [hsk] at k1 k2 k3 k4 k5
  simp only at k1 k2 k3 k4 k5
  cases b
  case true =>
    have hsome2 : ∃ c', cbhOf (absText rs.scan) = some c' := by
      cases hcg : cbhOf (absText rs.scan) with
      | none => rw [hcg] at k1; simp at k1
      | some c' => exact ⟨c', rfl⟩
    rcases hsome2 with ⟨c', hcg⟩
    have habs1 : absText s1 = (absText rs.scan).drop (fenceOf c').length := by
      rw [k2, hcg]
    rcases copyCodeBlock_pspec cue ⟨s1, rs.out⟩ k3 with ⟨q1, ⟨d1, hd1, hm1⟩, qa, qs, qn⟩
    rcases hcb : copyCodeBlock acceptAll cue ⟨s1, rs.out⟩ with ⟨h9, rs1⟩
    rw [hcb] at q1 hd1 qa qs qn
    dsimp only at q1 hd1 hm1 qa qs qn
    rw [habs1] at hm1 qa
    have hh9 : h9 = none := q1
    subst hh9
    rcases hbp : cbP cue ((absText rs.scan).drop (fenceOf c').length) with ⟨evs, r⟩
    rw [hbp] at hm1 qa
    simp only at hm1 qa
    have heq : copyMarkdown acceptAll cue rs =
        copyMarkdownLoopF (nu rs1.scan + 1) acceptAll cue rs1 := by
      simp only [copyMarkdown, hsk, hcb]
    rcases mdLoopF_pspec (nu rs1.scan + 1) cue rs1 (r.length + 1) (Nat.lt_succ_self _)
        (by rw [qa]; exact Nat.lt_succ_self _) qs with ⟨r1, ⟨d2, hd2, hm2⟩, ra, rss, rn⟩
    rw [qa] at hm2 ra
    rcases hml : mdLoopP (r.length + 1) cue r with ⟨evs2, r2⟩
    rw [hml] at hm2 ra
    simp only at hm2 ra
    have hp : mdP cue (absText rs.scan) = (evs ++ evs2, r2) := by
      simp only [mdP, hcg, hbp, hml]
    rw [heq, hp]
    refine ⟨r1, ⟨d1 ++ d2, by rw [hd2, hd1]; simp, ?_⟩, ra, rss, by
      show nu (copyMarkdownLoopF (nu rs1.scan + 1) acceptAll cue rs1).2.scan ≤ nu rs.scan
      omega⟩
    exact normEv_congr hm1 hm2
  case false =>
    have hcg : cbhOf (absText rs.scan) = none := by
      cases hcg : cbhOf (absText rs.scan) with
      | none => rfl
      | some c' => rw [hcg] at k1; simp at k1
    have habs1 : absText s1 = absText rs.scan := by
      rw [k2, hcg]
    rcases copyOrAddCue_spec acceptAll cue ⟨s1, rs.out⟩ k3 with ⟨a1, a2, a3, a4, a5⟩
    rcases hoc : copyOrAddCue acceptAll cue ⟨s1, rs.out⟩ with ⟨h9, rs1⟩
    rw [hoc] at a1 a2 a3 a4 a5
    dsimp only at a1 a2 a3 a4 a5
    rw [habs1] at a1 a2
    have hh9 : h9 = none := by
      rw [a5]
      simp [acceptAll]
    subst hh9
    have heq : copyMarkdown acceptAll cue rs =
        copyMarkdownLoopF (nu rs1.scan + 1) acceptAll cue rs1 := by
      simp only [copyMarkdown, hsk, hoc]
    rcases mdLoopF_pspec (nu rs1.scan + 1) cue rs1 ((cueRest (absText rs.scan)).length + 1)
        (Nat.lt_succ_self _) (by rw [a2]; exact Nat.lt_succ_self _) a3 with
      ⟨r1, ⟨d2, hd2, hm2⟩, ra, rss, rn⟩
    rw [a2] at hm2 ra
    rcases hml : mdLoopP ((cueRest (absText rs.scan)).length + 1) cue
        (cueRest (absText rs.scan)) with ⟨evs, r⟩
    rw [hml] at hm2 ra
    simp only at hm2 ra
    have hp : mdP cue (absText rs.scan) = (.write (cueText cue (absText rs.scan)) :: evs, r) := by
      simp only [mdP, hcg, hml]
    rw [heq, hp]
    refine ⟨r1, ⟨.write (cueText cue (absText rs.scan)) :: d2, ?_, ?_⟩, ra, rss, by
      show nu (copyMarkdownLoopF (nu rs1.scan + 1) acceptAll cue rs1).2.scan ≤ nu rs.scan
      omega⟩
    · rw [hd2, a1, cueText]
      simp
    · show normEv ([.write (cueText cue (absText rs.scan))] ++ d2) =
        normEv ([.write (cueText cue (absText rs.scan))] ++ evs)
      exact normEv_congr rfl hm2

end BotResponse

namespace BotResponse

set_option maxHeartbeats 1600000 in
theorem ccLoopF_pspec (fuel : Nat) : ∀ (rs : RS) (pf : Nat),
    nu rs.scan < fuel → (absText rs.scan).length < pf → SInv rs.scan →
    (copyCodeCellF fuel acceptAll rs).1 = none ∧
    (∃ d, (copyCodeCellF fuel acceptAll rs).2.out = rs.out ++ d ∧
      normEv d = normEv (ccLoopP pf (absText rs.scan)).1) ∧
    absText (copyCodeCellF fuel acceptAll rs).2.scan =
      (ccLoopP pf (absText rs.scan)).2 ∧
    SInv (copyCodeCellF fuel acceptAll rs).2.scan ∧
    nu (copyCodeCellF fuel acceptAll rs).2.scan ≤ nu rs.scan := by
  induction fuel with
  | zero => intro rs pf h; omega
  | succ fuel ih =>
    intro rs pf hfuel hpf hinv
    cases pf with
    | zero => omega
    | succ pf =>
    rcases hae : rs.scan.atEnd
    case true =>
      have hA : absText rs.scan = [] := atEnd_true_absText hinv hae
      have heq : copyCodeCellF (fuel + 1) acceptAll rs = (none, rs) := by
        simp only [copyCodeCellF, hae, reduceIte]
      have hp : ccLoopP (pf + 1) (absText rs.scan) = ([], absText rs.scan) := by
        rw [hA]
        rfl
      rw [heq, hp]
      exact ⟨rfl, ⟨[], by simp, rfl⟩, rfl, hinv, le_refl _⟩
    case false =>
    rcases matchHeaderLine_spec rs.scan hinv with ⟨m1, m2, m3, m4, m5, m6⟩
    rcases hm : matchHeaderLine rs.scan with ⟨hv, s1⟩
    rw [hm] at m1 m2 m3 m4 m5 m6
    simp only at m1 m2 m3 m4 m5 m6
    cases hv
    case some c =>
      have hsome : (hdrOf (absText rs.scan)).isSome = true := by
        rw [← m1]
        rfl
      have hAne : absText rs.scan ≠ [] := by
        intro hc
        rw [hc, hdrOf_nil] at hsome
        cases hsome
      have heq : copyCodeCellF (fuel + 1) acceptAll rs = (none, ⟨s1, rs.out⟩) := by
        simp only [copyCodeCellF, hae, Bool.false_eq_true, reduceIte, hm]
      have hp : ccLoopP (pf + 1) (absText rs.scan) = ([], absText rs.scan) := by
        simp only [ccLoopP, hAne, reduceIte, hsome]
      rw [heq, hp]
      exact ⟨rfl, ⟨[], by simp, rfl⟩, m2, m3, by
        show nu s1 ≤ nu rs.scan
        omega⟩
    case none =>
      have hnone : (hdrOf (absText rs.scan)).isSome = false := by
        rw [← m1]
        rfl
      rcases Scanner.copyLineTo_true_spec ⟨s1, rs.out⟩ m3 with
        ⟨c1, ⟨d1, hd1, hm1⟩, c3, c4, c5, c6⟩
      rcases hcl : Scanner.copyLineTo acceptAll ⟨s1, rs.out⟩ with ⟨ok2, rs9⟩
      rw [hcl] at c1 hd1 c3 c4 c5 c6
      simp only at c1 hd1 c3 c4 c5 c6
      dsimp only at hm1
      rw [m2] at hm1 c3 c6
      have hok2 : ok2 = true := c1
      subst hok2
      have heq : copyCodeCellF (fuel + 1) acceptAll rs =
          copyCodeCellF fuel acceptAll rs9 := by
        simp only [copyCodeCellF, hae, Bool.false_eq_true, reduceIte, hm, hcl]
      by_cases hA : absText rs.scan = []
      · have hdone : rs.scan.inputDone = false := atEnd_false_done hA hae
        have hnu1 : nu s1 = 0 := nu_zero (by rw [m2]; exact hA) (m6 hA) m3
        have hge : 1 ≤ nu rs.scan := nu_pos_of_not_done hdone
        have hfuel9 : nu rs9.scan < fuel := by omega
        have hA9 : absText rs9.scan = [] := by
          rw [c3, hA]
          rfl
        rcases ih rs9 (pf + 1) hfuel9 (by simp [hA9]) c5 with
          ⟨r1, ⟨d2, hd2, hm2⟩, ra, rss, rn⟩
        rw [hA9] at hm2 ra
        have hpnil : ccLoopP (pf + 1) ([] : Text) = ([], []) := rfl
        rw [hpnil] at hm2 ra
        simp only at hm2 ra
        have hp : ccLoopP (pf + 1) (absText rs.scan) = ([], []) := by
          rw [hA]
          exact hpnil
        rw [heq, hp]
        have hm1e : normEv d1 = [] := by
          rw [hm1, hA]
          simp
        refine ⟨r1, ⟨d1 ++ d2, by rw [hd2, hd1]; simp, ?_⟩, ra, rss, by
          show nu (copyCodeCellF fuel acceptAll rs9).2.scan ≤ nu rs.scan
          omega⟩
        show normEv (d1 ++ d2) = normEv ([] : List Ev)
        rw [normEv_append, hm1e, hm2]
        rfl
      · have hAne := hA
        have hmne : normEv d1 = [.write (lineSplit (absText rs.scan)).1] := by
          rw [hm1, if_neg hAne]
        have hfst := lineSplit_fst_length_pos hAne
        have hnu9 : nu rs9.scan < nu rs.scan := by omega
        have hsndlt := lineSplit_snd_lt hAne
        rcases ih rs9 pf (by omega) (by rw [c3]; omega) c5 with
          ⟨r1, ⟨d2, hd2, hm2⟩, ra, rss, rn⟩
        rw [c3] at hm2 ra
        rcases hml : ccLoopP pf (lineSplit (absText rs.scan)).2 with ⟨evs, r⟩
        rw [hml] at hm2 ra
        simp only at hm2 ra
        have hp : ccLoopP (pf + 1) (absText rs.scan) =
            (.write (lineSplit (absText rs.scan)).1 :: evs, r) := by
          simp only [ccLoopP, hAne, reduceIte, hnone, Bool.false_eq_true, hml]
        rw [heq, hp]
        refine ⟨r1, ⟨d1 ++ d2, by rw [hd2, hd1]; simp, ?_⟩, ra, rss, by
          show nu (copyCodeCellF fuel acceptAll rs9).2.scan ≤ nu rs.scan
          omega⟩
        show normEv (d1 ++ d2) =
          normEv ([.write (lineSplit (absText rs.scan)).1] ++ evs)
        exact normEv_congr (by rw [hmne]; rfl) hm2

theorem copyCodeCell_pspec (rs : RS) (hinv : SInv rs.scan) :
    (copyCodeCell acceptAll rs).1 = none ∧
    (∃ d, (copyCodeCell acceptAll rs).2.out = rs.out ++ d ∧
      normEv d = normEv (ccP (absText rs.scan)).1) ∧
    absText (copyCodeCell acceptAll rs).2.scan = (ccP (absText rs.scan)).2 ∧
    SInv (copyCodeCell acceptAll rs).2.scan ∧
    nu (copyCodeCell acceptAll rs).2.scan ≤ nu rs.scan :=
  ccLoopF_pspec (nu rs.scan + 1) rs ((absText rs.scan).length + 1)
    (Nat.lt_succ_self _) (Nat.lt_succ_self _) hinv

end BotResponse

namespace BotResponse

set_option maxHeartbeats 3200000 in
theorem copyLoopF_pspec (fuel : Nat) : ∀ (cue : Text) (c : CellType) (rs : RS)
    (pf : Nat), nu rs.scan < fuel → (absText rs.scan).length < pf → SInv rs.scan →
    (headerOf c).isPrefixOf (absText rs.scan) = true →
    (copyLoopF fuel acceptAll cue c rs).1 = none ∧
    (∃ d, (copyLoopF fuel acceptAll cue c rs).2.out = rs.out ++ d ∧
      normEv d = normEv (loopP pf cue c (absText rs.scan)).1) ∧
    absText (copyLoopF fuel acceptAll cue c rs).2.scan =
      (loopP pf cue c (absText rs.scan)).2 ∧
    SInv (copyLoopF fuel acceptAll cue c rs).2.scan ∧
    nu (copyLoopF fuel acceptAll cue c rs).2.scan ≤ nu rs.scan := by
  induction fuel with
  | zero => intro cue c rs pf h; omega
  | succ fuel ih =>
    intro cue c rs pf hfuel hpf hinv hhdr
    cases pf with
    | zero => omega
    | succ pf =>
    rcases Scanner.skipToken_spec (headerOf c) rs.scan hinv with ⟨k1, k2, k3, k4, k5, k6⟩
    rcases hsk : Scanner.skipToken (headerOf c) rs.scan with ⟨ok, s1⟩
    rw [hsk] at k1 k2 k3 k4 k5 k6
    simp only at k1 k2 k3 k4 k5 k6
    have hok : ok = true := by rw [k1, hhdr]
    subst hok
    have hstrict := k5 rfl
    have hhl := headerOf_length_pos c
    have hAge : (headerOf c).length ≤ (absText rs.scan).length :=
      (List.isPrefixOf_iff_prefix.mp hhdr).length_le
    have habs1 : absText s1 = (absText rs.scan).drop (headerOf c).length := by
      rw [k2, if_pos hhdr]
    rcases skipBlankLines_spec s1 k3 with ⟨sb1, sb2, sb3, sb4⟩
    have hU : absText (skipBlankLines s1) =
        dropBlank ((absText rs.scan).drop (headerOf c).length) := by
      rw [sb1, habs1]
    have hUlen : (dropBlank ((absText rs.scan).drop (headerOf c).length)).length ≤
        (absText rs.scan).length - (headerOf c).length := by
      have h1 := dropBlank_len ((absText rs.scan).drop (headerOf c).length)
      simpa [List.length_drop] using h1
    by_cases hc : c = CellType.markdown
    · subst hc
      have hsc : startCell acceptAll .startMarkdown ⟨s1, rs.out⟩ =
          ⟨skipBlankLines s1, rs.out ++ [.startMarkdown]⟩ := rfl
      rcases copyMarkdown_pspec cue ⟨skipBlankLines s1, rs.out ++ [.startMarkdown]⟩
        sb2 with ⟨p1, ⟨d1, hd1, hm1⟩, pa, ps, pn⟩
      rcases copyMarkdown_gspec acceptAll cue
        ⟨skipBlankLines s1, rs.out ++ [.startMarkdown]⟩ sb2 with ⟨dg, hg1, hg2, hg3, hg4, hg5, hg6⟩
      rcases hmd : copyMarkdown acceptAll cue
          ⟨skipBlankLines s1, rs.out ++ [.startMarkdown]⟩ with ⟨h9, rs9⟩
      rw [hmd] at p1 hd1 pa ps pn hg6
      dsimp only at p1 hd1 hm1 pa ps pn hg6
      rw [hU] at hm1 pa
      have hh9 : h9 = none := p1
      subst hh9
      rcases hbd : mdP cue (dropBlank ((absText rs.scan).drop
          (headerOf CellType.markdown).length)) with ⟨evs, r⟩
      rw [hbd] at hm1 pa
      simp only at hm1 pa
      have hrlen : r.length ≤ (absText rs.scan).length - (headerOf CellType.markdown).length := by
        have h1 : r.length ≤ (dropBlank ((absText rs.scan).drop
            (headerOf CellType.markdown).length)).length := by
          have h0 := mdP_len cue (dropBlank ((absText rs.scan).drop
            (headerOf CellType.markdown).length))
          rw [hbd] at h0
          exact h0
        omega
      cases hae9 : rs9.scan.atEnd with
      | true =>
        have hre : r = [] := by
          rw [← pa]
          exact atEnd_true_absText ps hae9
        subst hre
        have heq : copyLoopF (fuel + 1) acceptAll cue CellType.markdown rs =
            (none, rs9) := by
          simp only [copyLoopF, hsk, reduceIte, hsc, hmd, copyLoopStep, hae9, if_true]
        have hp : loopP (pf + 1) cue CellType.markdown (absText rs.scan) =
            (.startMarkdown :: evs, []) := by
          simp only [loopP, hhdr, reduceIte, hbd, if_true]
        rw [heq, hp]
        refine ⟨rfl, ⟨.startMarkdown :: d1, by dsimp only; rw [hd1]; simp, ?_⟩, pa, ps, by
          show nu rs9.scan ≤ nu rs.scan
          omega⟩
        show normEv (.startMarkdown :: d1) = normEv (.startMarkdown :: evs)
        rw [normEv_cons, normEv_cons, hm1]
      | false =>
        have hpost := hg6 rfl
        rcases hpost with hpost | hpost
        · rw [hae9] at hpost
          cases hpost
        · rw [pa] at hpost
          have hre : r ≠ [] := by
            intro hcon
            rw [hcon, hdrOf_nil] at hpost
            cases hpost
          rcases matchHeaderLine_spec rs9.scan ps with ⟨m1, m2, m3, m4, m5, m6⟩
          rcases hm9 : matchHeaderLine rs9.scan with ⟨hv2, s2⟩
          rw [hm9] at m1 m2 m3 m4 m5 m6
          simp only at m1 m2 m3 m4 m5 m6
          rw [pa] at m1 m2
          cases hv2 with
          | none =>
            rw [← m1] at hpost
            cases hpost
          | some c2 =>
            have hsome2 : hdrOf r = some c2 := m1.symm
            have heq : copyLoopF (fuel + 1) acceptAll cue CellType.markdown rs =
                copyLoopF fuel acceptAll cue c2 ⟨s2, rs9.out⟩ := by
              simp only [copyLoopF, hsk, reduceIte, hsc, hmd, copyLoopStep,
                hae9, Bool.false_eq_true, if_false, hm9]
            have hpre2 : (headerOf c2).isPrefixOf (absText s2) = true := by
              rw [m2]
              exact hdrOfGo_some_prefix allCellTypes _ c2 hsome2
            rcases ih cue c2 ⟨s2, rs9.out⟩ pf (by
              show nu s2 < fuel
              omega) (by
              show (absText s2).length < pf
              rw [m2]
              omega) m3 hpre2 with ⟨r1, ⟨d2, hdd, hm2⟩, ra2, rss2, rn2⟩
            dsimp only at hdd hm2 ra2 rn2
            rw [m2] at hm2 ra2
            rcases hlp : loopP pf cue c2 r with ⟨evs2, r2⟩
            rw [hlp] at hm2 ra2
            simp only at hm2 ra2
            have hp : loopP (pf + 1) cue CellType.markdown (absText rs.scan) =
                ((.startMarkdown :: evs) ++ evs2, r2) := by
              simp only [loopP, hhdr, reduceIte, hbd, hre, if_false, hsome2, hlp]
            rw [heq, hp]
            refine ⟨r1, ⟨.startMarkdown :: (d1 ++ d2), by rw [hdd, hd1]; simp, ?_⟩,
              ra2, rss2, by
              show nu (copyLoopF fuel acceptAll cue c2 ⟨s2, rs9.out⟩).2.scan ≤ nu rs.scan
              omega⟩
            show normEv (.startMarkdown :: (d1 ++ d2)) =
              normEv (.startMarkdown :: (evs ++ evs2))
            rw [normEv_cons, normEv_cons, normEv_congr hm1 hm2]
    · have hsc : startCell acceptAll .startCode ⟨s1, rs.out⟩ =
          ⟨skipBlankLines s1, rs.out ++ [.startCode]⟩ := rfl
      rcases copyCodeCell_pspec ⟨skipBlankLines s1, rs.out ++ [.startCode]⟩
        sb2 with ⟨p1, ⟨d1, hd1, hm1⟩, pa, ps, pn⟩
      rcases copyCodeCell_gspec acceptAll
        ⟨skipBlankLines s1, rs.out ++ [.startCode]⟩ sb2 with ⟨dg, hg1, hg2, hg3, hg4, hg5, hg6⟩
      rcases hmd : copyCodeCell acceptAll
          ⟨skipBlankLines s1, rs.out ++ [.startCode]⟩ with ⟨h9, rs9⟩
      rw [hmd] at p1 hd1 pa ps pn hg6
      dsimp only at p1 hd1 hm1 pa ps pn hg6
      rw [hU] at hm1 pa
      have hh9 : h9 = none := p1
      subst hh9
      rcases hbd : ccP (dropBlank ((absText rs.scan).drop
          (headerOf c).length)) with ⟨evs, r⟩
      rw [hbd] at hm1 pa
      simp only at hm1 pa
      have hrlen : r.length ≤ (absText rs.scan).length - (headerOf c).length := by
        have h1 : r.length ≤ (dropBlank ((absText rs.scan).drop
            (headerOf c).length)).length := by
          have h0 := ccP_len (dropBlank ((absText rs.scan).drop (headerOf c).length))
          rw [hbd] at h0
          exact h0
        omega
      cases hae9 : rs9.scan.atEnd with
      | true =>
        have hre : r = [] := by
          rw [← pa]
          exact atEnd_true_absText ps hae9
        subst hre
        have heq : copyLoopF (fuel + 1) acceptAll cue c rs = (none, rs9) := by
          simp only [copyLoopF, hsk, if_neg hc, hsc, hmd, copyLoopStep, hae9, if_true]
        have hp : loopP (pf + 1) cue c (absText rs.scan) =
            ((if c = .markdown then Ev.startMarkdown else Ev.startCode) :: evs, []) := by
          simp only [loopP, hhdr, reduceIte, if_neg hc, hbd, if_true]
        have hev : (if c = .markdown then Ev.startMarkdown else Ev.startCode) =
            Ev.startCode := by
          rw [if_neg hc]
        rw [heq, hp, hev]
        refine ⟨rfl, ⟨.startCode :: d1, by dsimp only; rw [hd1]; simp, ?_⟩, pa, ps, by
          show nu rs9.scan ≤ nu rs.scan
          omega⟩
        show normEv (.startCode :: d1) = normEv (.startCode :: evs)
        rw [normEv_cons, normEv_cons, hm1]
      | false =>
        have hpost := hg6 rfl
        rcases hpost with hpost | hpost
        · rw [hae9] at hpost
          cases hpost
        · rw [pa] at hpost
          have hre : r ≠ [] := by
            intro hcon
            rw [hcon, hdrOf_nil] at hpost
            cases hpost
          rcases matchHeaderLine_spec rs9.scan ps with ⟨m1, m2, m3, m4, m5, m6⟩
          rcases hm9 : matchHeaderLine rs9.scan with ⟨hv2, s2⟩
          rw [hm9] at m1 m2 m3 m4 m5 m6
          simp only at m1 m2 m3 m4 m5 m6
          rw [pa] at m1 m2
          cases hv2 with
          | none =>
            rw [← m1] at hpost
            cases hpost
          | some c2 =>
            have hsome2 : hdrOf r = some c2 := m1.symm
            have heq : copyLoopF (fuel + 1) acceptAll cue c rs =
                copyLoopF fuel acceptAll cue c2 ⟨s2, rs9.out⟩ := by
              simp only [copyLoopF, hsk, if_neg hc, hsc, hmd, copyLoopStep,
                hae9, Bool.false_eq_true, if_false, hm9]
            have hpre2 : (headerOf c2).isPrefixOf (absText s2) = true := by
              rw [m2]
              exact hdrOfGo_some_prefix allCellTypes _ c2 hsome2
            rcases ih cue c2 ⟨s2, rs9.out⟩ pf (by
              show nu s2 < fuel
              omega) (by
              show (absText s2).length < pf
              rw [m2]
              omega) m3 hpre2 with ⟨r1, ⟨d2, hdd, hm2⟩, ra2, rss2, rn2⟩
            dsimp only at hdd hm2 ra2 rn2
            rw [m2] at hm2 ra2
            rcases hlp : loopP pf cue c2 r with ⟨evs2, r2⟩
            rw [hlp] at hm2 ra2
            simp only at hm2 ra2
            have hp : loopP (pf + 1) cue c (absText rs.scan) =
                (((if c = .markdown then Ev.startMarkdown else Ev.startCode) :: evs)
                  ++ evs2, r2) := by
              simp only [loopP, hhdr, reduceIte, if_neg hc, hbd, hre, if_false,
                hsome2, hlp]
            have hev : (if c = .markdown then Ev.startMarkdown else Ev.startCode) =
                Ev.startCode := by
              rw [if_neg hc]
            rw [heq, hp, hev]
            refine ⟨r1, ⟨.startCode :: (d1 ++ d2), by rw [hdd, hd1]; simp, ?_⟩,
              ra2, rss2, by
              show nu (copyLoopF fuel acceptAll cue c2 ⟨s2, rs9.out⟩).2.scan ≤ nu rs.scan
              omega⟩
            show normEv (.startCode :: (d1 ++ d2)) =
              normEv (.startCode :: (evs ++ evs2))
            rw [normEv_cons, normEv_cons, normEv_congr hm1 hm2]

end BotResponse

namespace BotResponse

set_option maxHeartbeats 3200000 in
theorem copy_pspec (cue : Text) (rs : RS) (hinv : SInv rs.scan) :
    (copy acceptAll cue rs).1 = none ∧
    (∃ d, (copy acceptAll cue rs).2.out = rs.out ++ d ∧
      normEv d = normEv (copyP cue (absText rs.scan)).1) ∧
    absText (copy acceptAll cue rs).2.scan = (copyP cue (absText rs.scan)).2 ∧
    SInv (copy acceptAll cue rs).2.scan := by
  rcases skipBlankLines_spec rs.scan hinv with ⟨sb1, sb2, sb3, sb4⟩
  cases hae : (skipBlankLines rs.scan).atEnd with
  | true =>
    have hA1 : dropBlank (absText rs.scan) = [] := by
      rw [← sb1]
      exact atEnd_true_absText sb2 hae
    rcases writeOrCancel_spec acceptAll (cue ++ uts ": (no response)")
      ⟨skipBlankLines rs.scan, rs.out⟩ with ⟨w1, w2⟩
    rcases hwc : writeOrCancel acceptAll (cue ++ uts ": (no response)")
        ⟨skipBlankLines rs.scan, rs.out⟩ with ⟨h9, rs9⟩
    rw [hwc] at w1 w2
    dsimp only at w1 w2
    have heq : copy acceptAll cue rs = (h9, rs9) := by
      rw [copy]
      simp only [hae, reduceIte, hwc]
    have hh9 : h9 = none := by
      rw [w2]
      simp [acceptAll]
    subst hh9
    have hp : copyP cue (absText rs.scan) =
        ([.write (cue ++ uts ": (no response)")], dropBlank (absText rs.scan)) := by
      simp only [copyP, hA1, reduceIte]
    rw [heq, hp]
    refine ⟨rfl, ⟨[.write (cue ++ uts ": (no response)")], by rw [w1], rfl⟩, ?_, ?_⟩
    · show absText rs9.scan = dropBlank (absText rs.scan)
      rw [w1]
      exact sb1
    · show SInv rs9.scan
      rw [w1]
      exact sb2
  | false =>
    have hAne1 : dropBlank (absText rs.scan) ≠ [] := by
      intro hc
      have hd : (skipBlankLines rs.scan).inputDone = true := sb3 (by rw [sb1]; exact hc)
      have := atEnd_true_of (by rw [sb1]; exact hc) hd
      rw [this] at hae
      cases hae
    rcases matchHeaderLine_spec (skipBlankLines rs.scan) sb2 with ⟨m1, m2, m3, m4, m5, m6⟩
    rcases hm : matchHeaderLine (skipBlankLines rs.scan) with ⟨hv, s2⟩
    rw [hm] at m1 m2 m3 m4 m5 m6
    simp only at m1 m2 m3 m4 m5 m6
    rw [sb1] at m1 m2
    cases hv with
    | some c =>
      have hsome : hdrOf (dropBlank (absText rs.scan)) = some c := m1.symm
      have heq : copy acceptAll cue rs =
          copyLoopF (nu s2 + 1) acceptAll cue c ⟨s2, rs.out⟩ := by
        rw [copy]
        simp only [hae, Bool.false_eq_true, reduceIte, hm]
      have hpre : (headerOf c).isPrefixOf (absText s2) = true := by
        rw [m2]
        exact hdrOfGo_some_prefix allCellTypes _ c hsome
      rcases copyLoopF_pspec (nu s2 + 1) cue c ⟨s2, rs.out⟩
          ((dropBlank (absText rs.scan)).length + 1) (by
          show nu s2 < nu s2 + 1
          omega) (by
          show (absText s2).length < (dropBlank (absText rs.scan)).length + 1
          rw [m2]
          omega) m3 hpre with ⟨r1, ⟨d2, hdd, hm2⟩, ra2, rss2, rn2⟩
      dsimp only at r1 hdd hm2 ra2 rn2
      rw [m2] at hm2 ra2
      have hp : copyP cue (absText rs.scan) =
          loopP ((dropBlank (absText rs.scan)).length + 1) cue c
            (dropBlank (absText rs.scan)) := by
        simp only [copyP, hAne1, reduceIte, hsome]
      rw [heq, hp]
      exact ⟨r1, ⟨d2, hdd, hm2⟩, ra2, rss2⟩
    | none =>
      have hnone : hdrOf (dropBlank (absText rs.scan)) = none := m1.symm
      rcases copyMarkdown_pspec cue ⟨s2, rs.out⟩ m3 with ⟨p1, ⟨d1, hd1, hm1⟩, pa, ps, pn⟩
      rcases copyMarkdown_gspec acceptAll cue ⟨s2, rs.out⟩ m3 with
        ⟨dg, hg1, hg2, hg3, hg4, hg5, hg6⟩
      rcases hmd : copyMarkdown acceptAll cue ⟨s2, rs.out⟩ with ⟨h9, rs9⟩
      rw [hmd] at p1 hd1 pa ps pn hg6
      dsimp only at p1 hd1 hm1 pa ps pn hg6
      rw [m2] at hm1 pa
      have hh9 : h9 = none := p1
      subst hh9
      rcases hbd : mdP cue (dropBlank (absText rs.scan)) with ⟨evs, r⟩
      rw [hbd] at hm1 pa
      simp only at hm1 pa
      cases hae9 : rs9.scan.atEnd with
      | true =>
        have hre : r = [] := by
          rw [← pa]
          exact atEnd_true_absText ps hae9
        subst hre
        have heq : copy acceptAll cue rs = (none, rs9) := by
          rw [copy]
          simp only [hae, Bool.false_eq_true, reduceIte, hm, hmd, copyLoopStep,
            hae9, if_true]
        have hp : copyP cue (absText rs.scan) = (evs, []) := by
          simp only [copyP, hAne1, reduceIte, hnone, hbd, if_true]
        rw [heq, hp]
        exact ⟨rfl, ⟨d1, hd1, hm1⟩, pa, ps⟩
      | false =>
        have hpost := hg6 rfl
        rcases hpost with hpost | hpost
        · rw [hae9] at hpost
          cases hpost
        · rw [pa] at hpost
          have hre : r ≠ [] := by
            intro hcon
            rw [hcon, hdrOf_nil] at hpost
            cases hpost
          rcases matchHeaderLine_spec rs9.scan ps with ⟨n1, n2, n3, n4, n5, n6⟩
          rcases hm9 : matchHeaderLine rs9.scan with ⟨hv2, s3⟩
          rw [hm9] at n1 n2 n3 n4 n5 n6
          simp only at n1 n2 n3 n4 n5 n6
          rw [pa] at n1 n2
          cases hv2 with
          | none =>
            rw [← n1] at hpost
            cases hpost
          | some c2 =>
            have hsome2 : hdrOf r = some c2 := n1.symm
            have heq : copy acceptAll cue rs =
                copyLoopF (nu (⟨s3, rs9.out⟩ : RS).scan + 1) acceptAll cue c2
                  ⟨s3, rs9.out⟩ := by
              rw [copy]
              simp only [hae, Bool.false_eq_true, reduceIte, hm, hmd, copyLoopStep,
                hae9, if_false, hm9]
            have hpre2 : (headerOf c2).isPrefixOf (absText s3) = true := by
              rw [n2]
              exact hdrOfGo_some_prefix allCellTypes _ c2 hsome2
            rcases copyLoopF_pspec (nu (⟨s3, rs9.out⟩ : RS).scan + 1) cue c2
                ⟨s3, rs9.out⟩ (r.length + 1) (Nat.lt_succ_self _) (by
                show (absText s3).length < r.length + 1
                rw [n2]
                omega) n3 hpre2 with ⟨r1, ⟨d2, hdd, hm2⟩, ra2, rss2, rn2⟩
            dsimp only at r1 hdd hm2 ra2 rn2
            rw [n2] at hm2 ra2
            rcases hlp : loopP (r.length + 1) cue c2 r with ⟨evs2, r2⟩
            rw [hlp] at hm2 ra2
            simp only at hm2 ra2
            have hp : copyP cue (absText rs.scan) = (evs ++ evs2, r2) := by
              simp only [copyP, hAne1, reduceIte, hnone, hbd, hre, if_false,
                hsome2, hlp]
            rw [heq, hp]
            refine ⟨r1, ⟨d1 ++ d2, by rw [hdd, hd1]; simp, ?_⟩, ra2, rss2⟩
            exact normEv_congr hm1 hm2

end BotResponse

set_option maxHeartbeats 1600000 in
/-- C1 (amended): for a fixed logical input string, the parse outcome of
`BotResponse.copy` under an all-accepting sink is independent of how the
string is split into delivered chunks: both runs halt the same way and
produce the same sink-call sequence up to coalescing of adjacent writes
into the same cell text (the raw `write` calls may differ in chunking, as
`c1_counterexample` shows, so cell kinds, cell order and cell texts are
identical). -/
theorem c1_amended (cue : Text) (chunks₁ chunks₂ : List Text)
    (h : chunks₁.flatten = chunks₂.flatten) :
    (BotResponse.runCopy acceptAll cue chunks₁).1 =
      (BotResponse.runCopy acceptAll cue chunks₂).1 ∧
    normEv (BotResponse.runCopy acceptAll cue chunks₁).2.out =
      normEv (BotResponse.runCopy acceptAll cue chunks₂).2.out := by
  rcases BotResponse.copy_pspec cue ⟨⟨[], chunks₁, false⟩, []⟩
    (fun hc => Bool.noConfusion hc) with ⟨a1, ⟨d1, hd1, hm1⟩, ha1, hs1⟩
  rcases BotResponse.copy_pspec cue ⟨⟨[], chunks₂, false⟩, []⟩
    (fun hc => Bool.noConfusion hc) with ⟨a2, ⟨d2, hd2, hm2⟩, ha2, hs2⟩
  dsimp only at a1 hd1 hm1 a2 hd2 hm2
  constructor
  · show (BotResponse.copy acceptAll cue ⟨⟨[], chunks₁, false⟩, []⟩).1 =
      (BotResponse.copy acceptAll cue ⟨⟨[], chunks₂, false⟩, []⟩).1
    rw [a1, a2]
  · show normEv (BotResponse.copy acceptAll cue ⟨⟨[], chunks₁, false⟩, []⟩).2.out =
      normEv (BotResponse.copy acceptAll cue ⟨⟨[], chunks₂, false⟩, []⟩).2.out
    rw [hd1, hd2]
    show normEv d1 = normEv d2
    rw [hm1, hm2]
    have e1 : absText ⟨[], chunks₁, false⟩ = chunks₁.flatten := rfl
    have e2 : absText ⟨[], chunks₂, false⟩ = chunks₂.flatten := rfl
    rw [e1, e2, h]

set_option maxHeartbeats 1000000 in
/-- Witness for `c1_amended`: the two chunkings of the C1 counterexample
input (`"!!\n"` delivered whole versus one unit at a time) yield the same
halt and the same normalised call sequence. -/
theorem c1_amended_witness :
    List.flatten [uts "!!\n"] = List.flatten [uts "!", uts "!", uts "\n"] ∧
    ((BotResponse.runCopy acceptAll (uts "bot") [uts "!!\n"]).1 =
        (BotResponse.runCopy acceptAll (uts "bot") [uts "!", uts "!", uts "\n"]).1 ∧
      normEv (BotResponse.runCopy acceptAll (uts "bot") [uts "!!\n"]).2.out =
        normEv (BotResponse.runCopy acceptAll (uts "bot")
          [uts "!", uts "!", uts "\n"]).2.out) :=
  ⟨by decide, c1_amended (uts "bot") [uts "!!\n"] [uts "!", uts "!", uts "\n"]
    (by decide)⟩
